import Mathlib

/-!
Verification development for the NeoBookMarkManager bookmark tree core.

The Python program represents bookmarks as a mutable object graph of `Node`
objects (`src/core/model.py`) carrying a `type` ("folder"/"bookmark"), text
fields, an ordered `children` list and a `parent` back-reference.  We embed
this object graph as an explicit heap: nodes are identified by natural-number
ids, and the heap stores one record per id.  Mutation of a Python object
becomes replacement of the record at its id, so aliasing, stale parent
pointers and cycles are all representable, exactly as in the source.
-/

namespace NeoBMM

/-- Node kind: the Python `type` field, `"folder"` or `"bookmark"`. -/
inductive Kind where
  | folder
  | bookmark
deriving DecidableEq, Repr

/-- One Python `Node` object (src/core/model.py:16-30): its scalar fields,
its `children` list (ids) and its `parent` back-reference (id or `None`). -/
structure NodeData where
  kind : Kind := .folder
  title : String := ""
  url : String := ""
  add_date : String := ""
  last_modified : String := ""
  parent : Option Nat := none
  children : List Nat := []
deriving DecidableEq, Repr

/-- The object heap: record `nodes[i]` is the node with id `i`; `root` is the
id of the tree root.  Ids `≥ nodes.length` are unallocated. -/
structure Heap where
  root : Nat := 0
  nodes : List NodeData := []
deriving DecidableEq, Repr

/-- Read a node record (unallocated ids read as a default empty record). -/
def Heap.get (h : Heap) (n : Nat) : NodeData := h.nodes.getD n {}

/-- Overwrite the record at id `n` (no-op on unallocated ids, which the
program never touches). -/
def Heap.set (h : Heap) (n : Nat) (d : NodeData) : Heap :=
  { h with nodes := h.nodes.set n d }

/-- Number of allocated ids. -/
def Heap.size (h : Heap) : Nat := h.nodes.length

/-- `Node.append` (src/core/model.py:28-30):
`child.parent = self; self.children.append(child)`.
Note the source performs no cycle or ancestry check whatsoever. -/
def Heap.append (h : Heap) (self child : Nat) : Heap :=
  let h1 := h.set child { h.get child with parent := some self }
  h1.set self { h1.get self with children := (h1.get self).children ++ [child] }

/-- Remove `c` from `p`'s children list (Python `p.children.remove(c)`:
removes the first occurrence). -/
def Heap.eraseChild (h : Heap) (p c : Nat) : Heap :=
  h.set p { h.get p with children := (h.get p).children.erase c }

/-- The detach idiom used throughout the GUI code:
`if node.parent: node.parent.children.remove(node)`.
The parent back-reference is left as is. -/
def Heap.detach (h : Heap) (c : Nat) : Heap :=
  match (h.get c).parent with
  | none => h
  | some p => h.eraseChild p c

/-- The `.parent.parent` of a node (`None` as soon as a link is missing). -/
def Heap.grandparent (h : Heap) (n : Nat) : Option Nat :=
  (h.get n).parent.bind fun p => (h.get p).parent

/-- All node ids mentioned by allocated records stay inside the heap and the
root is allocated. -/
def Heap.Bounded (h : Heap) : Prop :=
  h.root < h.size ∧
    ∀ i < h.size,
      (∀ p ∈ (h.get i).parent, p < h.size) ∧ ∀ c ∈ (h.get i).children, c < h.size

instance (h : Heap) : Decidable h.Bounded := by
  unfold Heap.Bounded; infer_instance

/-! ### Python string primitives used by the operations -/

/-- Python `str.lower()` (ASCII model). -/
def pyLower (s : String) : String := ⟨s.data.map Char.toLower⟩

/-- The characters Python `str.strip()` removes. -/
def pyIsSpace (c : Char) : Bool :=
  c = ' ' || c = '\t' || c = '\n' || c = '\r' || c = '\x0b' || c = '\x0c'

/-- Python `str.strip()`: drop leading and trailing whitespace. -/
def pyStrip (s : String) : String :=
  ⟨((s.data.dropWhile pyIsSpace).reverse.dropWhile pyIsSpace).reverse⟩

/-- Python `str.rstrip("/")`: drop every trailing `'/'`. -/
def rstripSlash (s : String) : String :=
  ⟨(s.data.reverse.dropWhile (· = '/')).reverse⟩

/-! ### `cmd_dedupe` (src/gui/main_window.py:1100-1114) -/

/-- The normalization `(ch.url or "").strip().rstrip("/")` applied to a
bookmark URL before duplicate comparison. -/
def dedupeKey (u : String) : String := rstripSlash (pyStrip u)

/-- One iteration of the `for ch in folder.children` loop of `cmd_dedupe`:
state is `(seen, new_children, removed)`. -/
def dedupeStep (h : Heap) (st : List String × List Nat × Nat) (ch : Nat) :
    List String × List Nat × Nat :=
  let (seen, newChildren, removed) := st
  if (h.get ch).kind = .bookmark then
    let key := dedupeKey (h.get ch).url
    if key ≠ "" ∧ key ∈ seen then (seen, newChildren, removed + 1)
    else ((if key ≠ "" then seen ++ [key] else seen), newChildren ++ [ch], removed)
  else (seen, newChildren ++ [ch], removed)

/-- `cmd_dedupe`: scan the folder's direct children, drop duplicate
bookmarks, write back the new children list, report the removal count. -/
def cmdDedupe (h : Heap) (folder : Nat) : Heap × Nat :=
  let st := (h.get folder).children.foldl (dedupeStep h) ([], [], 0)
  (h.set folder { h.get folder with children := st.2.1 }, st.2.2)

/-! ### `cmd_move_up` (src/gui/main_window.py:1055-1076) -/

/-- The guard `node.parent and node.parent.parent` checked for every
selected node before anything moves. -/
def canMoveUp (h : Heap) (n : Nat) : Bool :=
  match (h.get n).parent with
  | none => false
  | some p => (h.get p).parent.isSome

/-- The move performed per node once the guard passed:
`node.parent.children.remove(node); new_parent.append(node)`. -/
def moveOne (g : Nat) (h : Heap) (n : Nat) : Heap := (h.detach n).append g n

/-- `cmd_move_up`: if any selected node lacks a parent or grandparent the
command reports and leaves the tree alone; otherwise every selected node is
reparented under `nodes_to_move[0].parent.parent`. -/
def cmdMoveUp (h : Heap) (sel : List Nat) : Heap :=
  match sel with
  | [] => h
  | n0 :: _ =>
    if sel.all (canMoveUp h) then
      match h.grandparent n0 with
      | some g => sel.foldl (moveOne g) h
      | none => h
    else h

/-! ### Basic heap lemmas -/

theorem Heap.size_set (h : Heap) (n : Nat) (d : NodeData) : (h.set n d).size = h.size := by
  simp [Heap.set, Heap.size]

theorem Heap.root_set (h : Heap) (n : Nat) (d : NodeData) : (h.set n d).root = h.root := rfl

theorem Heap.get_set_self (h : Heap) {n : Nat} (d : NodeData) (hn : n < h.size) :
    (h.set n d).get n = d := by
  simp [Heap.set, Heap.get, Heap.size] at *
  rw [List.getElem?_set_self', List.getElem?_eq_getElem hn]
  rfl

theorem Heap.get_set_ne (h : Heap) {m n : Nat} (d : NodeData) (hne : m ≠ n) :
    (h.set n d).get m = h.get m := by
  simp [Heap.set, Heap.get]
  rw [List.getElem?_set_ne (by omega)]

theorem Heap.set_of_le (h : Heap) {n : Nat} (d : NodeData) (hn : h.size ≤ n) :
    h.set n d = h := by
  simp [Heap.set, List.set_eq_of_length_le hn]

theorem Heap.size_eraseChild (h : Heap) (p c : Nat) : (h.eraseChild p c).size = h.size := by
  simp [Heap.eraseChild, Heap.size_set]

theorem Heap.eraseChild_of_le (h : Heap) {p : Nat} (c : Nat) (hp : h.size ≤ p) :
    h.eraseChild p c = h := by
  rw [Heap.eraseChild]; exact h.set_of_le _ hp

theorem Heap.size_detach (h : Heap) (c : Nat) : (h.detach c).size = h.size := by
  unfold Heap.detach
  cases (h.get c).parent <;> simp [Heap.size_eraseChild]

theorem Heap.size_append (h : Heap) (g m : Nat) : (h.append g m).size = h.size := by
  simp [Heap.append, Heap.size_set]

/-- Removing an entry from a children list never touches any parent field. -/
theorem Heap.parent_eraseChild (h : Heap) (p c n : Nat) :
    ((h.eraseChild p c).get n).parent = (h.get n).parent := by
  by_cases hp : p < h.size
  · by_cases hnp : n = p
    · subst hnp; rw [Heap.eraseChild, Heap.get_set_self _ _ hp]
    · rw [Heap.eraseChild, Heap.get_set_ne _ _ hnp]
  · rw [Heap.eraseChild, Heap.set_of_le _ _ (Nat.le_of_not_lt hp)]

theorem Heap.parent_detach (h : Heap) (c n : Nat) :
    ((h.detach c).get n).parent = (h.get n).parent := by
  unfold Heap.detach
  cases (h.get c).parent <;> simp [Heap.parent_eraseChild]

theorem Heap.parent_append_self (h : Heap) {g m : Nat} (hm : m < h.size) :
    ((h.append g m).get m).parent = some g := by
  unfold Heap.append
  by_cases hg : g < h.size
  · by_cases hgm : g = m
    · subst hgm
      rw [Heap.get_set_self _ _ (by simpa [Heap.size_set] using hg),
        Heap.get_set_self _ _ hg]
    · rw [Heap.get_set_ne _ _ (Ne.symm hgm), Heap.get_set_self _ _ hm]
  · rw [Heap.set_of_le _ _ (by simpa [Heap.size_set] using Nat.le_of_not_lt hg),
      Heap.get_set_self _ _ hm]

theorem Heap.parent_append_ne (h : Heap) {g m n : Nat} (hnm : n ≠ m) :
    ((h.append g m).get n).parent = (h.get n).parent := by
  unfold Heap.append
  by_cases hg : g < h.size
  · by_cases hng : n = g
    · subst hng
      rw [Heap.get_set_self _ _ (by simpa [Heap.size_set] using hg),
        Heap.get_set_ne _ _ hnm]
    · rw [Heap.get_set_ne _ _ hng, Heap.get_set_ne _ _ hnm]
  · rw [Heap.set_of_le _ _ (by simpa [Heap.size_set] using Nat.le_of_not_lt hg),
      Heap.get_set_ne _ _ hnm]

/-- Appending `m` under `g` extends `g`'s children list by `[m]`. -/
theorem Heap.children_append_self (h : Heap) {g : Nat} (m : Nat) (hg : g < h.size) :
    ((h.append g m).get g).children = (h.get g).children ++ [m] := by
  unfold Heap.append
  rw [Heap.get_set_self _ _ (by simpa [Heap.size_set] using hg)]
  by_cases hm : m < h.size
  · by_cases hgm : g = m
    · subst hgm; rw [Heap.get_set_self _ _ hm]
    · rw [Heap.get_set_ne _ _ hgm]
  · rw [Heap.set_of_le _ _ (Nat.le_of_not_lt hm)]

theorem Heap.children_append_ne (h : Heap) {g n : Nat} (m : Nat) (hng : n ≠ g) :
    ((h.append g m).get n).children = (h.get n).children := by
  unfold Heap.append
  rw [Heap.get_set_ne _ _ hng]
  by_cases hm : m < h.size
  · by_cases hnm : n = m
    · subst hnm; rw [Heap.get_set_self _ _ hm]
    · rw [Heap.get_set_ne _ _ hnm]
  · rw [Heap.set_of_le _ _ (Nat.le_of_not_lt hm)]

theorem Heap.children_eraseChild_self (h : Heap) {p : Nat} (c : Nat) (hp : p < h.size) :
    ((h.eraseChild p c).get p).children = (h.get p).children.erase c := by
  rw [Heap.eraseChild, Heap.get_set_self _ _ hp]

theorem Heap.get_eraseChild_ne (h : Heap) {p n : Nat} (c : Nat) (hnp : n ≠ p) :
    (h.eraseChild p c).get n = h.get n := by
  rw [Heap.eraseChild, Heap.get_set_ne _ _ hnp]

/-! ### Claim C6: what `cmd_move_up` actually does -/

/-- "`n` now lives under `g`": the back-reference points at `g` and `g`'s
children list contains `n`. -/
def livesUnder (h : Heap) (g n : Nat) : Prop :=
  ((h.get n).parent = some g) ∧ n ∈ (h.get g).children

theorem detach_children_superset (h : Heap) {g n : Nat} (m : Nat) (hnm : n ≠ m)
    (hmem : n ∈ (h.get g).children) : n ∈ ((h.detach m).get g).children := by
  cases hpm : (h.get m).parent with
  | none => simpa [Heap.detach, hpm] using hmem
  | some p =>
    simp only [Heap.detach, hpm]
    by_cases hp : p < h.size
    · by_cases hgp : g = p
      · subst hgp
        rw [Heap.children_eraseChild_self _ _ hp]
        exact (List.mem_erase_of_ne hnm).mpr hmem
      · rw [Heap.get_eraseChild_ne _ _ hgp]; exact hmem
    · rw [Heap.eraseChild_of_le _ _ (Nat.le_of_not_lt hp)]; exact hmem

theorem moveOne_establishes (h : Heap) {g m : Nat} (hm : m < h.size) (hg : g < h.size) :
    livesUnder (moveOne g h m) g m := by
  constructor
  · rw [moveOne, Heap.parent_append_self _ (by simpa [Heap.size_detach] using hm)]
  · rw [moveOne, Heap.children_append_self _ _ (by simpa [Heap.size_detach] using hg)]
    simp

theorem moveOne_preserves (h : Heap) {g m n : Nat} (hm : m < h.size) (hg : g < h.size)
    (hP : livesUnder h g n) : livesUnder (moveOne g h m) g n := by
  by_cases hnm : n = m
  · subst hnm; exact moveOne_establishes h hm hg
  · constructor
    · rw [moveOne, Heap.parent_append_ne _ hnm, Heap.parent_detach]; exact hP.1
    · rw [moveOne, Heap.children_append_self _ _ (by simpa [Heap.size_detach] using hg)]
      exact List.mem_append_left _ (detach_children_superset h m hnm hP.2)

theorem size_foldl_moveOne (g : Nat) (l : List Nat) (h : Heap) :
    (l.foldl (moveOne g) h).size = h.size := by
  induction l generalizing h with
  | nil => rfl
  | cons a l ih =>
    simp only [List.foldl_cons, ih]
    simp [moveOne, Heap.size_append, Heap.size_detach]

theorem foldl_moveOne_preserves (g : Nat) (l : List Nat) (h : Heap)
    (hl : ∀ m ∈ l, m < h.size) (hg : g < h.size) {n : Nat}
    (hP : livesUnder h g n) : livesUnder (l.foldl (moveOne g) h) g n := by
  induction l generalizing h with
  | nil => exact hP
  | cons a l ih =>
    simp only [List.foldl_cons]
    have hsz : (moveOne g h a).size = h.size := by
      simp [moveOne, Heap.size_append, Heap.size_detach]
    exact ih (moveOne g h a)
      (fun m hmem => hsz ▸ hl m (List.mem_cons_of_mem _ hmem)) (hsz ▸ hg)
      (moveOne_preserves h (hl a (List.mem_cons_self _ _)) hg hP)

theorem foldl_moveOne_livesUnder (g : Nat) (l : List Nat) (h : Heap)
    (hl : ∀ m ∈ l, m < h.size) (hg : g < h.size) :
    ∀ n ∈ l, livesUnder (l.foldl (moveOne g) h) g n := by
  induction l generalizing h with
  | nil => intro n hn; cases hn
  | cons a l ih =>
    intro n hn
    have hsz : (moveOne g h a).size = h.size := by
      simp [moveOne, Heap.size_append, Heap.size_detach]
    rcases List.mem_cons.mp hn with rfl | hntl
    · simp only [List.foldl_cons]
      exact foldl_moveOne_preserves g l (moveOne g h n)
        (fun m hmem => hsz ▸ hl m (List.mem_cons_of_mem _ hmem)) (hsz ▸ hg)
        (moveOne_establishes h (hl n (List.mem_cons_self _ _)) hg)
    · simp only [List.foldl_cons]
      exact ih (moveOne g h a)
        (fun m hmem => hsz ▸ hl m (List.mem_cons_of_mem _ hmem)) (hsz ▸ hg) n hntl

/-- Two bookmarks `x` (under root→A→B) and `y` (under root→C): their
grandparents differ (`A` for `x`, root for `y`). -/
def exMoveUp : Heap :=
  { root := 0,
    nodes :=
      [ { kind := .folder, title := "root", children := [1, 4] },
        { kind := .folder, title := "A", parent := some 0, children := [2] },
        { kind := .folder, title := "B", parent := some 1, children := [3] },
        { kind := .bookmark, title := "x", url := "u", parent := some 2 },
        { kind := .folder, title := "C", parent := some 0, children := [5] },
        { kind := .bookmark, title := "y", url := "v", parent := some 4 } ] }

/-- Claim C6 is wrong about the destination: `cmd_move_up` computes
`new_parent = nodes_to_move[0].parent.parent` once and moves every selected
node there.  Selecting `x` (grandparent `A`, id 1) and `y` (grandparent
root, id 0) moves `y` under `A` (id 1), not under its own grandparent 0. -/
theorem claim_C6_counterexample :
    ((cmdMoveUp exMoveUp [3, 5]).get 5).parent = some 1 ∧
      exMoveUp.grandparent 5 = some 0 ∧ (some 1 ≠ (some 0 : Option Nat)) := by
  refine ⟨?_, by decide, by decide⟩
  decide

/-- Claim C6 (amended): when every selected node has a parent and a
grandparent, `cmd_move_up` moves every selected node under the grandparent
of the FIRST selected node (parent pointer and membership in that folder's
children list); if any selected node has no parent or no grandparent the
command fails (reported) and the tree is left unmodified. -/
theorem claim_C6_amended (h : Heap) (sel : List Nat) (hb : h.Bounded)
    (hsel : ∀ n ∈ sel, n < h.size) :
    ((∃ n ∈ sel, canMoveUp h n = false) → cmdMoveUp h sel = h) ∧
    (∀ n0 rest, sel = n0 :: rest → (∀ n ∈ sel, canMoveUp h n = true) →
      ∃ g, h.grandparent n0 = some g ∧
        ∀ n ∈ sel, livesUnder (cmdMoveUp h sel) g n) := by
  constructor
  · rintro ⟨n, hn, hfalse⟩
    cases sel with
    | nil => rfl
    | cons a l =>
      have hallf : ((a :: l).all (canMoveUp h)) = false :=
        List.all_eq_false.mpr ⟨n, hn, by simp [hfalse]⟩
      simp [cmdMoveUp, hallf]
  · intro n0 rest hse hall
    subst hse
    have hn0 := hall n0 (List.mem_cons_self _ _)
    cases hp : (h.get n0).parent with
    | none => simp [canMoveUp, hp] at hn0
    | some p =>
      cases hgp : (h.get p).parent with
      | none => simp [canMoveUp, hp, hgp] at hn0
      | some g =>
        have hgr : h.grandparent n0 = some g := by
          rw [Heap.grandparent, hp]; simpa using hgp
        refine ⟨g, hgr, ?_⟩
        have hn0sz : n0 < h.size := hsel n0 (List.mem_cons_self _ _)
        have hpsz : p < h.size := (hb.2 n0 hn0sz).1 p hp
        have hgsz : g < h.size := (hb.2 p hpsz).1 g hgp
        have halltrue : ((n0 :: rest).all (canMoveUp h)) = true :=
          List.all_eq_true.mpr hall
        have hstep : cmdMoveUp h (n0 :: rest) = (n0 :: rest).foldl (moveOne g) h := by
          simp [cmdMoveUp, halltrue, hgr]
        rw [hstep]
        exact foldl_moveOne_livesUnder g (n0 :: rest) h hsel hgsz

/-- A chain root(0) → A(1) → B(2) → x(3): moving `[x]` up is legal and lands
`x` under `A`. -/
def exMoveUpW : Heap :=
  { root := 0,
    nodes :=
      [ { kind := .folder, title := "root", children := [1] },
        { kind := .folder, title := "A", parent := some 0, children := [2] },
        { kind := .folder, title := "B", parent := some 1, children := [3] },
        { kind := .bookmark, title := "x", url := "u", parent := some 2 } ] }

/-- Witness for `claim_C6_amended` at a concrete tree. -/
theorem claim_C6_witness :
    ∃ g, exMoveUpW.grandparent 3 = some g ∧
      ∀ n ∈ [3], livesUnder (cmdMoveUp exMoveUpW [3]) g n :=
  (claim_C6_amended exMoveUpW [3] (by decide) (by decide)).2 3 [] rfl (by decide)

/-! ### Claim C5: what `cmd_dedupe` actually removes -/

/-- The declarative removal condition: `ch` is a bookmark whose normalized
URL is nonempty and already occurs as the normalized URL of some bookmark
earlier in the scan. -/
def isDupOfEarlier (h : Heap) (pre : List Nat) (ch : Nat) : Prop :=
  (h.get ch).kind = .bookmark ∧ dedupeKey (h.get ch).url ≠ "" ∧
    ∃ e ∈ pre, (h.get e).kind = .bookmark ∧
      dedupeKey (h.get e).url = dedupeKey (h.get ch).url

instance (h : Heap) (pre : List Nat) (ch : Nat) : Decidable (isDupOfEarlier h pre ch) := by
  unfold isDupOfEarlier; infer_instance

/-- Reference scan keeping exactly the children that are not duplicates of
an earlier one (`pre` is the already-scanned prefix). -/
def dedupeRef (h : Heap) (pre : List Nat) : List Nat → List Nat
  | [] => []
  | ch :: rest =>
    if isDupOfEarlier h pre ch then dedupeRef h (pre ++ [ch]) rest
    else ch :: dedupeRef h (pre ++ [ch]) rest

theorem dedupeRef_length_le (h : Heap) (pre rest : List Nat) :
    (dedupeRef h pre rest).length ≤ rest.length := by
  induction rest generalizing pre with
  | nil => simp [dedupeRef]
  | cons ch rest ih =>
    by_cases hd : isDupOfEarlier h pre ch
    · simp only [dedupeRef, if_pos hd]
      exact Nat.le_succ_of_le (ih _)
    · simp only [dedupeRef, if_neg hd, List.length_cons]
      exact Nat.succ_le_succ (ih _)

/-- The `seen` set of the scan holds exactly the nonempty normalized URLs of
the bookmarks already scanned. -/
def seenInv (h : Heap) (seen : List String) (pre : List Nat) : Prop :=
  ∀ k, k ∈ seen ↔ (k ≠ "" ∧ ∃ e ∈ pre, (h.get e).kind = .bookmark ∧
    dedupeKey (h.get e).url = k)

theorem dedupe_loop (h : Heap) (rest : List Nat) :
    ∀ (pre : List Nat) (seen : List String) (acc : List Nat) (cnt : Nat),
      seenInv h seen pre →
      (rest.foldl (dedupeStep h) (seen, acc, cnt)).2.1 = acc ++ dedupeRef h pre rest ∧
      (rest.foldl (dedupeStep h) (seen, acc, cnt)).2.2 =
        cnt + (rest.length - (dedupeRef h pre rest).length) := by
  induction rest with
  | nil => intro pre seen acc cnt _; simp [dedupeRef]
  | cons ch rest ih =>
    intro pre seen acc cnt hinv
    by_cases hbk : (h.get ch).kind = .bookmark
    · by_cases hk : dedupeKey (h.get ch).url ≠ "" ∧ dedupeKey (h.get ch).url ∈ seen
      · -- duplicate: dropped, count bumped
        have hdup : isDupOfEarlier h pre ch := by
          obtain ⟨hne, hmem⟩ := hk
          obtain ⟨-, e, he, hek, heq⟩ := (hinv _).mp hmem
          exact ⟨hbk, hne, e, he, hek, heq⟩
        have hstep : dedupeStep h (seen, acc, cnt) ch = (seen, acc, cnt + 1) := by
          simp only [dedupeStep, if_pos hbk]
          rw [if_pos hk]
        have hinv2 : seenInv h seen (pre ++ [ch]) := by
          intro k
          constructor
          · intro hmem
            obtain ⟨hne, e, he, hek, heq⟩ := (hinv k).mp hmem
            exact ⟨hne, e, List.mem_append_left _ he, hek, heq⟩
          · rintro ⟨hne, e, he, hek, heq⟩
            rcases List.mem_append.mp he with he | he
            · exact (hinv k).mpr ⟨hne, e, he, hek, heq⟩
            · have heq2 : e = ch := by simpa using he
              subst heq2
              exact heq ▸ hk.2
        rw [List.foldl_cons, hstep]
        obtain ⟨h1, h2⟩ := ih (pre ++ [ch]) seen acc (cnt + 1) hinv2
        refine ⟨?_, ?_⟩
        · rw [h1]; simp [dedupeRef, if_pos hdup]
        · rw [h2]
          simp only [dedupeRef, if_pos hdup, List.length_cons]
          have := dedupeRef_length_le h (pre ++ [ch]) rest
          omega
      · -- kept bookmark
        have hnodup : ¬ isDupOfEarlier h pre ch := by
          rintro ⟨-, hne, e, he, hek, heq⟩
          exact hk ⟨hne, (hinv _).mpr ⟨hne, e, he, hek, heq⟩⟩
        have hstep : dedupeStep h (seen, acc, cnt) ch =
            ((if dedupeKey (h.get ch).url ≠ "" then seen ++ [dedupeKey (h.get ch).url]
              else seen), acc ++ [ch], cnt) := by
          simp only [dedupeStep, if_pos hbk]
          rw [if_neg hk]
        have hinv2 : seenInv h
            (if dedupeKey (h.get ch).url ≠ "" then seen ++ [dedupeKey (h.get ch).url]
              else seen) (pre ++ [ch]) := by
          intro k
          by_cases hne : dedupeKey (h.get ch).url ≠ ""
          · rw [if_pos hne]
            constructor
            · intro hmem
              rcases List.mem_append.mp hmem with hmem | hmem
              · obtain ⟨hkne, e, he, hek, heq⟩ := (hinv k).mp hmem
                exact ⟨hkne, e, List.mem_append_left _ he, hek, heq⟩
              · have hkk : k = dedupeKey (h.get ch).url := by simpa using hmem
                subst hkk
                exact ⟨hne, ch, List.mem_append_right _ (by simp), hbk, rfl⟩
            · rintro ⟨hkne, e, he, hek, heq⟩
              rcases List.mem_append.mp he with he | he
              · exact List.mem_append_left _ ((hinv k).mpr ⟨hkne, e, he, hek, heq⟩)
              · have heq2 : e = ch := by simpa using he
                subst heq2
                exact List.mem_append_right _ (by simp [heq])
          · rw [if_neg hne]
            push_neg at hne
            constructor
            · intro hmem
              obtain ⟨hkne, e, he, hek, heq⟩ := (hinv k).mp hmem
              exact ⟨hkne, e, List.mem_append_left _ he, hek, heq⟩
            · rintro ⟨hkne, e, he, hek, heq⟩
              rcases List.mem_append.mp he with he | he
              · exact (hinv k).mpr ⟨hkne, e, he, hek, heq⟩
              · have heq2 : e = ch := by simpa using he
                subst heq2
                exact absurd (heq ▸ hne) hkne
        rw [List.foldl_cons, hstep]
        obtain ⟨h1, h2⟩ := ih (pre ++ [ch]) _ (acc ++ [ch]) cnt hinv2
        refine ⟨?_, ?_⟩
        · rw [h1]; simp [dedupeRef, if_neg hnodup]
        · rw [h2]
          simp only [dedupeRef, if_neg hnodup, List.length_cons]
          omega
    · -- folder (or anything non-bookmark): always kept
      have hnodup : ¬ isDupOfEarlier h pre ch := fun hdup => hbk hdup.1
      have hstep : dedupeStep h (seen, acc, cnt) ch = (seen, acc ++ [ch], cnt) := by
        simp only [dedupeStep]
        rw [if_neg hbk]
      have hinv2 : seenInv h seen (pre ++ [ch]) := by
        intro k
        constructor
        · intro hmem
          obtain ⟨hkne, e, he, hek, heq⟩ := (hinv k).mp hmem
          exact ⟨hkne, e, List.mem_append_left _ he, hek, heq⟩
        · rintro ⟨hkne, e, he, hek, heq⟩
          rcases List.mem_append.mp he with he | he
          · exact (hinv k).mpr ⟨hkne, e, he, hek, heq⟩
          · have heq2 : e = ch := by simpa using he
            subst heq2
            exact absurd hek hbk
      rw [List.foldl_cons, hstep]
      obtain ⟨h1, h2⟩ := ih (pre ++ [ch]) seen (acc ++ [ch]) cnt hinv2
      refine ⟨?_, ?_⟩
      · rw [h1]; simp [dedupeRef, if_neg hnodup]
      · rw [h2]
        simp only [dedupeRef, if_neg hnodup, List.length_cons]
        omega

/-- The normalization claim C5 describes: trim surrounding whitespace, then
remove a SINGLE trailing slash (the code instead removes every trailing
slash; this definition follows the claim's words for the refutation). -/
def claimKeyOneSlash (u : String) : String :=
  let t := pyStrip u
  if t.data.getLast? = some '/' then ⟨t.data.dropLast⟩ else t

/-- Root folder with bookmarks whose URLs differ in the number of trailing
slashes: `"http://a/"` and `"http://a//"`. -/
def exDedupe : Heap :=
  { root := 0,
    nodes :=
      [ { kind := .folder, title := "root", children := [1, 2] },
        { kind := .bookmark, title := "b1", url := "http://a/", parent := some 0 },
        { kind := .bookmark, title := "b2", url := "http://a//", parent := some 0 } ] }

/-- Claim C5 is wrong about the normalization: the code normalizes with
`rstrip("/")`, removing EVERY trailing slash.  `"http://a//"` is removed as
a duplicate of `"http://a/"` (count 1, second bookmark gone) although their
URLs differ after removing only a single trailing slash, so under the
claim's normalization neither duplicates the other. -/
theorem claim_C5_counterexample :
    (cmdDedupe exDedupe 0).2 = 1 ∧
      ((cmdDedupe exDedupe 0).1.get 0).children = [1] ∧
      claimKeyOneSlash (exDedupe.get 2).url ≠ claimKeyOneSlash (exDedupe.get 1).url := by
  refine ⟨by decide, by decide, by decide⟩

/-- Claim C5 (amended): dedupe scans only the folder's direct children in
order and keeps a child unless it is a bookmark whose URL — after trimming
surrounding whitespace and removing ALL trailing slashes — is nonempty and
equals that of an earlier bookmark in the scan; every other node of the
heap is untouched, and the reported count is the number of children
removed. -/
theorem claim_C5_amended (h : Heap) (f : Nat) (hf : f < h.size) :
    ((cmdDedupe h f).1.get f).children = dedupeRef h [] (h.get f).children ∧
    (cmdDedupe h f).2 =
      (h.get f).children.length - (dedupeRef h [] (h.get f).children).length ∧
    ∀ n, n ≠ f → (cmdDedupe h f).1.get n = h.get n := by
  have hinv0 : seenInv h [] [] := by
    intro k
    simp
  obtain ⟨h1, h2⟩ := dedupe_loop h (h.get f).children [] [] [] 0 hinv0
  refine ⟨?_, ?_, ?_⟩
  · rw [cmdDedupe, Heap.get_set_self _ _ hf]
    simpa using h1
  · rw [cmdDedupe]
    simpa using h2
  · intro n hn
    rw [cmdDedupe, Heap.get_set_ne _ _ hn]

/-- Witness for `claim_C5_amended` at the concrete tree `exDedupe`. -/
theorem claim_C5_witness :
    ((cmdDedupe exDedupe 0).1.get 0).children = dedupeRef exDedupe [] ((exDedupe.get 0).children) ∧
    (cmdDedupe exDedupe 0).2 =
      ((exDedupe.get 0).children).length - (dedupeRef exDedupe [] ((exDedupe.get 0).children)).length ∧
    ∀ n, n ≠ 0 → (cmdDedupe exDedupe 0).1.get n = exDedupe.get n :=
  claim_C5_amended exDedupe 0 (by decide)

/-! ### Claim C7: `cmd_sort` keys and ordering

Python compares the key tuples lexicographically, strings by code point,
and a shorter tuple that is a prefix of a longer one compares smaller.  We
model the sort keys as `Nat × String × Option String` (the third component
is absent for the 2-tuples the code produces for folders) and implement the
comparison directly so that it evaluates inside the kernel. -/

/-- Code-point lexicographic strict comparison of character lists
(Python string `<`). -/
def strLtb : List Char → List Char → Bool
  | _, [] => false
  | [], _ :: _ => true
  | a :: as, b :: bs =>
    if a < b then true
    else if b < a then false
    else strLtb as bs

theorem strLtb_nil_right (l : List Char) : strLtb l [] = false := by
  cases l <;> rfl

theorem strLtb_cons (a b : Char) (as bs : List Char) :
    strLtb (a :: as) (b :: bs) =
      if a < b then true else if b < a then false else strLtb as bs := rfl

theorem strLtb_irrefl (l : List Char) : strLtb l l = false := by
  induction l with
  | nil => rfl
  | cons a as ih => rw [strLtb_cons, if_neg (lt_irrefl a), if_neg (lt_irrefl a), ih]

theorem strLtb_asymm : ∀ {a b : List Char}, strLtb a b = true → strLtb b a = false := by
  intro a
  induction a with
  | nil =>
    intro b h
    cases b with
    | nil => cases h
    | cons y ys => exact strLtb_nil_right _
  | cons x xs ih =>
    intro b h
    cases b with
    | nil => rw [strLtb_nil_right] at h; cases h
    | cons y ys =>
      rw [strLtb_cons] at h ⊢
      rcases lt_trichotomy x y with hxy | hxy | hxy
      · rw [if_neg (asymm hxy), if_pos hxy]
      · subst hxy
        rw [if_neg (lt_irrefl x), if_neg (lt_irrefl x)] at h ⊢
        exact ih h
      · rw [if_neg (asymm hxy), if_pos hxy] at h
        cases h

theorem strLtb_trans : ∀ {a b c : List Char},
    strLtb a b = true → strLtb b c = true → strLtb a c = true := by
  intro a
  induction a with
  | nil =>
    intro b c h1 h2
    cases c with
    | nil => rw [strLtb_nil_right] at h2; cases h2
    | cons z zs => rfl
  | cons x xs ih =>
    intro b c h1 h2
    cases b with
    | nil => rw [strLtb_nil_right] at h1; cases h1
    | cons y ys =>
      cases c with
      | nil => rw [strLtb_nil_right] at h2; cases h2
      | cons z zs =>
        rw [strLtb_cons] at h1 h2 ⊢
        rcases lt_trichotomy x y with hxy | hxy | hxy
        · rcases lt_trichotomy y z with hyz | hyz | hyz
          · rw [if_pos (lt_trans hxy hyz)]
          · subst hyz; rw [if_pos hxy]
          · rw [if_neg (asymm hyz), if_pos hyz] at h2; cases h2
        · subst hxy
          rcases lt_trichotomy x z with hxz | hxz | hxz
          · rw [if_pos hxz]
          · subst hxz
            rw [if_neg (lt_irrefl x), if_neg (lt_irrefl x)] at h1 h2 ⊢
            exact ih h1 h2
          · rw [if_neg (asymm hxz), if_pos hxz] at h2; cases h2
        · rw [if_neg (asymm hxy), if_pos hxy] at h1; cases h1

theorem strLtb_eq : ∀ {a b : List Char},
    strLtb a b = false → strLtb b a = false → a = b := by
  intro a
  induction a with
  | nil =>
    intro b h1 h2
    cases b with
    | nil => rfl
    | cons y ys => cases h1
  | cons x xs ih =>
    intro b h1 h2
    cases b with
    | nil => cases h2
    | cons y ys =>
      rw [strLtb_cons] at h1 h2
      rcases lt_trichotomy x y with hxy | hxy | hxy
      · rw [if_pos hxy] at h1; cases h1
      · subst hxy
        rw [if_neg (lt_irrefl x), if_neg (lt_irrefl x)] at h1 h2
        rw [ih h1 h2]
      · rw [if_pos hxy] at h2; cases h2

/-- The key tuples `cmd_sort` builds: group number, first string, and an
optional second string (absent for the 2-tuples the code builds for
folders). -/
abbrev SKey := Nat × String × Option String

/-- Lexicographic comparison of the optional third component: an absent
component (shorter tuple, a prefix of the longer) compares smaller. -/
def optStrLtb : Option String → Option String → Bool
  | _, none => false
  | none, some _ => true
  | some a, some b => strLtb a.data b.data

/-- Python tuple `<` on sort keys. -/
def keyLtb (x y : SKey) : Bool :=
  if x.1 < y.1 then true
  else if y.1 < x.1 then false
  else if strLtb x.2.1.data y.2.1.data then true
  else if strLtb y.2.1.data x.2.1.data then false
  else optStrLtb x.2.2 y.2.2

theorem optStrLtb_none_right (t : Option String) : optStrLtb t none = false := by
  cases t <;> rfl

theorem optStrLtb_irrefl (t : Option String) : optStrLtb t t = false := by
  cases t with
  | none => rfl
  | some s => exact strLtb_irrefl s.data

theorem optStrLtb_trans : ∀ {a b c : Option String},
    optStrLtb a b = true → optStrLtb b c = true → optStrLtb a c = true := by
  intro a b c h1 h2
  cases c with
  | none => rw [optStrLtb_none_right] at h2; cases h2
  | some z =>
    cases a with
    | none => rfl
    | some x =>
      cases b with
      | none => cases h1
      | some y => exact strLtb_trans h1 h2

theorem optStrLtb_eq : ∀ {a b : Option String},
    optStrLtb a b = false → optStrLtb b a = false → a = b := by
  intro a b h1 h2
  cases a with
  | none =>
    cases b with
    | none => rfl
    | some y => cases h1
  | some x =>
    cases b with
    | none => cases h2
    | some y => rw [String.ext (strLtb_eq h1 h2)]

theorem keyLtb_irrefl (x : SKey) : keyLtb x x = false := by
  rw [keyLtb, if_neg (lt_irrefl _), if_neg (lt_irrefl _)]
  rw [strLtb_irrefl, if_neg (by simp), if_neg (by simp), optStrLtb_irrefl]

theorem keyLtb_eq {x y : SKey} (h1 : keyLtb x y = false) (h2 : keyLtb y x = false) :
    x = y := by
  unfold keyLtb at h1 h2
  rcases lt_trichotomy x.1 y.1 with hn | hn | hn
  · rw [if_pos hn] at h1; cases h1
  · rw [if_neg (hn ▸ lt_irrefl _), if_neg (hn ▸ lt_irrefl _)] at h1 h2
    rcases hs : strLtb x.2.1.data y.2.1.data with - | -
    · rcases hs2 : strLtb y.2.1.data x.2.1.data with - | -
      · rw [hs, if_neg (by simp), hs2, if_neg (by simp)] at h1
        rw [hs2, if_neg (by simp), hs, if_neg (by simp)] at h2
        have he2 : x.2.1 = y.2.1 := String.ext (strLtb_eq hs hs2)
        have he3 : x.2.2 = y.2.2 := optStrLtb_eq h1 h2
        exact Prod.ext hn (Prod.ext he2 he3)
      · rw [hs2, if_pos rfl] at h2
        cases h2
    · rw [hs, if_pos rfl] at h1; cases h1
  · rw [if_pos hn] at h2; cases h2

theorem keyLtb_trans {x y z : SKey} (h1 : keyLtb x y = true) (h2 : keyLtb y z = true) :
    keyLtb x z = true := by
  unfold keyLtb at h1 h2 ⊢
  rcases lt_trichotomy x.1 y.1 with hxy | hxy | hxy
  · rcases lt_trichotomy y.1 z.1 with hyz | hyz | hyz
    · rw [if_pos (show x.1 < z.1 by omega)]
    · rw [if_pos (show x.1 < z.1 by omega)]
    · rw [if_neg (show ¬ y.1 < z.1 by omega), if_pos hyz] at h2; cases h2
  · rcases lt_trichotomy y.1 z.1 with hyz | hyz | hyz
    · rw [if_pos (show x.1 < z.1 by omega)]
    · rw [if_neg (show ¬ x.1 < y.1 by omega), if_neg (show ¬ y.1 < x.1 by omega)] at h1
      rw [if_neg (show ¬ y.1 < z.1 by omega), if_neg (show ¬ z.1 < y.1 by omega)] at h2
      rw [if_neg (show ¬ x.1 < z.1 by omega), if_neg (show ¬ z.1 < x.1 by omega)]
      rcases s1 : strLtb x.2.1.data y.2.1.data with - | -
      · rcases s1r : strLtb y.2.1.data x.2.1.data with - | -
        · have es1 : x.2.1 = y.2.1 := String.ext (strLtb_eq s1 s1r)
          rw [s1, if_neg (by simp), s1r, if_neg (by simp)] at h1
          rcases s2 : strLtb y.2.1.data z.2.1.data with - | -
          · rcases s2r : strLtb z.2.1.data y.2.1.data with - | -
            · have es2 : y.2.1 = z.2.1 := String.ext (strLtb_eq s2 s2r)
              rw [s2, if_neg (by simp), s2r, if_neg (by simp)] at h2
              have exz2 : x.2.1 = z.2.1 := es1.trans es2
              rw [exz2, strLtb_irrefl, if_neg (by simp), if_neg (by simp)]
              exact optStrLtb_trans h1 h2
            · rw [s2, if_neg (by simp), s2r, if_pos rfl] at h2; cases h2
          · rw [es1, s2, if_pos rfl]
        · rw [s1, if_neg (by simp), s1r, if_pos rfl] at h1; cases h1
      · rcases s2 : strLtb y.2.1.data z.2.1.data with - | -
        · rcases s2r : strLtb z.2.1.data y.2.1.data with - | -
          · have es2 : y.2.1 = z.2.1 := String.ext (strLtb_eq s2 s2r)
            rw [← es2, s1, if_pos rfl]
          · rw [s2, if_neg (by simp), s2r, if_pos rfl] at h2; cases h2
        · rw [if_pos (strLtb_trans s1 s2)]
    · rw [if_neg (show ¬ y.1 < z.1 by omega), if_pos hyz] at h2; cases h2
  · rw [if_neg (show ¬ x.1 < y.1 by omega), if_pos hxy] at h1; cases h1

/-- The characters allowed in a URL scheme (`urllib.parse.scheme_chars`). -/
def isSchemeChar (c : Char) : Bool :=
  c.isAlpha || c.isDigit || c = '+' || c = '-' || c = '.'

/-- Strip a leading `scheme:` as `urllib.parse.urlsplit` does: only when a
colon exists at a positive index, the first character is an ASCII letter
and everything before the colon is a scheme character. -/
def afterScheme (cs : List Char) : List Char :=
  match cs.findIdx? (· = ':') with
  | some i =>
    if 0 < i ∧ (cs.take i).all isSchemeChar ∧ cs.head?.elim false Char.isAlpha
    then cs.drop (i + 1) else cs
  | none => cs

/-- `_domain_of` (src/gui/main_window.py:1856-1860):
`urlparse(url).netloc.lower()` — the part after `//` up to the next
`/`, `?` or `#`, lowercased; empty when the URL has no netloc. -/
def domainOf (url : String) : String :=
  match afterScheme url.data with
  | '/' :: '/' :: t => pyLower ⟨t.takeWhile (fun c => !(c = '/' || c = '?' || c = '#'))⟩
  | _ => ""

/-- The two key modes `cmd_sort` accepts. -/
inductive SortMode where
  | title
  | domain
deriving DecidableEq, Repr

/-- `sort_key` (src/gui/main_window.py:1092-1095): domain-mode bookmarks get
`(0, domain, title.lower())`; everything else gets
`(0 if folder else 1, title.lower())`. -/
def sortKey (h : Heap) (mode : SortMode) (n : Nat) : SKey :=
  if mode = .domain ∧ (h.get n).kind = .bookmark then
    (0, domainOf (h.get n).url, some (pyLower (h.get n).title))
  else
    ((if (h.get n).kind = .folder then 0 else 1), pyLower (h.get n).title, none)

/-- The `≤` test a stable sort by `sort_key` uses: `a` may stay before `b`
iff `key b < key a` fails. -/
def sortLe (h : Heap) (mode : SortMode) (a b : Nat) : Bool :=
  !keyLtb (sortKey h mode b) (sortKey h mode a)

/-- `cmd_sort`: stable-sort the folder's direct children by `sort_key`
(Python `list.sort` is a stable sort). -/
def cmdSort (h : Heap) (f : Nat) (mode : SortMode) : Heap :=
  h.set f { h.get f with children := (h.get f).children.mergeSort (sortLe h mode) }

theorem sortLe_trans (h : Heap) (mode : SortMode) (a b c : Nat)
    (h1 : sortLe h mode a b = true) (h2 : sortLe h mode b c = true) :
    sortLe h mode a c = true := by
  unfold sortLe at h1 h2 ⊢
  rw [Bool.not_eq_true'] at h1 h2 ⊢
  by_contra hcon
  rw [Bool.not_eq_false] at hcon
  rcases hbc : keyLtb (sortKey h mode b) (sortKey h mode c) with - | -
  · rw [keyLtb_eq h2 hbc] at hcon
    rw [h1] at hcon
    cases hcon
  · have := keyLtb_trans hbc hcon
    rw [h1] at this
    cases this

theorem sortLe_total (h : Heap) (mode : SortMode) (a b : Nat) :
    (sortLe h mode a b || sortLe h mode b a) = true := by
  unfold sortLe
  rcases hab : keyLtb (sortKey h mode b) (sortKey h mode a) with - | -
  · simp
  · rcases hba : keyLtb (sortKey h mode a) (sortKey h mode b) with - | -
    · simp [hba]
    · have := keyLtb_trans hab hba
      rw [keyLtb_irrefl] at this
      cases this

/-- Root with a folder titled `"z"` and a bookmark with domain `"a.com"`. -/
def exSort : Heap :=
  { root := 0,
    nodes :=
      [ { kind := .folder, title := "root", children := [1, 2] },
        { kind := .folder, title := "z", parent := some 0 },
        { kind := .bookmark, title := "t", url := "http://a.com", parent := some 0 } ] }

/-- Claim C7 is wrong for domain mode: there the bookmark key keeps primary
component 0 — the same as every folder key — so folders are NOT grouped
before bookmarks; sorting `[folder "z", bookmark a.com]` by domain puts the
bookmark first. -/
theorem claim_C7_counterexample :
    ((cmdSort exSort 0 .domain).get 0).children = [2, 1] ∧
      (exSort.get 2).kind = .bookmark ∧ (exSort.get 1).kind = .folder := by
  refine ⟨?_, rfl, rfl⟩
  have hle : sortLe exSort .domain 1 2 = false := by decide
  rw [cmdSort, Heap.get_set_self _ _ (by decide)]
  show ([1, 2].mergeSort (sortLe exSort .domain)) = [2, 1]
  simp [List.mergeSort, List.merge, hle]

/-- Claim C7 (amended): `cmd_sort` stably sorts only the folder's direct
children by the code's key: result is a permutation of the children,
pairwise ordered under the key comparison, children with equal keys keep
their original relative order, and every other heap node is untouched.  In
TITLE mode the 0/1 primary component puts every folder child before every
bookmark child; in domain mode bookmarks share primary component 0 with
folders and are interleaved with them by comparing the bookmark's domain
against the folder's lowercased title. -/
theorem claim_C7_amended (h : Heap) (f : Nat) (mode : SortMode) (hf : f < h.size) :
    (((cmdSort h f mode).get f).children).Perm (h.get f).children ∧
    (((cmdSort h f mode).get f).children).Pairwise (fun a b => sortLe h mode a b = true) ∧
    (∀ v : SKey,
      ((cmdSort h f mode).get f).children.filter (fun x => decide (sortKey h mode x = v)) =
        (h.get f).children.filter (fun x => decide (sortKey h mode x = v))) ∧
    (mode = .title →
      (((cmdSort h f mode).get f).children).Pairwise
        (fun a b => (h.get a).kind = .bookmark → (h.get b).kind = .bookmark)) ∧
    (∀ n, n ≠ f → (cmdSort h f mode).get n = h.get n) := by
  have hres : ((cmdSort h f mode).get f).children =
      (h.get f).children.mergeSort (sortLe h mode) := by
    rw [cmdSort, Heap.get_set_self _ _ hf]
  have htrans := sortLe_trans h mode
  have htotal := sortLe_total h mode
  have hsorted := List.sorted_mergeSort htrans htotal (h.get f).children
  refine ⟨?_, ?_, ?_, ?_, ?_⟩
  · rw [hres]; exact List.mergeSort_perm _ _
  · rw [hres]; exact hsorted
  · intro v
    rw [hres]
    set p : Nat → Bool := fun x => decide (sortKey h mode x = v) with hp
    have hall : ∀ x ∈ (h.get f).children.filter p, sortKey h mode x = v := by
      intro x hx
      have := List.of_mem_filter hx
      exact of_decide_eq_true this
    have hpair : ((h.get f).children.filter p).Pairwise (fun a b => sortLe h mode a b = true) := by
      apply List.pairwise_of_forall_mem_list
      intro a ha b hb
      unfold sortLe
      rw [hall a ha, hall b hb, keyLtb_irrefl]
      rfl
    have hsubl : List.Sublist ((h.get f).children.filter p)
        ((h.get f).children.mergeSort (sortLe h mode)) :=
      List.sublist_mergeSort htrans htotal hpair (List.filter_sublist _)
    have hfil : ((h.get f).children.filter p).filter p = (h.get f).children.filter p :=
      List.filter_eq_self.mpr (fun a ha => List.of_mem_filter ha)
    have h1 : List.Sublist ((h.get f).children.filter p)
        (((h.get f).children.mergeSort (sortLe h mode)).filter p) := by
      have := hsubl.filter p
      rwa [hfil] at this
    have h2 : (((h.get f).children.mergeSort (sortLe h mode)).filter p).length =
        ((h.get f).children.filter p).length :=
      ((List.mergeSort_perm (h.get f).children (sortLe h mode)).filter p).length_eq
    exact (h1.eq_of_length h2.symm).symm
  · intro hmode
    subst hmode
    rw [hres]
    refine hsorted.imp ?_
    intro a b hle hka
    by_contra hkb
    have hkbf : (h.get b).kind = .folder := by
      cases hkb2 : (h.get b).kind with
      | folder => rfl
      | bookmark => exact absurd hkb2 hkb
    have ea : sortKey h .title a = (1, pyLower (h.get a).title, none) := by
      rw [sortKey, if_neg (by rintro ⟨h1, -⟩; cases h1), hka]
      simp
    have eb : sortKey h .title b = (0, pyLower (h.get b).title, none) := by
      rw [sortKey, if_neg (by rintro ⟨h1, -⟩; cases h1), hkbf]
      simp
    have : keyLtb (sortKey h .title b) (sortKey h .title a) = true := by
      rw [ea, eb, keyLtb, if_pos (by omega)]
    rw [sortLe, this] at hle
    cases hle
  · intro n hn
    rw [cmdSort, Heap.get_set_ne _ _ hn]

/-- Witness for `claim_C7_amended` at `exSort`, title mode. -/
theorem claim_C7_witness :
    (((cmdSort exSort 0 .title).get 0).children).Perm (exSort.get 0).children ∧
    (((cmdSort exSort 0 .title).get 0).children).Pairwise
      (fun a b => sortLe exSort .title a b = true) ∧
    (∀ v : SKey,
      ((cmdSort exSort 0 .title).get 0).children.filter
          (fun x => decide (sortKey exSort .title x = v)) =
        (exSort.get 0).children.filter (fun x => decide (sortKey exSort .title x = v))) ∧
    (SortMode.title = .title →
      (((cmdSort exSort 0 .title).get 0).children).Pairwise
        (fun a b => (exSort.get a).kind = .bookmark → (exSort.get b).kind = .bookmark)) ∧
    (∀ n, n ≠ 0 → (cmdSort exSort 0 .title).get n = exSort.get n) :=
  claim_C7_amended exSort 0 .title (by decide)

/-! ### Claim C9: rule matching and the classification plan
(`_match_rule`, `_get_classification_plan`, src/gui/main_window.py:1519-1540) -/

/-- `needle` starts `hay` (character lists). -/
def startsWithCL : List Char → List Char → Bool
  | [], _ => true
  | _ :: _, [] => false
  | a :: as, b :: bs => a == b && startsWithCL as bs

/-- Python substring test `needle in hay`. -/
def containsCL (needle : List Char) : List Char → Bool
  | [] => startsWithCL needle []
  | b :: bs => startsWithCL needle (b :: bs) || containsCL needle bs

/-- Python `needle in hay` on strings. -/
def pyIn (needle hay : String) : Bool := containsCL needle.data hay.data

/-- One classification rule: `{"domains": [...], "keywords": [...]}`. -/
structure Rule where
  domains : List String := []
  keywords : List String := []
deriving DecidableEq, Repr

/-- `_match_rule`: some domain is a substring of the lowercased URL, or some
keyword is a substring of the lowercased URL or the lowercased title. -/
def matchRule (url title : String) (r : Rule) : Bool :=
  r.domains.any (fun d => pyIn d (pyLower url)) ||
    r.keywords.any (fun k => pyIn k (pyLower url) || pyIn k (pyLower title))

/-- `bm.parent and bm.parent.title == folder_name`. -/
def parentTitled (h : Heap) (bm : Nat) (name : String) : Bool :=
  match (h.get bm).parent with
  | some p => (h.get p).title = name
  | none => false

/-- The inner rule loop of `_get_classification_plan`: scan rules in mapping
order; on a match, `continue` past the rule when the bookmark's parent is
already titled like it, otherwise assign and `break`. -/
def firstRuleAssign (h : Heap) (bm : Nat) : List (String × Rule) → Option String
  | [] => none
  | (name, r) :: rest =>
    if matchRule (h.get bm).url (h.get bm).title r then
      if parentTitled h bm name then firstRuleAssign h bm rest
      else some name
    else firstRuleAssign h bm rest

/-- `plan.setdefault`-style append used by the plan builder: extend the list
under `name`, creating the entry (at the end, dict insertion order) when
absent. -/
def planAdd (plan : List (String × List Nat)) (name : String) (bm : Nat) :
    List (String × List Nat) :=
  if (plan.find? (fun e => e.1 = name)).isSome then
    plan.map (fun e => if e.1 = name then (e.1, e.2 ++ [bm]) else e)
  else plan ++ [(name, [bm])]

/-- `_get_classification_plan`: walk the candidate nodes, skip non-bookmarks,
and record each bookmark under its assigned folder name. -/
def getClassificationPlan (h : Heap) (bms : List Nat) (rules : List (String × Rule)) :
    List (String × List Nat) :=
  bms.foldl (fun plan bm =>
    if (h.get bm).kind = .bookmark then
      match firstRuleAssign h bm rules with
      | some name => planAdd plan name bm
      | none => plan
    else plan) []

/-- Lookup of the node list recorded under a folder name (`[]` if absent). -/
def lookupL (plan : List (String × List Nat)) (f : String) : List Nat :=
  ((plan.find? (fun e => e.1 = f)).map (·.2)).getD []

/-- The assignment claim C9 describes, in its words: the FIRST rule in
mapping order whose domains or keywords match decides; if the bookmark's
parent is already titled like that rule's folder, the bookmark is simply
not assigned to it (no later rule is considered). -/
def claimAssign (h : Heap) (bm : Nat) : List (String × Rule) → Option String
  | [] => none
  | (name, r) :: rest =>
    if matchRule (h.get bm).url (h.get bm).title r then
      if parentTitled h bm name then none else some name
    else claimAssign h bm rest

/-- Declarative form of what the code does: the first rule that matches AND
is not skipped by the parent-title test. -/
def amendedAssign (h : Heap) (bm : Nat) (rules : List (String × Rule)) : Option String :=
  (rules.find? (fun e =>
    matchRule (h.get bm).url (h.get bm).title e.2 && !parentTitled h bm e.1)).map (·.1)

theorem firstRuleAssign_eq_amended (h : Heap) (bm : Nat) (rules : List (String × Rule)) :
    firstRuleAssign h bm rules = amendedAssign h bm rules := by
  induction rules with
  | nil => rfl
  | cons e rest ih =>
    obtain ⟨name, r⟩ := e
    rw [firstRuleAssign, amendedAssign]
    by_cases hm : matchRule (h.get bm).url (h.get bm).title r
    · by_cases hp : parentTitled h bm name
      · rw [if_pos hm, if_pos hp, List.find?_cons_of_neg _ (by simp [hm, hp]), ih, amendedAssign]
      · rw [if_pos hm, if_neg hp,
          List.find?_cons_of_pos _ (by simp [hm, Bool.eq_false_iff.mpr hp]), Option.map_some']
    · rw [if_neg hm, List.find?_cons_of_neg _ (by simp [hm]), ih, amendedAssign]

theorem lookupL_planAdd (plan : List (String × List Nat)) (name : String) (bm : Nat)
    (f : String) :
    lookupL (planAdd plan name bm) f =
      if f = name then lookupL plan f ++ [bm] else lookupL plan f := by
  rw [planAdd]
  by_cases hex : (plan.find? (fun e => e.1 = name)).isSome
  · rw [if_pos hex]
    have hmapkey : ∀ e : String × List Nat,
        ((if e.1 = name then (e.1, e.2 ++ [bm]) else e) : String × List Nat).1 = e.1 := by
      intro e; by_cases he : e.1 = name <;> simp [he]
    rw [lookupL, List.find?_map]
    by_cases hf : f = name
    · subst hf
      obtain ⟨e, he⟩ := Option.isSome_iff_exists.mp hex
      rw [show (fun x => decide (x.1 = f)) ∘
            (fun e => if e.1 = f then (e.1, e.2 ++ [bm]) else e) =
            (fun e : String × List Nat => decide (e.1 = f)) from
          funext fun e => by by_cases h : e.1 = f <;> simp [h]]
      rw [lookupL, he]
      have hekey : e.1 = f := by
        have := List.find?_some he
        simpa using this
      simp [hekey]
    · rw [show (fun x => decide (x.1 = f)) ∘
            (fun e => if e.1 = name then (e.1, e.2 ++ [bm]) else e) =
            (fun e : String × List Nat => decide (e.1 = f)) from
          funext fun e => by by_cases h : e.1 = name <;> simp [h, hf]]
      rw [if_neg hf, lookupL]
      cases hfind : plan.find? (fun e => e.1 = f) with
      | none => rfl
      | some e =>
        have hekey : e.1 = f := by simpa using List.find?_some hfind
        have : ¬ e.1 = name := by rw [hekey]; exact hf
        simp [this]
  · rw [if_neg hex]
    by_cases hf : f = name
    · subst hf
      rw [if_pos rfl, lookupL, lookupL, List.find?_append]
      rw [Option.not_isSome_iff_eq_none] at hex
      rw [hex]
      simp
    · rw [if_neg hf, lookupL, lookupL, List.find?_append]
      cases hfind : plan.find? (fun e => e.1 = f) with
      | none => simp [Ne.symm hf]
      | some e => simp

/-- Accumulated form of the plan-building fold. -/
theorem plan_fold (h : Heap) (rules : List (String × Rule)) (bms : List Nat) :
    ∀ (acc : List (String × List Nat)) (f : String),
      lookupL (bms.foldl (fun plan bm =>
        if (h.get bm).kind = .bookmark then
          match firstRuleAssign h bm rules with
          | some name => planAdd plan name bm
          | none => plan
        else plan) acc) f =
      lookupL acc f ++ bms.filter (fun bm =>
        (h.get bm).kind = .bookmark ∧ firstRuleAssign h bm rules = some f) := by
  induction bms with
  | nil => intro acc f; simp
  | cons bm rest ih =>
    intro acc f
    rw [List.foldl_cons, List.filter_cons]
    by_cases hk : (h.get bm).kind = .bookmark
    · rw [if_pos hk]
      cases ha : firstRuleAssign h bm rules with
      | none =>
        rw [ih acc f, if_neg (by simp [hk, ha])]
      | some name =>
        by_cases hf : name = f
        · subst hf
          rw [ih, lookupL_planAdd, if_pos rfl,
            if_pos (by simp [hk, ha]), List.append_assoc]
          rfl
        · rw [ih, lookupL_planAdd, if_neg (Ne.symm hf),
            if_neg (by simp [hk, ha, hf])]
    · rw [if_neg hk, ih acc f, if_neg (by simp [hk])]

/-- Two rules that both match the bookmark: the counterexample tree has the
bookmark already sitting under a folder titled like the FIRST rule. -/
def exRules : List (String × Rule) :=
  [("A", { keywords := ["x"] }), ("B", { keywords := ["x"] })]

/-- Folder `A` (id 1) containing a bookmark (id 2) titled `"x"`. -/
def exPlanHeap : Heap :=
  { root := 0,
    nodes :=
      [ { kind := .folder, title := "root", children := [1] },
        { kind := .folder, title := "A", parent := some 0, children := [2] },
        { kind := .bookmark, title := "x", url := "u", parent := some 1 } ] }

/-- Claim C9 is wrong about the skip: when the first matching rule's folder
name equals the bookmark's parent title, the code `continue`s to LATER
rules and here assigns the bookmark to "B", although the first rule in
mapping order whose domains/keywords match is "A" (so under the claim the
bookmark would not be assigned at all). -/
theorem claim_C9_counterexample :
    getClassificationPlan exPlanHeap [2] exRules = [("B", [2])] ∧
      (exRules.find? (fun e =>
        matchRule (exPlanHeap.get 2).url (exPlanHeap.get 2).title e.2)).map (·.1) =
        some "A" ∧
      claimAssign exPlanHeap 2 exRules = none := by
  refine ⟨by decide, by decide, by decide⟩

/-- Claim C9 (amended): the plan records each bookmark under the folder of
the first rule in mapping order that matches AND whose folder name differs
from the bookmark's current parent title — a matching rule whose folder
name equals the parent title is skipped and LATER rules are still tried.
Each bookmark lands under at most one folder, non-bookmarks are ignored,
and plan building reads but never writes the tree. -/
theorem claim_C9_amended (h : Heap) (bms : List Nat) (rules : List (String × Rule)) :
    (∀ f : String,
      lookupL (getClassificationPlan h bms rules) f =
        bms.filter (fun bm =>
          (h.get bm).kind = .bookmark ∧ amendedAssign h bm rules = some f)) ∧
    (∀ f g : String, ∀ bm : Nat,
      bm ∈ lookupL (getClassificationPlan h bms rules) f →
      bm ∈ lookupL (getClassificationPlan h bms rules) g → f = g) := by
  have hchar : ∀ f : String,
      lookupL (getClassificationPlan h bms rules) f =
        bms.filter (fun bm =>
          (h.get bm).kind = .bookmark ∧ amendedAssign h bm rules = some f) := by
    intro f
    rw [getClassificationPlan, plan_fold]
    simp only [lookupL, List.find?_nil, Option.map_none', Option.getD_none, List.nil_append]
    apply List.filter_congr
    intro bm _
    rw [firstRuleAssign_eq_amended]
  refine ⟨hchar, ?_⟩
  intro f g bm hf hg
  rw [hchar f] at hf
  rw [hchar g] at hg
  have h1 : (h.get bm).kind = .bookmark ∧ amendedAssign h bm rules = some f := by
    simpa using List.of_mem_filter hf
  have h2 : (h.get bm).kind = .bookmark ∧ amendedAssign h bm rules = some g := by
    simpa using List.of_mem_filter hg
  exact Option.some.inj (h1.2.symm.trans h2.2)

/-- Witness for `claim_C9_amended` on the concrete two-rule tree.  (The
theorem has no hypotheses beyond its universally quantified arguments; this
instantiates it at concrete input.) -/
theorem claim_C9_witness :
    (∀ f : String,
      lookupL (getClassificationPlan exPlanHeap [2] exRules) f =
        [2].filter (fun bm =>
          (exPlanHeap.get bm).kind = .bookmark ∧
            amendedAssign exPlanHeap bm exRules = some f)) ∧
    (∀ f g : String, ∀ bm : Nat,
      bm ∈ lookupL (getClassificationPlan exPlanHeap [2] exRules) f →
      bm ∈ lookupL (getClassificationPlan exPlanHeap [2] exRules) g → f = g) :=
  claim_C9_amended exPlanHeap [2] exRules

/-! ### Claim C10: AI-result reconciliation
(`_process_ui_queue`, src/gui/main_window.py:588-603) -/

/-- The `(title, url)` descriptor of a node. -/
def descKey (h : Heap) (n : Nat) : String × String := ((h.get n).title, (h.get n).url)

/-- Python dict insertion: overwrite the value when the key exists, else
append a new entry. -/
def dictInsert (m : List ((String × String) × Nat)) (k : String × String) (v : Nat) :
    List ((String × String) × Nat) :=
  if (m.find? (fun e => e.1 = k)).isSome then
    m.map (fun e => if e.1 = k then (k, v) else e)
  else m ++ [(k, v)]

/-- Python dict lookup (`dict.get`). -/
def dictGet? (m : List ((String × String) × Nat)) (k : String × String) : Option Nat :=
  (m.find? (fun e => e.1 = k)).map (·.2)

/-- `original_nodes_map = {(node.title, node.url): node for node in
self.last_classified_bookmarks}` — a dict comprehension, so later entries
overwrite earlier ones. -/
def buildLookup (h : Heap) (submitted : List Nat) : List ((String × String) × Nat) :=
  submitted.foldl (fun m n => dictInsert m (descKey h n) n) []

/-- The reconciliation loop: resolve every returned descriptor through the
lookup, drop unresolvable ones, and keep a folder only when something
resolved. -/
def reconcile (h : Heap) (submitted : List Nat)
    (plan : List (String × List (String × String))) : List (String × List Nat) :=
  let m := buildLookup h submitted
  plan.foldl (fun acc e =>
    let resolved := e.2.filterMap (fun d => dictGet? m d)
    if resolved = [] then acc else acc ++ [(e.1, resolved)]) []

theorem dictGet_dictInsert (m : List ((String × String) × Nat)) (k : String × String)
    (v : Nat) (k2 : String × String) :
    dictGet? (dictInsert m k v) k2 = if k2 = k then some v else dictGet? m k2 := by
  rw [dictInsert]
  by_cases hex : (m.find? (fun e => e.1 = k)).isSome
  · rw [if_pos hex, dictGet?, List.find?_map]
    by_cases hk : k2 = k
    · subst hk
      obtain ⟨e, he⟩ := Option.isSome_iff_exists.mp hex
      have hekey : e.1 = k2 := by simpa using List.find?_some he
      rw [show (fun x => decide (x.1 = k2)) ∘
            (fun e => if e.1 = k2 then (k2, v) else e) =
            (fun e : (String × String) × Nat => decide (e.1 = k2)) from
          funext fun e => by by_cases h : e.1 = k2 <;> simp [h]]
      rw [if_pos rfl, he]
      simp [hekey]
    · rw [show (fun x => decide (x.1 = k2)) ∘
            (fun e => if e.1 = k then (k, v) else e) =
            (fun e : (String × String) × Nat => decide (e.1 = k2)) from
          funext fun e => by by_cases h : e.1 = k <;> simp [h]]
      rw [if_neg hk, dictGet?]
      cases hfind : m.find? (fun e => e.1 = k2) with
      | none => rfl
      | some e =>
        have hekey : e.1 = k2 := by simpa using List.find?_some hfind
        have : ¬ e.1 = k := fun hc => hk (hekey ▸ hc ▸ rfl)
        simp [this]
  · rw [if_neg hex]
    by_cases hk : k2 = k
    · subst hk
      rw [if_pos rfl, dictGet?, List.find?_append]
      rw [Option.not_isSome_iff_eq_none] at hex
      rw [hex]
      simp
    · rw [if_neg hk, dictGet?, dictGet?, List.find?_append]
      cases hfind : m.find? (fun e => e.1 = k2) with
      | none => simp [Ne.symm hk]
      | some e => simp

theorem buildLookup_loop (h : Heap) (sub : List Nat) :
    ∀ (m : List ((String × String) × Nat)) (k : String × String),
      dictGet? (sub.foldl (fun m n => dictInsert m (descKey h n) n) m) k =
        (sub.reverse.find? (fun n => decide (descKey h n = k))).or (dictGet? m k) := by
  induction sub with
  | nil => intro m k; simp
  | cons n rest ih =>
    intro m k
    rw [List.foldl_cons, ih, List.reverse_cons, List.find?_append]
    cases hfind : rest.reverse.find? (fun x => decide (descKey h x = k)) with
    | some e => simp
    | none =>
      simp only [Option.none_or]
      rw [dictGet_dictInsert]
      by_cases hk : k = descKey h n
      · rw [if_pos hk]
        have : descKey h n = k := hk.symm
        simp [List.find?_cons, this]
      · rw [if_neg hk]
        have : ¬ descKey h n = k := fun hc => hk hc.symm
        simp [List.find?_cons, this]

/-- The last submitted node carrying a given descriptor. -/
def lastWithDesc (h : Heap) (sub : List Nat) (d : String × String) : Option Nat :=
  sub.reverse.find? (fun n => decide (descKey h n = d))

theorem dictGet_buildLookup (h : Heap) (sub : List Nat) (k : String × String) :
    dictGet? (buildLookup h sub) k = lastWithDesc h sub k := by
  rw [buildLookup, buildLookup_loop, lastWithDesc]
  cases hfind : sub.reverse.find? (fun n => decide (descKey h n = k)) <;>
    simp [dictGet?]

theorem reconcile_fold (m : List ((String × String) × Nat))
    (plan : List (String × List (String × String))) :
    ∀ acc : List (String × List Nat),
      (plan.foldl (fun acc e =>
        let resolved := e.2.filterMap (fun d => dictGet? m d)
        if resolved = [] then acc else acc ++ [(e.1, resolved)]) acc) =
      acc ++ plan.filterMap (fun e =>
        let resolved := e.2.filterMap (fun d => dictGet? m d)
        if resolved = [] then none else some (e.1, resolved)) := by
  induction plan with
  | nil => intro acc; simp
  | cons e rest ih =>
    intro acc
    rw [List.foldl_cons, List.filterMap_cons]
    by_cases hr : e.2.filterMap (fun d => dictGet? m d) = []
    · simp only [hr, if_pos rfl]
      rw [ih]
      simp [hr]
    · simp only [if_neg hr]
      rw [ih]
      simp [hr, List.append_assoc]

/-- Two distinct submitted bookmarks (ids 1 and 2) with the same
`("t","u")` descriptor. -/
def exRecHeap : Heap :=
  { root := 0,
    nodes :=
      [ { kind := .folder, title := "root", children := [1, 2] },
        { kind := .bookmark, title := "t", url := "u", parent := some 0 },
        { kind := .bookmark, title := "t", url := "u", parent := some 0 } ] }

/-- Claim C10 is wrong about tie-breaking: the lookup is a dict
comprehension, so the LAST submitted node with a duplicated `(title, url)`
pair wins.  Submitting `[1, 2]` and returning their shared descriptor
resolves to node 2, while the first submitted node with that descriptor is
node 1. -/
theorem claim_C10_counterexample :
    reconcile exRecHeap [1, 2] [("F", [("t", "u")])] = [("F", [2])] ∧
      List.find? (fun n => decide (descKey exRecHeap n = ("t", "u"))) [1, 2] = some 1 ∧
      (2 : Nat) ≠ 1 := by
  refine ⟨by decide, by decide, by decide⟩

/-- Claim C10 (amended): reconciliation builds the `(title,url) → node`
lookup once per call over the submitted set with plain dict-overwrite, so a
duplicated descriptor resolves to the LAST submitted node with that pair;
unresolvable descriptors are dropped, and a folder whose resolved list is
empty is absent from the reconciled plan. -/
theorem claim_C10_amended (h : Heap) (sub : List Nat)
    (plan : List (String × List (String × String))) :
    reconcile h sub plan =
      plan.filterMap (fun e =>
        let resolved := e.2.filterMap (fun d => lastWithDesc h sub d)
        if resolved = [] then none else some (e.1, resolved)) := by
  show (plan.foldl (fun acc e =>
      let resolved := e.2.filterMap (fun d => dictGet? (buildLookup h sub) d)
      if resolved = [] then acc else acc ++ [(e.1, resolved)]) []) = _
  rw [reconcile_fold, List.nil_append]
  apply List.filterMap_congr
  intro e _
  have : e.2.filterMap (fun d => dictGet? (buildLookup h sub) d) =
      e.2.filterMap (fun d => lastWithDesc h sub d) := by
    apply List.filterMap_congr
    intro d _
    rw [dictGet_buildLookup]
  simp only [this]

/-- Witness instantiating `claim_C10_amended` at the duplicate-descriptor
tree. -/
theorem claim_C10_witness :
    reconcile exRecHeap [1, 2] [("F", [("t", "u")])] =
      [("F", [("t", "u")])].filterMap (fun e =>
        let resolved := e.2.filterMap (fun d => lastWithDesc exRecHeap [1, 2] d)
        if resolved = [] then none else some (e.1, resolved)) :=
  claim_C10_amended exRecHeap [1, 2] [("F", [("t", "u")])]

/-! ### Claim C4: the incremental search-index update
(`_build_search_index`, src/gui/main_window.py:738-773, and the inline
rename commit, lines 948-957)

The index maps a lowercase word to the set of item ids whose
`title.lower() + " " + url.lower()` contains it; words come from
`re.split(r'\W+', text)`.  Sets are modelled as duplicate-free lists (set
content equality is what the claim compares). -/

/-- A `\w` character: ASCII alphanumeric or underscore. -/
def pyIsWordChar (c : Char) : Bool := c.isAlphanum || c = '_'

/-- Accumulator pass splitting a text into maximal runs of word characters
(`cur` is the current run, reversed). -/
def wordRunsAux : List Char → List Char → List (List Char)
  | cur, [] => if cur = [] then [] else [cur.reverse]
  | cur, c :: rest =>
    if pyIsWordChar c then wordRunsAux (c :: cur) rest
    else if cur = [] then wordRunsAux [] rest else cur.reverse :: wordRunsAux [] rest

/-- The maximal runs of word characters of a text — exactly the nonempty
pieces `re.split(r'\W+', text)` produces. -/
def wordRuns (cs : List Char) : List (List Char) := wordRunsAux [] cs

/-- The node fields the index reads. -/
structure SNode where
  title : String := ""
  url : String := ""
deriving DecidableEq, Repr

/-- `f"{(node.title or '').lower()} {(node.url or '').lower()}"`. -/
def fullText (n : SNode) : String := pyLower n.title ++ " " ++ pyLower n.url

/-- `set(re.split(r'\W+', full_text))` minus the empty string: the distinct
word tokens of a node. -/
def wordsOf (n : SNode) : List String :=
  ((wordRuns (fullText n).data).map (fun cs => (⟨cs⟩ : String))).dedup

/-- The index: a dict from word to a set of item ids (set modelled as a
duplicate-free list). -/
abbrev SIndex := List (String × List Nat)

/-- Set insert (`set.add`). -/
def setAdd (s : List Nat) (x : Nat) : List Nat := if x ∈ s then s else s ++ [x]

/-- `if word not in index: index[word] = set()` followed by
`index[word].add(iid)`. -/
def idxAdd (idx : SIndex) (w : String) (iid : Nat) : SIndex :=
  if (idx.find? (fun e => e.1 = w)).isSome then
    idx.map (fun e => if e.1 = w then (e.1, setAdd e.2 iid) else e)
  else idx ++ [(w, [iid])]

/-- `index[word].discard(iid)` followed by deleting the entry when its set
became empty (no-op when the word is absent). -/
def idxRemove (idx : SIndex) (w : String) (iid : Nat) : SIndex :=
  idx.filterMap (fun e =>
    if e.1 = w then
      (let s := e.2.erase iid
       if s = [] then none else some (e.1, s))
    else some e)

/-- Index all words of one node. -/
def indexNode (idx : SIndex) (iid : Nat) (n : SNode) : SIndex :=
  (wordsOf n).foldl (fun idx w => if w = "" then idx else idxAdd idx w iid) idx

/-- Remove one node's CURRENT words from the index (this is what the code
does in the incremental branch — note it tokenizes the node as it is NOW,
after the edit). -/
def removeNode (idx : SIndex) (iid : Nat) (n : SNode) : SIndex :=
  (wordsOf n).foldl (fun idx w => if w = "" then idx else idxRemove idx w iid) idx

/-- `_build_search_index()` with `updated_nodes=None`: full rebuild over
all items in order. -/
def buildFull (nodes : List (Nat × SNode)) : SIndex :=
  nodes.foldl (fun idx e => indexNode idx e.1 e.2) []

/-- `_build_search_index(updated_nodes=...)`: first remove the updated
nodes' (post-edit) words, then re-index only those nodes. -/
def incrementalUpdate (nodes : List (Nat × SNode)) (idx : SIndex)
    (updated : List Nat) : SIndex :=
  let idx1 := nodes.foldl (fun idx e =>
    if e.1 ∈ updated then removeNode idx e.1 e.2 else idx) idx
  nodes.foldl (fun idx e =>
    if e.1 ∈ updated then indexNode idx e.1 e.2 else idx) idx1

/-- Index lookup (dict content view). -/
def idxGet? (idx : SIndex) (w : String) : Option (List Nat) :=
  (idx.find? (fun e => e.1 = w)).map (·.2)

/-- One bookmark titled `"foo"`, before the inline rename. -/
def exIdxNodes0 : List (Nat × SNode) := [(1, { title := "foo" })]

/-- The same item after `commit` set its title to `"bar"`. -/
def exIdxNodes1 : List (Nat × SNode) := [(1, { title := "bar" })]

/-- Claim C4 describes the intended behaviour (and §8 of the spec lists it
as a testable property), but the code updates the index only AFTER the
node's title was already mutated, so the removal phase tokenizes the NEW
text and never removes the old tokens: after renaming "foo" to "bar" the
incremental index still maps "foo" to the item while a full rebuild does
not.  The code contradicts the equivalence it is documented to maintain. -/
theorem claim_C4_code_bug :
    idxGet? (incrementalUpdate exIdxNodes1 (buildFull exIdxNodes0) [1]) "foo" =
        some [1] ∧
      idxGet? (buildFull exIdxNodes1) "foo" = none ∧
      idxGet? (incrementalUpdate exIdxNodes1 (buildFull exIdxNodes0) [1]) "bar" =
        some [1] ∧
      idxGet? (buildFull exIdxNodes1) "bar" = some [1] := by
  refine ⟨by decide, by decide, by decide, by decide⟩

/-! ### Claim C1: the cycle guard
(`Node.append`, src/core/model.py:28-30 — no check at all;
`_on_tree_release`, src/gui/main_window.py:1334-1396 — walks the target's
parent chain for every dragged folder before mutating anything) -/

/-- Drop positions of the drag-and-drop handler (`'before'`, `'after'`,
`'in'`). -/
inductive DropPos where
  | before
  | after
  | inside
deriving DecidableEq, Repr

/-- The `while temp: ... temp = temp.parent` walk from `n` upwards, cut off
by fuel (the Python loop runs unboundedly; on any actual tree the chain is
shorter than the heap). -/
def ancestorChain (h : Heap) : Nat → Nat → List Nat
  | 0, _ => []
  | fuel + 1, n =>
    n :: (match (h.get n).parent with
      | some p => ancestorChain h fuel p
      | none => [])

/-- The full parent chain from `n` to a parentless node, if it closes
within the fuel. -/
def chainToRoot (h : Heap) : Nat → Nat → Option (List Nat)
  | 0, _ => none
  | fuel + 1, n =>
    match (h.get n).parent with
    | none => some [n]
    | some p => (chainToRoot h fuel p).map (n :: ·)

/-- Fuel ample for any acyclic chain in the heap. -/
def dragFuel (h : Heap) : Nat := h.size + 1

/-- The guard of `_on_tree_release`: some dragged folder occurs on the
target's ancestor chain (the target itself included). -/
def cycleGuardHit (h : Heap) (dragged : List Nat) (target : Nat) : Bool :=
  dragged.any (fun dn =>
    decide ((h.get dn).kind = .folder) &&
      (ancestorChain h (dragFuel h) target).contains dn)

/-- Python `list.insert(i, x)` (clamps an overlong index to append). -/
def insertAt (l : List Nat) (i : Nat) (x : Nat) : List Nat :=
  l.take i ++ x :: l.drop i

/-- `_on_tree_release` after a drag: reject when a dragged folder is an
ancestor of (or equal to) the target; else drop `'in'` appends into the
target folder; otherwise insert the dragged nodes before/after the target
inside the target's parent (falling back to plain appends when the target
is not found in that parent's children — Python's `except ValueError`). -/
def dragRelease (h : Heap) (dragged : List Nat) (target : Nat) (pos : DropPos) : Heap :=
  if cycleGuardHit h dragged target then h
  else if (h.get target).kind = .folder ∧ pos = .inside then
    dragged.foldl (fun h dn => (h.detach dn).append target dn) h
  else
    let parent := (h.get target).parent.getD h.root
    match (h.get parent).children.findIdx? (· == target) with
    | some idx =>
      let idx := if pos = .after then idx + 1 else idx
      dragged.reverse.foldl (fun h dn =>
        let h1 := h.detach dn
        let h2 := h1.set parent
          { h1.get parent with children := insertAt (h1.get parent).children idx dn }
        h2.set dn { h2.get dn with parent := some parent }) h
    | none => dragged.foldl (fun h dn => (h.detach dn).append parent dn) h

/-- `a` is an ancestor of `b` (or `a = b`) along parent links. -/
inductive IsAncestor (h : Heap) (a : Nat) : Nat → Prop where
  | refl : IsAncestor h a a
  | step {b p : Nat} : (h.get b).parent = some p → IsAncestor h a p → IsAncestor h a b

theorem chainToRoot_succ_none {h : Heap} {n : Nat} (fuel : Nat)
    (hp : (h.get n).parent = none) :
    chainToRoot h (fuel + 1) n = some [n] := by
  simp [chainToRoot, hp]

theorem chainToRoot_succ_some {h : Heap} {n p : Nat} (fuel : Nat)
    (hp : (h.get n).parent = some p) :
    chainToRoot h (fuel + 1) n = (chainToRoot h fuel p).map (n :: ·) := by
  simp [chainToRoot, hp]

theorem ancestorChain_succ_none {h : Heap} {n : Nat} (fuel : Nat)
    (hp : (h.get n).parent = none) :
    ancestorChain h (fuel + 1) n = [n] := by
  simp [ancestorChain, hp]

theorem ancestorChain_succ_some {h : Heap} {n p : Nat} (fuel : Nat)
    (hp : (h.get n).parent = some p) :
    ancestorChain h (fuel + 1) n = n :: ancestorChain h fuel p := by
  simp [ancestorChain, hp]

theorem chainToRoot_mem (h : Heap) {a n : Nat} (ha : IsAncestor h a n) :
    ∀ {fuel : Nat} {l : List Nat}, chainToRoot h fuel n = some l → a ∈ l := by
  induction ha with
  | refl =>
    intro fuel l hc
    cases fuel with
    | zero => cases hc
    | succ f =>
      cases hp : (h.get a).parent with
      | none =>
        rw [chainToRoot_succ_none f hp] at hc
        simp at hc
        simp [← hc]
      | some p =>
        rw [chainToRoot_succ_some f hp] at hc
        cases hrec : chainToRoot h f p with
        | none => rw [hrec] at hc; cases hc
        | some l2 =>
          rw [hrec] at hc
          simp at hc
          simp [← hc]
  | step hbp _ ih =>
    intro fuel l hc
    cases fuel with
    | zero => cases hc
    | succ f =>
      rw [chainToRoot_succ_some f hbp] at hc
      cases hrec : chainToRoot h f _ with
      | none => rw [hrec] at hc; cases hc
      | some l2 =>
        rw [hrec] at hc
        simp at hc
        have := ih hrec
        simp [← hc, this]

theorem ancestorChain_of_chainToRoot (h : Heap) :
    ∀ {fuel n : Nat} {l : List Nat}, chainToRoot h fuel n = some l →
      ancestorChain h fuel n = l := by
  intro fuel
  induction fuel with
  | zero => intro n l hc; cases hc
  | succ f ih =>
    intro n l hc
    cases hp : (h.get n).parent with
    | none =>
      rw [chainToRoot_succ_none f hp] at hc
      rw [ancestorChain_succ_none f hp]
      simp at hc
      simp [hc]
    | some p =>
      rw [chainToRoot_succ_some f hp] at hc
      rw [ancestorChain_succ_some f hp]
      cases hrec : chainToRoot h f p with
      | none => rw [hrec] at hc; cases hc
      | some l2 =>
        rw [hrec] at hc
        simp at hc
        rw [ih hrec, ← hc]

/-- Root(0) → folder A(1) → folder B(2): `A` is an ancestor of `B`. -/
def exC1 : Heap :=
  { root := 0,
    nodes :=
      [ { kind := .folder, title := "root", children := [1] },
        { kind := .folder, title := "A", parent := some 0, children := [2] },
        { kind := .folder, title := "B", parent := some 1 } ] }

/-- Claim C1 is wrong about the attach operation: `Node.append` has no
ancestry check whatsoever.  Attaching folder `A` under its own descendant
`B` (`B.append(A)`) raises nothing and mutates the tree — `A` lands in
`B.children` with its parent pointer set to `B`, creating a cycle — so the
attach path neither fails with InvalidOperation nor leaves the tree
unchanged. -/
theorem claim_C1_counterexample :
    ((exC1.append 2 1).get 2).children = [1] ∧
      ((exC1.append 2 1).get 1).parent = some 2 ∧
      IsAncestor exC1 1 2 ∧
      exC1.append 2 1 ≠ exC1 := by
  refine ⟨by decide, by decide, ?_, by decide⟩
  exact IsAncestor.step (show (exC1.get 2).parent = some 1 from rfl) IsAncestor.refl

/-- Claim C1 (amended): only the drag-reorder path enforces the cycle
guard: when some dragged folder is an ancestor of the drop target (or the
target itself) and the target's parent chain is finite, `_on_tree_release`
reports and returns before any structural change, leaving the heap — and
hence its serialization — exactly as it was.  The raw attach operation
(`Node.append`) performs no such check (see the counterexample). -/
theorem claim_C1_amended (h : Heap) (dragged : List Nat) (target : Nat) (pos : DropPos)
    (hterm : (chainToRoot h (dragFuel h) target).isSome)
    (hanc : ∃ dn ∈ dragged, (h.get dn).kind = .folder ∧ IsAncestor h dn target) :
    dragRelease h dragged target pos = h := by
  obtain ⟨l, hl⟩ := Option.isSome_iff_exists.mp hterm
  obtain ⟨dn, hmem, hkind, hanc2⟩ := hanc
  have hchain : ancestorChain h (dragFuel h) target = l :=
    ancestorChain_of_chainToRoot h hl
  have hin : dn ∈ ancestorChain h (dragFuel h) target := by
    rw [hchain]
    exact chainToRoot_mem h hanc2 hl
  have hguard : cycleGuardHit h dragged target = true := by
    rw [cycleGuardHit, List.any_eq_true]
    refine ⟨dn, hmem, ?_⟩
    simp [hkind, hin]
  rw [dragRelease, if_pos hguard]

/-- Witness: dragging folder `A` onto its descendant `B` is rejected and
the heap is untouched. -/
theorem claim_C1_witness : dragRelease exC1 [1] 2 DropPos.inside = exC1 :=
  claim_C1_amended exC1 [1] 2 .inside (by decide)
    ⟨1, by simp, rfl, IsAncestor.step (show (exC1.get 2).parent = some 1 from rfl)
      IsAncestor.refl⟩

/-! ### Claim C8: `cmd_merge_folders` (src/gui/main_window.py:1983-2032) -/

/-- Move every child of `src` into `dst`, as the merge loop does:
`for sub in list(src.children): src.children.remove(sub); dst.append(sub)`
(the snapshot is taken once, up front). -/
def moveAllChildren (h : Heap) (src dst : Nat) : Heap :=
  ((h.get src).children).foldl (fun h s => (h.eraseChild src s).append dst s) h

/-- The scan over the target's children: `seen` maps lowercased title to
the first folder carrying it, `rem` collects duplicate folders for later
removal, `cnt` counts merges. -/
def mergeLoop : Heap → List Nat → List (String × Nat) → List Nat → Nat →
    Heap × List Nat × Nat
  | h, [], _, rem, cnt => (h, rem, cnt)
  | h, c :: rest, seen, rem, cnt =>
    if (h.get c).kind = .folder then
      match seen.find? (fun e => e.1 = pyLower (h.get c).title) with
      | some e => mergeLoop (moveAllChildren h c e.2) rest seen (rem ++ [c]) (cnt + 1)
      | none => mergeLoop h rest (seen ++ [(pyLower (h.get c).title, c)]) rem cnt
    else mergeLoop h rest seen rem cnt

/-- `cmd_merge_folders` on target folder `t`: run the scan over a snapshot
of `t`'s children, then remove the emptied duplicate folders from `t`. -/
def cmdMergeFolders (h : Heap) (t : Nat) : Heap × Nat :=
  let r := mergeLoop h (h.get t).children [] [] 0
  (r.2.1.foldl (fun hh c => hh.eraseChild t c) r.1, r.2.2)

/-- The first folder of `cs` with the same case-insensitive title as `c`
(the "primary" of `c`'s group). -/
def primaryOf (h : Heap) (cs : List Nat) (c : Nat) : Option Nat :=
  cs.find? (fun e =>
    decide ((h.get e).kind = .folder) && (pyLower (h.get e).title == pyLower (h.get c).title))

/-- `c` is a duplicate folder of `cs`: a folder that is not the first of
its case-insensitive title group. -/
def isDupC (h : Heap) (cs : List Nat) (c : Nat) : Bool :=
  decide ((h.get c).kind = .folder) && !(primaryOf h cs c == some c)

/-- Node kinds and titles of two heaps agree everywhere (the merge only
rearranges children and parents). -/
def scalarsEq (h1 h2 : Heap) : Prop :=
  ∀ n, (h1.get n).kind = (h2.get n).kind ∧ (h1.get n).title = (h2.get n).title

theorem scalarsEq_refl (h : Heap) : scalarsEq h h := fun _ => ⟨rfl, rfl⟩

theorem scalarsEq_trans {h1 h2 h3 : Heap} (a : scalarsEq h1 h2) (b : scalarsEq h2 h3) :
    scalarsEq h1 h3 := fun n => ⟨(a n).1.trans (b n).1, (a n).2.trans (b n).2⟩

theorem scalars_set (h : Heap) (n : Nat) (d : NodeData)
    (hk : d.kind = (h.get n).kind) (ht : d.title = (h.get n).title) :
    scalarsEq (h.set n d) h := by
  intro m
  by_cases hm : m = n
  · subst hm
    by_cases hn : m < h.size
    · rw [Heap.get_set_self _ _ hn]; exact ⟨hk, ht⟩
    · rw [Heap.set_of_le _ _ (Nat.le_of_not_lt hn)]; exact ⟨rfl, rfl⟩
  · rw [Heap.get_set_ne _ _ hm]; exact ⟨rfl, rfl⟩

theorem scalars_eraseChild (h : Heap) (p c : Nat) : scalarsEq (h.eraseChild p c) h :=
  scalars_set h p _ rfl rfl

theorem scalars_append (h : Heap) (g m : Nat) : scalarsEq (h.append g m) h := by
  have h1 := scalars_set h m { h.get m with parent := some g } rfl rfl
  have h2 := scalars_set (h.set m { h.get m with parent := some g }) g
    { (h.set m { h.get m with parent := some g }).get g with
      children := ((h.set m { h.get m with parent := some g }).get g).children ++ [m] }
    rfl rfl
  exact scalarsEq_trans h2 h1

theorem Heap.get_append_ne_ne (h : Heap) {g m n : Nat} (hng : n ≠ g) (hnm : n ≠ m) :
    (h.append g m).get n = h.get n := by
  rw [Heap.append, Heap.get_set_ne _ _ hng, Heap.get_set_ne _ _ hnm]

/-- Effect of `moveAllChildren`-style folds: starting from the exact
snapshot of `d`'s children, every entry is erased from `d` and appended to
`p` in order. -/
theorem moveAll_aux (d p : Nat) (hdp : d ≠ p) :
    ∀ (subs : List Nat) (hc : Heap),
      d < hc.size → p < hc.size →
      (∀ s ∈ subs, s < hc.size ∧ s ≠ d ∧ s ≠ p) →
      (hc.get d).children = subs →
      (subs.foldl (fun h s => (h.eraseChild d s).append p s) hc).size = hc.size ∧
      ((subs.foldl (fun h s => (h.eraseChild d s).append p s) hc).get p).children =
        (hc.get p).children ++ subs ∧
      ((subs.foldl (fun h s => (h.eraseChild d s).append p s) hc).get d).children = [] ∧
      (∀ n, n ≠ d → n ≠ p → n ∉ subs →
        (subs.foldl (fun h s => (h.eraseChild d s).append p s) hc).get n = hc.get n) ∧
      (∀ s ∈ subs,
        ((subs.foldl (fun h s => (h.eraseChild d s).append p s) hc).get s).children =
          (hc.get s).children) ∧
      scalarsEq (subs.foldl (fun h s => (h.eraseChild d s).append p s) hc) hc := by
  intro subs
  induction subs with
  | nil =>
    intro hc hd hp hcond hsnap
    refine ⟨rfl, by simp, hsnap, fun n _ _ _ => rfl,
      fun s hs => absurd hs (List.not_mem_nil s), scalarsEq_refl hc⟩
  | cons s rest ih =>
    intro hc hd hp hcond hsnap
    obtain ⟨hs_sz, hs_d, hs_p⟩ := hcond s (List.mem_cons_self _ _)
    set h1 := hc.eraseChild d s with hh1
    set h2 := h1.append p s with hh2
    have hsz1 : h1.size = hc.size := Heap.size_eraseChild _ _ _
    have hsz2 : h2.size = hc.size := by rw [hh2, Heap.size_append, hsz1]
    have hd2 : (h2.get d).children = rest := by
      rw [hh2, Heap.children_append_ne _ _ hdp, hh1,
        Heap.children_eraseChild_self _ _ hd, hsnap, List.erase_cons_head]
    have hfold : (s :: rest).foldl (fun h s => (h.eraseChild d s).append p s) hc =
        rest.foldl (fun h s => (h.eraseChild d s).append p s) h2 := rfl
    obtain ⟨ih1, ih2, ih3, ih4, ih5, ih6⟩ := ih h2 (hsz2 ▸ hd) (hsz2 ▸ hp)
      (fun x hx => by
        obtain ⟨a, b, c⟩ := hcond x (List.mem_cons_of_mem _ hx)
        exact ⟨hsz2 ▸ a, b, c⟩)
      hd2
    have hp2 : (h2.get p).children = (hc.get p).children ++ [s] := by
      rw [hh2, Heap.children_append_self _ _ (hsz1 ▸ hp), hh1,
        Heap.get_eraseChild_ne _ _ (Ne.symm hdp)]
    refine ⟨?_, ?_, ?_, ?_, ?_, ?_⟩
    · rw [hfold, ih1, hsz2]
    · rw [hfold, ih2, hp2, List.append_assoc, List.singleton_append]
    · rw [hfold]; exact ih3
    · intro n hnd hnp hnmem
      rw [hfold, ih4 n hnd hnp (fun hh => hnmem (List.mem_cons_of_mem _ hh)), hh2,
        Heap.get_append_ne_ne _ hnp (fun he => hnmem (he ▸ List.mem_cons_self _ _)), hh1,
        Heap.get_eraseChild_ne _ _ hnd]
    · intro x hx
      by_cases hmem : x ∈ rest
      · obtain ⟨-, hx_d, hx_p⟩ := hcond x hx
        rw [hfold, ih5 x hmem, hh2, Heap.children_append_ne _ _ hx_p, hh1,
          Heap.get_eraseChild_ne _ _ hx_d]
      · have hxs : x = s := by
          rcases List.mem_cons.mp hx with hh | hh
          · exact hh
          · exact absurd hh hmem
        subst hxs
        rw [hfold, ih4 x hs_d hs_p hmem, hh2, Heap.children_append_ne _ _ hs_p, hh1,
          Heap.get_eraseChild_ne _ _ hs_d]
    · rw [hfold]
      exact scalarsEq_trans ih6
        (scalarsEq_trans (scalars_append h1 p s) (scalars_eraseChild hc d s))

theorem mergeLoop_cons_dup {h : Heap} {c : Nat} {rest : List Nat}
    {seen : List (String × Nat)} {rem : List Nat} {cnt : Nat} {e : String × Nat}
    (hk : (h.get c).kind = .folder)
    (hf : seen.find? (fun x => x.1 = pyLower (h.get c).title) = some e) :
    mergeLoop h (c :: rest) seen rem cnt =
      mergeLoop (moveAllChildren h c e.2) rest seen (rem ++ [c]) (cnt + 1) := by
  simp [mergeLoop, hk, hf]

theorem mergeLoop_cons_new {h : Heap} {c : Nat} {rest : List Nat}
    {seen : List (String × Nat)} {rem : List Nat} {cnt : Nat}
    (hk : (h.get c).kind = .folder)
    (hf : seen.find? (fun x => x.1 = pyLower (h.get c).title) = none) :
    mergeLoop h (c :: rest) seen rem cnt =
      mergeLoop h rest (seen ++ [(pyLower (h.get c).title, c)]) rem cnt := by
  simp [mergeLoop, hk, hf]

theorem mergeLoop_cons_skip {h : Heap} {c : Nat} {rest : List Nat}
    {seen : List (String × Nat)} {rem : List Nat} {cnt : Nat}
    (hk : ¬ (h.get c).kind = .folder) :
    mergeLoop h (c :: rest) seen rem cnt = mergeLoop h rest seen rem cnt := by
  simp [mergeLoop, hk]

/-- The folder/title matcher used for grouping. -/
def pkey (h0 : Heap) (k : String) (e : Nat) : Bool :=
  decide ((h0.get e).kind = .folder) && (pyLower (h0.get e).title == k)

theorem primaryOf_eq_find (h0 : Heap) (cs : List Nat) (c : Nat) :
    primaryOf h0 cs c = cs.find? (pkey h0 (pyLower (h0.get c).title)) := rfl

theorem find?_append_none {α : Type} {p : α → Bool} {l1 l2 : List α}
    (h : l1.find? p = none) : (l1 ++ l2).find? p = l2.find? p := by
  rw [List.find?_append, h, Option.none_or]

theorem find?_append_some {α : Type} {p : α → Bool} {l1 l2 : List α} {x : α}
    (h : l1.find? p = some x) : (l1 ++ l2).find? p = some x := by
  rw [List.find?_append, h]
  rfl

theorem pkey_true_iff {h0 : Heap} {k : String} {e : Nat} :
    pkey h0 k e = true ↔ ((h0.get e).kind = .folder ∧ pyLower (h0.get e).title = k) := by
  simp [pkey]

theorem find?_singleton_none {α : Type} {p : α → Bool} {x : α} (h : p x = false) :
    [x].find? p = none := by
  simp [List.find?, h]

/-- `moveAll_aux` restated on `moveAllChildren` itself. -/
theorem moveAllChildren_spec (hcp : Heap) (d p : Nat) (hdp : d ≠ p)
    (hd : d < hcp.size) (hp : p < hcp.size)
    (hcond : ∀ s ∈ (hcp.get d).children, s < hcp.size ∧ s ≠ d ∧ s ≠ p) :
    (moveAllChildren hcp d p).size = hcp.size ∧
    ((moveAllChildren hcp d p).get p).children =
      (hcp.get p).children ++ (hcp.get d).children ∧
    ((moveAllChildren hcp d p).get d).children = [] ∧
    (∀ n, n ≠ d → n ≠ p → n ∉ (hcp.get d).children →
      (moveAllChildren hcp d p).get n = hcp.get n) ∧
    (∀ s ∈ (hcp.get d).children,
      ((moveAllChildren hcp d p).get s).children = (hcp.get s).children) ∧
    scalarsEq (moveAllChildren hcp d p) hcp :=
  moveAll_aux d p hdp (hcp.get d).children hcp hd hp hcond rfl

/-- The invariant-carrying induction behind `cmd_merge_folders`: processing
the remaining snapshot `rest` after prefix `pre` of the target's children
`cs`. -/
theorem mergeLoop_spec (h0 : Heap) (t : Nat) (cs : List Nat)
    (hnodup : cs.Nodup)
    (hcs : ∀ c ∈ cs, c < h0.size ∧ c ≠ t)
    (hsub : ∀ c ∈ cs, ∀ s ∈ (h0.get c).children, s < h0.size ∧ s ≠ t ∧ s ∉ cs) :
    ∀ (rest pre : List Nat) (seen : List (String × Nat)) (rem : List Nat) (cnt : Nat)
      (hc : Heap),
      cs = pre ++ rest →
      scalarsEq hc h0 →
      hc.size = h0.size →
      (hc.get t).children = cs →
      (∀ c ∈ rest, hc.get c = h0.get c) →
      (∀ n, n ≠ t → n ∉ cs → (hc.get n).children = (h0.get n).children) →
      (∀ p ∈ cs, (h0.get p).kind = .folder → primaryOf h0 cs p = some p →
        (hc.get p).children = (h0.get p).children ++
          ((pre.filter (isDupC h0 cs)).filter
            (fun dd => primaryOf h0 cs dd == some p)).bind (fun dd => (h0.get dd).children)) →
      (∀ k : String, (seen.find? (fun e => e.1 = k)).map (·.2) = pre.find? (pkey h0 k)) →
      scalarsEq (mergeLoop hc rest seen rem cnt).1 h0 ∧
      (mergeLoop hc rest seen rem cnt).1.size = h0.size ∧
      ((mergeLoop hc rest seen rem cnt).1.get t).children = cs ∧
      (∀ n, n ≠ t → n ∉ cs →
        ((mergeLoop hc rest seen rem cnt).1.get n).children = (h0.get n).children) ∧
      (∀ p ∈ cs, (h0.get p).kind = .folder → primaryOf h0 cs p = some p →
        ((mergeLoop hc rest seen rem cnt).1.get p).children = (h0.get p).children ++
          (((pre ++ rest).filter (isDupC h0 cs)).filter
            (fun dd => primaryOf h0 cs dd == some p)).bind (fun dd => (h0.get dd).children)) ∧
      (mergeLoop hc rest seen rem cnt).2.1 = rem ++ rest.filter (isDupC h0 cs) ∧
      (mergeLoop hc rest seen rem cnt).2.2 = cnt + (rest.filter (isDupC h0 cs)).length := by
  intro rest
  induction rest with
  | nil =>
    intro pre seen rem cnt hc hsplit hscal hsize hct hrest hI5 hI3 hseen
    refine ⟨hscal, hsize, hct, hI5, ?_, by simp [mergeLoop], by simp [mergeLoop]⟩
    intro p hp hpk hprim
    simpa using hI3 p hp hpk hprim
  | cons c rest ih =>
    intro pre seen rem cnt hc hsplit hscal hsize hct hrest hI5 hI3 hseen
    have hcc : hc.get c = h0.get c := hrest c (List.mem_cons_self _ _)
    have hcmem : c ∈ cs := hsplit ▸ List.mem_append_right _ (List.mem_cons_self _ _)
    obtain ⟨hclt, hcnt⟩ := hcs c hcmem
    have hnd2 : (pre ++ c :: rest).Nodup := hsplit ▸ hnodup
    obtain ⟨hndpre, hndcr, hdisj⟩ := List.nodup_append.mp hnd2
    have hcpre : c ∉ pre := fun hcp => hdisj hcp (List.mem_cons_self _ _)
    have hcrest : c ∉ rest := (List.nodup_cons.mp hndcr).1
    have hsplit2 : cs = (pre ++ [c]) ++ rest := by rw [hsplit, List.append_cons]
    by_cases hk : (h0.get c).kind = .folder
    · set k := pyLower (h0.get c).title with hkdef
      cases hfind : seen.find? (fun x => x.1 = k) with
      | some e =>
        -- duplicate folder: merged into the primary e.2 and queued for removal
        have hstep : mergeLoop hc (c :: rest) seen rem cnt =
            mergeLoop (moveAllChildren hc c e.2) rest seen (rem ++ [c]) (cnt + 1) :=
          mergeLoop_cons_dup (by rw [hcc]; exact hk) (by rw [hcc]; exact hfind)
        have hprefind : pre.find? (pkey h0 k) = some e.2 := by
          rw [← hseen k, hfind, Option.map_some']
        have he2pre : e.2 ∈ pre := List.mem_of_find?_eq_some hprefind
        have he2mem : e.2 ∈ cs := hsplit ▸ List.mem_append_left _ he2pre
        obtain ⟨he2k, he2title⟩ := pkey_true_iff.mp (List.find?_some hprefind)
        have he2c : e.2 ≠ c := fun hh => hcpre (hh ▸ he2pre)
        obtain ⟨he2lt, he2t⟩ := hcs e.2 he2mem
        have hprimc : primaryOf h0 cs c = some e.2 := by
          rw [primaryOf_eq_find, ← hkdef, hsplit, find?_append_some hprefind]
        have hdupc : isDupC h0 cs c = true := by
          rw [isDupC, hprimc]
          simp [hk, he2c]
        have hsnap : (hc.get c).children = (h0.get c).children := by rw [hcc]
        have hsubc := hsub c hcmem
        obtain ⟨m1, m2, m3, m4, m5, m6⟩ := moveAllChildren_spec hc c e.2 (Ne.symm he2c)
          (hsize ▸ hclt) (hsize ▸ he2lt)
          (fun s hs => by
            obtain ⟨a, b, cc⟩ := hsubc s (hsnap ▸ hs)
            exact ⟨hsize ▸ a, fun he => cc (he ▸ hcmem), fun he => cc (he ▸ he2mem)⟩)
        set h2 := moveAllChildren hc c e.2 with hh2
        have hts : t ∉ (hc.get c).children := fun ht =>
          (hsubc t (hsnap ▸ ht)).2.1 rfl
        have ht2 : h2.get t = hc.get t :=
          m4 t (Ne.symm hcnt) (Ne.symm he2t) hts
        have happly := ih (pre ++ [c]) seen (rem ++ [c]) (cnt + 1) h2
          hsplit2
          (scalarsEq_trans m6 hscal)
          (m1.trans hsize)
          (by rw [ht2, hct])
          (fun c2 hc2 => by
            have hc2cs : c2 ∈ cs := hsplit ▸
              List.mem_append_right _ (List.mem_cons_of_mem _ hc2)
            have hc2c : c2 ≠ c := fun hh => hcrest (hh ▸ hc2)
            have hc2e2 : c2 ≠ e.2 := fun hh =>
              (hdisj (hh ▸ he2pre) (List.mem_cons_of_mem _ hc2)).elim
            have hc2sub : c2 ∉ (hc.get c).children := fun hcsub =>
              (hsubc c2 (hsnap ▸ hcsub)).2.2 hc2cs
            rw [m4 c2 hc2c hc2e2 hc2sub]
            exact hrest c2 (List.mem_cons_of_mem _ hc2))
          (fun n hnt hncs => by
            by_cases hnsub : n ∈ (hc.get c).children
            · rw [m5 n hnsub]
              exact hI5 n hnt hncs
            · rw [m4 n (fun hh => hncs (hh ▸ hcmem)) (fun hh => hncs (hh ▸ he2mem)) hnsub]
              exact hI5 n hnt hncs)
          (fun p hp hpk hprim => by
            by_cases hpe : p = e.2
            · subst hpe
              rw [m2, hI3 e.2 hp hpk hprim]
              rw [List.filter_append, List.filter_append]
              have hf1 : [c].filter (isDupC h0 cs) = [c] := by simp [hdupc]
              rw [hf1]
              have hf2 : [c].filter (fun dd => primaryOf h0 cs dd == some e.2) = [c] := by
                simp [hprimc]
              rw [hf2]
              simp [hsnap, List.append_assoc]
            · have hpc : p ≠ c := fun hh => by
                rw [hh, hprimc] at hprim
                exact hpe (hh.trans (Option.some.inj hprim).symm)
              have hpsub : p ∉ (hc.get c).children := fun hcsub =>
                (hsubc p (hsnap ▸ hcsub)).2.2 hp
              rw [m4 p hpc hpe hpsub, hI3 p hp hpk hprim]
              rw [List.filter_append]
              have hf1 : [c].filter (isDupC h0 cs) = [c] := by simp [hdupc]
              rw [hf1, List.filter_append]
              have hf2 : [c].filter (fun dd => primaryOf h0 cs dd == some p) = [] := by
                simp [hprimc, Ne.symm hpe]
              rw [hf2, List.append_nil])
          (fun k2 => by
            rw [hseen k2, List.find?_append]
            cases hpk2 : pre.find? (pkey h0 k2) with
            | some x => rfl
            | none =>
              rw [Option.none_or]
              have hck2 : pkey h0 k2 c = false := by
                by_cases hkk : k2 = k
                · subst hkk
                  rw [hpk2] at hprefind
                  cases hprefind
                · simp [pkey, ← hkdef, show ¬ (k = k2) from fun hh => hkk hh.symm]
              rw [find?_singleton_none hck2])
        rw [hstep]
        refine ⟨happly.1, happly.2.1, happly.2.2.1, happly.2.2.2.1, ?_, ?_, ?_⟩
        · intro p hp hpk hprim
          rw [happly.2.2.2.2.1 p hp hpk hprim, ← List.append_cons]
        · rw [happly.2.2.2.2.2.1, List.filter_cons, hdupc]
          simp
        · rw [happly.2.2.2.2.2.2]
          simp [List.filter_cons, hdupc]
          omega
      | none =>
        -- first folder of its group: recorded in `seen`, kept
        have hstep : mergeLoop hc (c :: rest) seen rem cnt =
            mergeLoop hc rest (seen ++ [(k, c)]) rem cnt := by
          rw [mergeLoop_cons_new (by rw [hcc]; exact hk) (by rw [hcc]; exact hfind), hcc]
        have hprefind : pre.find? (pkey h0 k) = none := by
          rw [← hseen k, hfind, Option.map_none']
        have hprimc : primaryOf h0 cs c = some c := by
          rw [primaryOf_eq_find, ← hkdef, hsplit, find?_append_none hprefind]
          have hpk : pkey h0 k c = true := pkey_true_iff.mpr ⟨hk, hkdef.symm⟩
          simp [List.find?_cons, hpk]
        have hdupf : isDupC h0 cs c = false := by
          rw [isDupC, hprimc]
          simp
        have happly := ih (pre ++ [c]) (seen ++ [(k, c)]) rem cnt hc
          hsplit2
          hscal hsize hct
          (fun c2 hc2 => hrest c2 (List.mem_cons_of_mem _ hc2))
          hI5
          (fun p hp hpk hprim => by
            rw [List.filter_append]
            have hf1 : [c].filter (isDupC h0 cs) = [] := by simp [hdupf]
            rw [hf1, List.append_nil]
            exact hI3 p hp hpk hprim)
          (fun k2 => by
            rw [List.find?_append, List.find?_append]
            by_cases hkk : k2 = k
            · subst hkk
              rw [hfind, hprefind, Option.none_or, Option.none_or]
              have he2 : pkey h0 k c = true := pkey_true_iff.mpr ⟨hk, hkdef.symm⟩
              simp [List.find?, he2]
            · cases hf2 : seen.find? (fun e => e.1 = k2) with
              | some x =>
                have hx := hseen k2
                rw [hf2] at hx
                rw [← hx]
                rfl
              | none =>
                have hpre2 : pre.find? (pkey h0 k2) = none := by
                  have hx := hseen k2
                  rw [hf2] at hx
                  exact hx.symm
                rw [hpre2, Option.none_or, Option.none_or]
                have hn1 : [(k, c)].find? (fun e : String × Nat => decide (e.1 = k2)) =
                    none := by
                  apply find?_singleton_none
                  simp [show ¬ (k = k2) from fun hh => hkk hh.symm]
                have hn2 : [c].find? (pkey h0 k2) = none := by
                  apply find?_singleton_none
                  simp [pkey, ← hkdef, show ¬ (k = k2) from fun hh => hkk hh.symm]
                rw [hn1, hn2]
                simp)
        rw [hstep]
        refine ⟨happly.1, happly.2.1, happly.2.2.1, happly.2.2.2.1, ?_, ?_, ?_⟩
        · intro p hp hpk hprim
          rw [happly.2.2.2.2.1 p hp hpk hprim, ← List.append_cons]
        · rw [happly.2.2.2.2.2.1, List.filter_cons, hdupf]
          simp
        · rw [happly.2.2.2.2.2.2, List.filter_cons, hdupf]
          simp
    · -- non-folder child: skipped entirely
      have hstep : mergeLoop hc (c :: rest) seen rem cnt =
          mergeLoop hc rest seen rem cnt :=
        mergeLoop_cons_skip (by rw [hcc]; exact hk)
      have hdupf : isDupC h0 cs c = false := by
        rw [isDupC]
        simp [hk]
      have happly := ih (pre ++ [c]) seen rem cnt hc
        hsplit2 hscal hsize hct
        (fun c2 hc2 => hrest c2 (List.mem_cons_of_mem _ hc2))
        hI5
        (fun p hp hpk hprim => by
          rw [List.filter_append]
          have hf1 : [c].filter (isDupC h0 cs) = [] := by simp [hdupf]
          rw [hf1, List.append_nil]
          exact hI3 p hp hpk hprim)
        (fun k2 => by
          rw [hseen k2, List.find?_append]
          cases hpk2 : pre.find? (pkey h0 k2) with
          | some x => rfl
          | none =>
            rw [Option.none_or]
            have hck2 : pkey h0 k2 c = false := by
              simp [pkey, hk]
            rw [find?_singleton_none hck2])
      rw [hstep]
      refine ⟨happly.1, happly.2.1, happly.2.2.1, happly.2.2.2.1, ?_, ?_, ?_⟩
      · intro p hp hpk hprim
        rw [happly.2.2.2.2.1 p hp hpk hprim, ← List.append_cons]
      · rw [happly.2.2.2.2.2.1, List.filter_cons, hdupf]
        simp
      · rw [happly.2.2.2.2.2.2, List.filter_cons, hdupf]
        simp

theorem foldl_erase_cons {x : Nat} :
    ∀ (ds m : List Nat), (∀ d ∈ ds, d ≠ x) →
      ds.foldl (fun acc d => acc.erase d) (x :: m) =
        x :: ds.foldl (fun acc d => acc.erase d) m := by
  intro ds
  induction ds with
  | nil => intro m _; rfl
  | cons d ds ih =>
    intro m hne
    simp only [List.foldl_cons]
    rw [List.erase_cons_tail (by simp [Ne.symm (hne d (List.mem_cons_self _ _))])]
    exact ih (m.erase d) (fun d2 h2 => hne d2 (List.mem_cons_of_mem _ h2))

theorem foldl_erase_filter :
    ∀ (l : List Nat) (q : Nat → Bool), l.Nodup →
      (l.filter q).foldl (fun acc d => acc.erase d) l = l.filter (fun x => !(q x)) := by
  intro l
  induction l with
  | nil => intro q _; rfl
  | cons x xs ih =>
    intro q hnd
    obtain ⟨hx, hnd2⟩ := List.nodup_cons.mp hnd
    by_cases hq : q x
    · rw [List.filter_cons, if_pos (by simp [hq]), List.foldl_cons, List.erase_cons_head,
        ih q hnd2, List.filter_cons, if_neg (by simp [hq])]
    · rw [List.filter_cons, if_neg (by simp [hq]),
        foldl_erase_cons _ _ (fun d hd he => hx (by rw [← he]; exact List.mem_of_mem_filter hd)),
        ih q hnd2, List.filter_cons, if_pos (by simp [hq])]

theorem eraseFold_spec (t : Nat) :
    ∀ (ds : List Nat) (hh : Heap), t < hh.size →
      ((ds.foldl (fun hh c => hh.eraseChild t c) hh).get t).children =
        ds.foldl (fun l c => l.erase c) (hh.get t).children ∧
      (∀ n, n ≠ t → (ds.foldl (fun hh c => hh.eraseChild t c) hh).get n = hh.get n) ∧
      (ds.foldl (fun hh c => hh.eraseChild t c) hh).size = hh.size ∧
      scalarsEq (ds.foldl (fun hh c => hh.eraseChild t c) hh) hh := by
  intro ds
  induction ds with
  | nil =>
    intro hh ht
    exact ⟨rfl, fun n _ => rfl, rfl, scalarsEq_refl hh⟩
  | cons d ds ih =>
    intro hh ht
    have hsz : (hh.eraseChild t d).size = hh.size := Heap.size_eraseChild _ _ _
    obtain ⟨i1, i2, i3, i4⟩ := ih (hh.eraseChild t d) (hsz ▸ ht)
    refine ⟨?_, ?_, ?_, ?_⟩
    · simp only [List.foldl_cons]
      rw [i1, Heap.children_eraseChild_self _ _ ht]
    · intro n hn
      rw [List.foldl_cons, i2 n hn, Heap.get_eraseChild_ne _ _ hn]
    · rw [List.foldl_cons, i3, hsz]
    · exact scalarsEq_trans i4 (scalars_eraseChild hh t d)

/-- Claim C8 (confirmed): `cmd_merge_folders` scans only the direct
children of the target; duplicate folders (same case-insensitive title as
an earlier folder child) have all their children appended, in encounter
order, after the existing children of the FIRST folder of the group, and
are removed from the target's children; titles and kinds (hence the
surviving folder's title) are untouched everywhere; subfolders are not
recursed into (children of nodes outside the target's child list are
unchanged); the reported count is the number of duplicate folders merged. -/
theorem claim_C8_merge (h : Heap) (t : Nat)
    (ht : t < h.size) (hnodup : (h.get t).children.Nodup)
    (hcs : ∀ c ∈ (h.get t).children, c < h.size ∧ c ≠ t)
    (hsub : ∀ c ∈ (h.get t).children, ∀ s ∈ (h.get c).children,
      s < h.size ∧ s ≠ t ∧ s ∉ (h.get t).children) :
    ((cmdMergeFolders h t).1.get t).children =
      (h.get t).children.filter (fun c => !(isDupC h (h.get t).children c)) ∧
    (cmdMergeFolders h t).2 =
      ((h.get t).children.filter (isDupC h (h.get t).children)).length ∧
    (∀ p ∈ (h.get t).children, (h.get p).kind = .folder →
      primaryOf h (h.get t).children p = some p →
      ((cmdMergeFolders h t).1.get p).children = (h.get p).children ++
        (((h.get t).children.filter (isDupC h (h.get t).children)).filter
          (fun dd => primaryOf h (h.get t).children dd == some p)).bind
            (fun dd => (h.get dd).children)) ∧
    scalarsEq (cmdMergeFolders h t).1 h ∧
    (∀ n, n ≠ t → n ∉ (h.get t).children →
      ((cmdMergeFolders h t).1.get n).children = (h.get n).children) := by
  obtain ⟨s1, s2, s3, s4, s5, s6, s7⟩ :=
    mergeLoop_spec h t (h.get t).children hnodup hcs hsub (h.get t).children [] [] [] 0 h
      (List.nil_append _).symm
      (scalarsEq_refl h) rfl rfl
      (fun c _ => rfl)
      (fun n _ _ => rfl)
      (fun p _ _ _ => by simp)
      (fun k => by simp)
  set r := mergeLoop h (h.get t).children [] [] 0 with hr
  have hrem : r.2.1 = (h.get t).children.filter (isDupC h (h.get t).children) := by
    rw [s6]; simp
  have hcnt : r.2.2 = ((h.get t).children.filter (isDupC h (h.get t).children)).length := by
    rw [s7]; simp
  have hres : cmdMergeFolders h t =
      (r.2.1.foldl (fun hh c => hh.eraseChild t c) r.1, r.2.2) := rfl
  obtain ⟨e1, e2, e3, e4⟩ := eraseFold_spec t r.2.1 r.1 (s2 ▸ ht)
  refine ⟨?_, ?_, ?_, ?_, ?_⟩
  · rw [hres]
    show ((r.2.1.foldl (fun hh c => hh.eraseChild t c) r.1).get t).children = _
    rw [e1, s3, hrem]
    exact foldl_erase_filter (h.get t).children (isDupC h (h.get t).children) hnodup
  · rw [hres]
    exact hcnt
  · intro p hp hpk hprim
    rw [hres]
    show ((r.2.1.foldl (fun hh c => hh.eraseChild t c) r.1).get p).children = _
    rw [e2 p (hcs p hp).2, s5 p hp hpk hprim]
    simp
  · rw [hres]
    exact scalarsEq_trans e4 s1
  · intro n hnt hncs
    rw [hres]
    show ((r.2.1.foldl (fun hh c => hh.eraseChild t c) r.1).get n).children = _
    rw [e2 n hnt]
    exact s4 n hnt hncs

/-- The spec's merge example: folders `"Dev"`, `"dev"`, `"DEV"` under the
root, each with one distinct bookmark. -/
def exMerge : Heap :=
  { root := 0,
    nodes :=
      [ { kind := .folder, title := "root", children := [1, 2, 3] },
        { kind := .folder, title := "Dev", parent := some 0, children := [4] },
        { kind := .folder, title := "dev", parent := some 0, children := [5] },
        { kind := .folder, title := "DEV", parent := some 0, children := [6] },
        { kind := .bookmark, title := "a", url := "ua", parent := some 1 },
        { kind := .bookmark, title := "b", url := "ub", parent := some 2 },
        { kind := .bookmark, title := "c", url := "uc", parent := some 3 } ] }

/-- Witness for `claim_C8_merge` on the Dev/dev/DEV tree. -/
theorem claim_C8_witness :
    ((cmdMergeFolders exMerge 0).1.get 0).children =
      (exMerge.get 0).children.filter (fun c => !(isDupC exMerge (exMerge.get 0).children c)) ∧
    (cmdMergeFolders exMerge 0).2 =
      ((exMerge.get 0).children.filter (isDupC exMerge (exMerge.get 0).children)).length ∧
    (∀ p ∈ (exMerge.get 0).children, (exMerge.get p).kind = .folder →
      primaryOf exMerge (exMerge.get 0).children p = some p →
      ((cmdMergeFolders exMerge 0).1.get p).children = (exMerge.get p).children ++
        (((exMerge.get 0).children.filter (isDupC exMerge (exMerge.get 0).children)).filter
          (fun dd => primaryOf exMerge (exMerge.get 0).children dd == some p)).bind
            (fun dd => (exMerge.get dd).children)) ∧
    scalarsEq (cmdMergeFolders exMerge 0).1 exMerge ∧
    (∀ n, n ≠ 0 → n ∉ (exMerge.get 0).children →
      ((cmdMergeFolders exMerge 0).1.get n).children = (exMerge.get n).children) :=
  claim_C8_merge exMerge 0 (by decide) (by decide) (by decide) (by decide)

/-! ### Claim C2: the ownership invariant across all mutation commands -/

/-- Reading an unallocated id yields the default (empty) record. -/
theorem Heap.get_default (h : Heap) {n : Nat} (hn : h.size ≤ n) : h.get n = {} := by
  simp only [Heap.get, Heap.size] at *
  unfold List.getD
  rw [List.get?_eq_none.mpr hn]
  rfl

/-- A node with a child occurrence is an allocated record. -/
theorem mem_children_lt (h : Heap) {d c : Nat} (hc : c ∈ (h.get d).children) :
    d < h.size := by
  by_contra hd
  rw [Heap.get_default h (Nat.le_of_not_lt hd)] at hc
  rw [show ({} : NodeData).children = [] from rfl] at hc
  exact absurd hc (List.not_mem_nil c)

/-- The ownership invariant (spec section 3): every children list is
duplicate-free, child ids stay inside the heap, and each child's parent
back-reference points at the list holding it.  Exclusive ownership (a node
occurs in at most one children list) is a consequence of the
back-reference. -/
def Own (h : Heap) : Prop :=
  ∀ n, n < h.size →
    (h.get n).children.Nodup ∧
    ∀ c ∈ (h.get n).children, c < h.size ∧ (h.get c).parent = some n

instance (h : Heap) : Decidable (Own h) := by
  unfold Own; infer_instance

/-- Exclusivity: under `Own`, a child of `p` occurs in no other list. -/
theorem own_exclusive {h : Heap} (hown : Own h) {p c : Nat} (hp : p < h.size)
    (hc : c ∈ (h.get p).children) : ∀ q, q ≠ p → c ∉ (h.get q).children := by
  intro q hq hcq
  have hql := mem_children_lt h hcq
  have h1 := ((hown p hp).2 c hc).2
  have h2 := ((hown q hql).2 c hcq).2
  rw [h1] at h2
  exact hq (Option.some.inj h2).symm

/-- A parentless node occurs in no children list. -/
theorem not_mem_of_parent_none {h : Heap} (hown : Own h) {c : Nat}
    (hpar : (h.get c).parent = none) : ∀ n, c ∉ (h.get n).children := by
  intro n hmem
  have hlt := mem_children_lt h hmem
  have hb := ((hown n hlt).2 c hmem).2
  rw [hpar] at hb
  exact Option.noConfusion hb

/-- A node absent from its own parent's list occurs in no list at all. -/
theorem not_mem_of_not_mem_parent {h : Heap} (hown : Own h) {c p : Nat}
    (hpar : (h.get c).parent = some p) (hnm : c ∉ (h.get p).children) :
    ∀ n, c ∉ (h.get n).children := by
  intro n hmem
  have hlt := mem_children_lt h hmem
  have hb := ((hown n hlt).2 c hmem).2
  rw [hpar] at hb
  exact hnm ((Option.some.inj hb) ▸ hmem)

/-- Erasing a child from a list never breaks the invariant. -/
theorem own_eraseChild (h : Heap) (p c : Nat) (hown : Own h) :
    Own (h.eraseChild p c) := by
  by_cases hp : p < h.size
  · intro n hn
    rw [Heap.size_eraseChild] at hn
    by_cases hnp : n = p
    · subst hnp
      constructor
      · rw [Heap.children_eraseChild_self h c hp]
        exact ((hown n hn).1).erase c
      · intro c2 hc2
        rw [Heap.children_eraseChild_self h c hp] at hc2
        obtain ⟨hlt, hpar⟩ := (hown n hn).2 c2 (List.mem_of_mem_erase hc2)
        rw [Heap.size_eraseChild, Heap.parent_eraseChild]
        exact ⟨hlt, hpar⟩
    · constructor
      · rw [Heap.get_eraseChild_ne h c hnp]
        exact (hown n hn).1
      · intro c2 hc2
        rw [Heap.get_eraseChild_ne h c hnp] at hc2
        obtain ⟨hlt, hpar⟩ := (hown n hn).2 c2 hc2
        rw [Heap.size_eraseChild, Heap.parent_eraseChild]
        exact ⟨hlt, hpar⟩
  · rw [Heap.eraseChild_of_le h c (Nat.le_of_not_lt hp)]
    exact hown

/-- After erasing a node from the list its parent pointer names, the node
occurs in no children list at all. -/
theorem not_mem_after_erase {h : Heap} (hown : Own h) {c p : Nat}
    (hpar : (h.get c).parent = some p) :
    ∀ n, c ∉ ((h.eraseChild p c).get n).children := by
  intro n hmem
  by_cases hnp : n = p
  · subst hnp
    have hp : n < h.size := by
      have := mem_children_lt _ hmem
      rwa [Heap.size_eraseChild] at this
    rw [Heap.children_eraseChild_self h c hp] at hmem
    exact (((hown n hp).1).mem_erase_iff.mp hmem).1 rfl
  · rw [Heap.get_eraseChild_ne h c hnp] at hmem
    have hlt := mem_children_lt h hmem
    have hb := ((hown n hlt).2 c hmem).2
    rw [hpar] at hb
    exact hnp (Option.some.inj hb).symm

/-- The detach idiom never breaks the invariant. -/
theorem own_detach (h : Heap) (c : Nat) (hown : Own h) : Own (h.detach c) := by
  cases hpar : (h.get c).parent with
  | none =>
    have hd : h.detach c = h := by simp [Heap.detach, hpar]
    rw [hd]; exact hown
  | some p =>
    have hd : h.detach c = h.eraseChild p c := by simp [Heap.detach, hpar]
    rw [hd]; exact own_eraseChild h p c hown

/-- After a detach, the detached node occurs in no children list. -/
theorem detach_not_mem {h : Heap} (hown : Own h) (c : Nat) :
    ∀ n, c ∉ ((h.detach c).get n).children := by
  cases hpar : (h.get c).parent with
  | none =>
    have hd : h.detach c = h := by simp [Heap.detach, hpar]
    rw [hd]; exact not_mem_of_parent_none hown hpar
  | some p =>
    have hd : h.detach c = h.eraseChild p c := by simp [Heap.detach, hpar]
    rw [hd]; exact not_mem_after_erase hown hpar

theorem nodup_concat_of {l : List Nat} {c : Nat} (hl : l.Nodup) (hc : c ∉ l) :
    (l ++ [c]).Nodup := by
  rw [List.nodup_append]
  refine ⟨hl, List.nodup_singleton c, ?_⟩
  intro a ha hb
  rw [List.mem_singleton] at hb
  exact hc (hb ▸ ha)

/-- `Node.append` preserves the invariant whenever the attached node is
allocated and currently occurs in no children list (the parent may be
anything, including a descendant of the child: ownership is oblivious to
cycles). -/
theorem own_append (h : Heap) (p c : Nat) (hown : Own h) (hc : c < h.size)
    (hno : ∀ n, c ∉ (h.get n).children) : Own (h.append p c) := by
  intro n hn
  rw [Heap.size_append] at hn
  by_cases hnp : n = p
  · subst hnp
    constructor
    · rw [Heap.children_append_self h c hn]
      exact nodup_concat_of (hown n hn).1 (hno n)
    · intro c2 hc2
      rw [Heap.children_append_self h c hn] at hc2
      rw [Heap.size_append]
      rcases List.mem_append.mp hc2 with hin | hend
      · obtain ⟨hlt, hpar⟩ := (hown n hn).2 c2 hin
        have hne : c2 ≠ c := fun he => hno n (he ▸ hin)
        rw [Heap.parent_append_ne h hne]
        exact ⟨hlt, hpar⟩
      · rw [List.mem_singleton] at hend
        subst hend
        rw [Heap.parent_append_self h hc]
        exact ⟨hc, rfl⟩
  · constructor
    · rw [Heap.children_append_ne h c hnp]
      exact (hown n hn).1
    · intro c2 hc2
      rw [Heap.children_append_ne h c hnp] at hc2
      obtain ⟨hlt, hpar⟩ := (hown n hn).2 c2 hc2
      have hne : c2 ≠ c := fun he => hno n (he ▸ hc2)
      rw [Heap.size_append, Heap.parent_append_ne h hne]
      exact ⟨hlt, hpar⟩

/-- The detach-then-append idiom used by every move command. -/
theorem own_attach (h : Heap) (p c : Nat) (hown : Own h) (hc : c < h.size) :
    Own ((h.detach c).append p c) :=
  own_append _ p c (own_detach h c hown)
    (by rw [Heap.size_detach]; exact hc) (detach_not_mem hown c)

/-- The detach-append loop run by move-up, move-to-folder and two of the
drag branches preserves the invariant and the heap size. -/
theorem own_foldl_attach (T : Nat) :
    ∀ (l : List Nat) (h : Heap), Own h → (∀ n ∈ l, n < h.size) →
      Own (l.foldl (fun hh dn => (hh.detach dn).append T dn) h) ∧
      (l.foldl (fun hh dn => (hh.detach dn).append T dn) h).size = h.size := by
  intro l
  induction l with
  | nil => intro h hown _; exact ⟨hown, rfl⟩
  | cons d l ih =>
    intro h hown hb
    simp only [List.foldl_cons]
    have h1 : Own ((h.detach d).append T d) :=
      own_attach h T d hown (hb d (List.mem_cons_self d l))
    have hs : ((h.detach d).append T d).size = h.size := by
      rw [Heap.size_append, Heap.size_detach]
    obtain ⟨o2, s2⟩ := ih _ h1 (fun n hn => hs ▸ hb n (List.mem_cons_of_mem _ hn))
    exact ⟨o2, by rw [s2, hs]⟩

/-- `cmd_move_up` preserves the invariant. -/
theorem own_cmdMoveUp (h : Heap) (sel : List Nat) (hown : Own h)
    (hb : ∀ n ∈ sel, n < h.size) : Own (cmdMoveUp h sel) := by
  cases sel with
  | nil => exact hown
  | cons n0 rest =>
    by_cases hall : (n0 :: rest).all (canMoveUp h)
    · cases hg : h.grandparent n0 with
      | none =>
        have he : cmdMoveUp h (n0 :: rest) = h := by simp [cmdMoveUp, hall, hg]
        rw [he]; exact hown
      | some g =>
        have he : cmdMoveUp h (n0 :: rest) = (n0 :: rest).foldl (moveOne g) h := by
          simp [cmdMoveUp, hall, hg]
        rw [he]
        exact (own_foldl_attach g (n0 :: rest) h hown hb).1
    · have he : cmdMoveUp h (n0 :: rest) = h := by simp [cmdMoveUp, hall]
      rw [he]; exact hown

/-- The move loop of `cmd_move_to_folder` (src/gui/main_window.py:994-1048):
once a destination folder is chosen, each selected node is detached from
its parent (if any) and appended to the destination. -/
def cmdMoveToFolder (h : Heap) (sel : List Nat) (dest : Nat) : Heap :=
  sel.foldl (fun hh dn => (hh.detach dn).append dest dn) h

theorem own_cmdMoveToFolder (h : Heap) (sel : List Nat) (dest : Nat) (hown : Own h)
    (hb : ∀ n ∈ sel, n < h.size) : Own (cmdMoveToFolder h sel dest) :=
  (own_foldl_attach dest sel h hown hb).1

/-- `cmd_delete` (src/gui/main_window.py:1078-1086): each selected node is
removed from its parent's children list (its parent pointer is left
stale). -/
def cmdDelete (h : Heap) (sel : List Nat) : Heap :=
  sel.foldl (fun hh dn => hh.detach dn) h

theorem own_cmdDelete (h : Heap) (sel : List Nat) (hown : Own h) :
    Own (cmdDelete h sel) := by
  unfold cmdDelete
  induction sel generalizing h with
  | nil => exact hown
  | cons d l ih =>
    simp only [List.foldl_cons]
    exact ih _ (own_detach h d hown)

/-- Replacing a children list by a duplicate-free selection of its members
preserves the invariant (covers sort and dedupe). -/
theorem own_setChildren (h : Heap) (p : Nat) (l : List Nat) (hown : Own h)
    (hnd : l.Nodup) (hsub : ∀ c ∈ l, c ∈ (h.get p).children) :
    Own (h.set p { h.get p with children := l }) := by
  by_cases hp : p < h.size
  · have hpar : ∀ m,
        ((h.set p { h.get p with children := l }).get m).parent = (h.get m).parent := by
      intro m
      by_cases hmp : m = p
      · subst hmp; rw [Heap.get_set_self h _ hp]
      · rw [Heap.get_set_ne h _ hmp]
    intro n hn
    rw [Heap.size_set] at hn
    by_cases hnp : n = p
    · subst hnp
      have hch : ((h.set n { h.get n with children := l }).get n).children = l := by
        rw [Heap.get_set_self h _ hp]
      constructor
      · rw [hch]; exact hnd
      · intro c2 hc2
        rw [hch] at hc2
        obtain ⟨hlt, hpb⟩ := (hown n hn).2 c2 (hsub c2 hc2)
        rw [Heap.size_set, hpar c2]
        exact ⟨hlt, hpb⟩
    · constructor
      · rw [Heap.get_set_ne h _ hnp]; exact (hown n hn).1
      · intro c2 hc2
        rw [Heap.get_set_ne h _ hnp] at hc2
        obtain ⟨hlt, hpb⟩ := (hown n hn).2 c2 hc2
        rw [Heap.size_set, hpar c2]
        exact ⟨hlt, hpb⟩
  · rw [Heap.set_of_le h _ (Nat.le_of_not_lt hp)]
    exact hown

/-- `cmd_sort` preserves the invariant: the sorted list is a permutation
of the folder's children. -/
theorem own_cmdSort (h : Heap) (f : Nat) (mode : SortMode) (hown : Own h) :
    Own (cmdSort h f mode) := by
  unfold cmdSort
  have hperm := List.mergeSort_perm (h.get f).children (sortLe h mode)
  have hnd0 : (h.get f).children.Nodup := by
    by_cases hf : f < h.size
    · exact (hown f hf).1
    · rw [Heap.get_default h (Nat.le_of_not_lt hf)]
      exact List.nodup_nil
  exact own_setChildren h f _ hown (hperm.nodup_iff.mpr hnd0)
    (fun c hc => hperm.mem_iff.mp hc)

/-- The accumulator of the dedupe scan collects a subsequence of the
children processed so far. -/
theorem dedupe_acc_sublist (h : Heap) :
    ∀ (rest : List Nat) (seen : List String) (acc : List Nat) (k : Nat),
      ∃ s, (rest.foldl (dedupeStep h) (seen, acc, k)).2.1 = acc ++ s ∧
        s.Sublist rest := by
  intro rest
  induction rest with
  | nil => intro seen acc k; exact ⟨[], by simp, List.nil_sublist []⟩
  | cons ch rest ih =>
    intro seen acc k
    simp only [List.foldl_cons]
    by_cases hb : (h.get ch).kind = .bookmark
    · by_cases hdup : dedupeKey (h.get ch).url ≠ "" ∧ dedupeKey (h.get ch).url ∈ seen
      · have hstep : dedupeStep h (seen, acc, k) ch = (seen, acc, k + 1) := by
          simp [dedupeStep, hb, hdup]
        rw [hstep]
        obtain ⟨s, hs, hsub⟩ := ih seen acc (k + 1)
        exact ⟨s, hs, hsub.cons ch⟩
      · have hstep : dedupeStep h (seen, acc, k) ch =
            ((if dedupeKey (h.get ch).url ≠ "" then seen ++ [dedupeKey (h.get ch).url]
              else seen), acc ++ [ch], k) := by
          simp only [dedupeStep, hb, if_neg hdup, if_pos trivial, eq_self_iff_true,
            if_true]
        rw [hstep]
        obtain ⟨s, hs, hsub⟩ := ih _ (acc ++ [ch]) k
        refine ⟨ch :: s, ?_, hsub.cons₂ ch⟩
        rw [hs]
        simp
    · have hstep : dedupeStep h (seen, acc, k) ch = (seen, acc ++ [ch], k) := by
        simp [dedupeStep, hb]
      rw [hstep]
      obtain ⟨s, hs, hsub⟩ := ih seen (acc ++ [ch]) k
      refine ⟨ch :: s, ?_, hsub.cons₂ ch⟩
      rw [hs]
      simp

/-- `cmd_dedupe` preserves the invariant: the kept children are a
subsequence of the original list. -/
theorem own_cmdDedupe (h : Heap) (f : Nat) (hown : Own h) :
    Own (cmdDedupe h f).1 := by
  obtain ⟨s, hs, hsub⟩ := dedupe_acc_sublist h (h.get f).children [] [] 0
  have hnd0 : (h.get f).children.Nodup := by
    by_cases hf : f < h.size
    · exact (hown f hf).1
    · rw [Heap.get_default h (Nat.le_of_not_lt hf)]
      exact List.nodup_nil
  have he : (cmdDedupe h f).1 =
      h.set f { h.get f with
        children := ((h.get f).children.foldl (dedupeStep h) ([], [], 0)).2.1 } := rfl
  rw [he, show ((h.get f).children.foldl (dedupeStep h) ([], [], 0)).2.1 = s by
    rw [hs]; simp]
  exact own_setChildren h f s hown (hsub.nodup hnd0) (fun c hc => hsub.subset hc)

/-- The child-relocation loop of a merge preserves the invariant: the
processed prefix of the snapshot is exactly what has left `d`'s list
(`extra` is what the steps may have put back when `d = p`). -/
theorem own_moveAllAux (d p : Nat) :
    ∀ (subs extra : List Nat) (hh : Heap), Own hh →
      (hh.get d).children = subs ++ extra →
      Own (subs.foldl (fun hh s => (hh.eraseChild d s).append p s) hh) := by
  intro subs
  induction subs with
  | nil => intro extra hh hown _; exact hown
  | cons s subs ih =>
    intro extra hh hown hch
    simp only [List.foldl_cons]
    have hmem : s ∈ (hh.get d).children := by
      rw [hch, List.cons_append]
      exact List.mem_cons_self _ _
    have hd : d < hh.size := mem_children_lt hh hmem
    have hs : s < hh.size := ((hown d hd).2 s hmem).1
    have hch1 : ((hh.eraseChild d s).get d).children = subs ++ extra := by
      rw [Heap.children_eraseChild_self hh s hd, hch, List.cons_append,
        List.erase_cons_head]
    have hno : ∀ n, s ∉ ((hh.eraseChild d s).get n).children := by
      intro n hmem2
      by_cases hnd2 : n = d
      · subst hnd2
        rw [hch1] at hmem2
        have hnds : (s :: (subs ++ extra)).Nodup := by
          rw [← List.cons_append, ← hch]
          exact (hown n hd).1
        exact (List.nodup_cons.mp hnds).1 hmem2
      · rw [Heap.get_eraseChild_ne hh s hnd2] at hmem2
        have hnlt := mem_children_lt hh hmem2
        have hb1 := ((hown n hnlt).2 s hmem2).2
        have hb2 := ((hown d hd).2 s hmem).2
        rw [hb2] at hb1
        exact hnd2 (Option.some.inj hb1).symm
    have hown1 : Own ((hh.eraseChild d s).append p s) :=
      own_append _ p s (own_eraseChild hh d s hown)
        (by rw [Heap.size_eraseChild]; exact hs) hno
    by_cases hdp : d = p
    · subst hdp
      refine ih (extra ++ [s]) _ hown1 ?_
      rw [Heap.children_append_self _ s (by rw [Heap.size_eraseChild]; exact hd),
        hch1, List.append_assoc]
    · refine ih extra _ hown1 ?_
      rw [Heap.children_append_ne _ s hdp, hch1]

/-- Moving all of a folder's children into another folder preserves the
invariant. -/
theorem own_moveAllChildren (h : Heap) (src dst : Nat) (hown : Own h) :
    Own (moveAllChildren h src dst) :=
  own_moveAllAux src dst (h.get src).children [] h hown (List.append_nil _).symm

/-- The merge scan preserves the invariant. -/
theorem own_mergeLoop :
    ∀ (rest : List Nat) (seen : List (String × Nat)) (rem : List Nat) (cnt : Nat)
      (hc : Heap), Own hc → Own (mergeLoop hc rest seen rem cnt).1 := by
  intro rest
  induction rest with
  | nil => intro seen rem cnt hc hown; exact hown
  | cons c rest ih =>
    intro seen rem cnt hc hown
    by_cases hk : (hc.get c).kind = .folder
    · cases hf : seen.find? (fun x => x.1 = pyLower (hc.get c).title) with
      | some e =>
        rw [mergeLoop_cons_dup hk hf]
        exact ih _ _ _ _ (own_moveAllChildren hc c e.2 hown)
      | none =>
        rw [mergeLoop_cons_new hk hf]
        exact ih _ _ _ _ hown
    · rw [mergeLoop_cons_skip hk]
      exact ih _ _ _ _ hown

/-- `cmd_merge_folders` preserves the invariant. -/
theorem own_cmdMergeFolders (h : Heap) (t : Nat) (hown : Own h) :
    Own (cmdMergeFolders h t).1 := by
  have hloop := own_mergeLoop (h.get t).children [] [] 0 h hown
  have he : (cmdMergeFolders h t).1 =
      (mergeLoop h (h.get t).children [] [] 0).2.1.foldl
        (fun hh c => hh.eraseChild t c) (mergeLoop h (h.get t).children [] [] 0).1 := rfl
  rw [he]
  generalize (mergeLoop h (h.get t).children [] [] 0).2.1 = ds at *
  generalize (mergeLoop h (h.get t).children [] [] 0).1 = h2 at *
  clear he hown
  induction ds generalizing h2 with
  | nil => exact hloop
  | cons d ds ih =>
    simp only [List.foldl_cons]
    exact ih _ (own_eraseChild h2 t d hloop)

/-- One step of the before/after drop loop of `_on_tree_release`:
detach, insert into the target's parent's children at the drop index, fix
the parent pointer. -/
def reinsertStep (parent idx : Nat) (h : Heap) (dn : Nat) : Heap :=
  let h1 := h.detach dn
  let h2 := h1.set parent
    { h1.get parent with children := insertAt (h1.get parent).children idx dn }
  h2.set dn { h2.get dn with parent := some parent }

theorem size_reinsertStep (parent idx : Nat) (h : Heap) (dn : Nat) :
    (reinsertStep parent idx h dn).size = h.size := by
  simp [reinsertStep, Heap.size_set, Heap.size_detach]

/-- Core of the reinsert-step invariant proof, stated on an arbitrary heap
in which the moved node occurs in no children list. -/
theorem own_reinsert_core (parent idx : Nat) (h1 : Heap) (dn : Nat)
    (hown1 : Own h1) (hdn1 : dn < h1.size)
    (hno : ∀ n, dn ∉ (h1.get n).children) :
    Own ((h1.set parent
      { h1.get parent with children := insertAt (h1.get parent).children idx dn }).set dn
      { (h1.set parent
        { h1.get parent with children := insertAt (h1.get parent).children idx dn }).get dn
        with parent := some parent }) := by
  set l := (h1.get parent).children with hl
  by_cases hpl : parent < h1.size
  · set h2 := h1.set parent { h1.get parent with children := insertAt l idx dn } with hh2
    set h3 := h2.set dn { h2.get dn with parent := some parent } with hh3
    have hg2self : h2.get parent = { h1.get parent with children := insertAt l idx dn } :=
      Heap.get_set_self h1 _ hpl
    have hg2ne : ∀ m, m ≠ parent → h2.get m = h1.get m := by
      intro m hm; exact Heap.get_set_ne h1 _ hm
    have hdn2 : dn < h2.size := by rw [hh2, Heap.size_set]; exact hdn1
    have hg3self : h3.get dn = { h2.get dn with parent := some parent } :=
      Heap.get_set_self h2 _ hdn2
    have hg3ne : ∀ m, m ≠ dn → h3.get m = h2.get m := by
      intro m hm; exact Heap.get_set_ne h2 _ hm
    have hch3 : ∀ m, (h3.get m).children =
        if m = parent then insertAt l idx dn
        else if m = dn then (h1.get dn).children else (h1.get m).children := by
      intro m
      by_cases hmdn : m = dn
      · have e1 : (h3.get m).children = (h2.get m).children := by
          rw [hmdn, hg3self]
        by_cases hmp : m = parent
        · rw [if_pos hmp, e1, hmp, hg2self]
        · rw [if_neg hmp, if_pos hmdn, e1, hg2ne m hmp, hmdn]
      · rw [hg3ne m hmdn]
        by_cases hmp : m = parent
        · rw [if_pos hmp, hmp, hg2self]
        · rw [if_neg hmp, if_neg hmdn, hg2ne m hmp]
    have hpar3 : ∀ m, (h3.get m).parent =
        if m = dn then some parent else (h1.get m).parent := by
      intro m
      by_cases hmdn : m = dn
      · rw [if_pos hmdn, hmdn, hg3self]
      · rw [if_neg hmdn, hg3ne m hmdn]
        by_cases hmp : m = parent
        · rw [hmp, hg2self]
        · rw [hg2ne m hmp]
    have hl_nd : l.Nodup := (hown1 parent hpl).1
    have hl_no : dn ∉ l := hno parent
    have hins_nd : (insertAt l idx dn).Nodup := by
      unfold insertAt
      rw [List.nodup_middle, List.take_append_drop]
      exact List.nodup_cons.mpr ⟨hl_no, hl_nd⟩
    have hins_mem : ∀ x ∈ insertAt l idx dn, x = dn ∨ x ∈ l := by
      intro x hx
      unfold insertAt at hx
      rcases List.mem_append.mp hx with h1x | h2x
      · refine Or.inr ?_
        rw [← List.take_append_drop idx l]
        exact List.mem_append_left _ h1x
      · rcases List.mem_cons.mp h2x with he | ht
        · exact Or.inl he
        · refine Or.inr ?_
          rw [← List.take_append_drop idx l]
          exact List.mem_append_right _ ht
    have hsz3 : h3.size = h1.size := by rw [hh3, Heap.size_set, hh2, Heap.size_set]
    intro n hn
    rw [hsz3] at hn
    constructor
    · rw [hch3 n]
      by_cases hnp : n = parent
      · rw [if_pos hnp]; exact hins_nd
      · rw [if_neg hnp]
        by_cases hndn : n = dn
        · rw [if_pos hndn]; subst hndn; exact (hown1 n hdn1).1
        · rw [if_neg hndn]; exact (hown1 n hn).1
    · intro c2 hc2
      rw [hch3 n] at hc2
      rw [hsz3, hpar3 c2]
      by_cases hnp : n = parent
      · rw [if_pos hnp] at hc2
        rcases hins_mem c2 hc2 with he | hm
        · subst he
          rw [if_pos rfl]
          exact ⟨hdn1, by rw [hnp]⟩
        · have hne : c2 ≠ dn := fun he2 => hl_no (he2 ▸ hm)
          rw [if_neg hne]
          obtain ⟨hlt, hpb⟩ := (hown1 parent hpl).2 c2 hm
          exact ⟨hlt, by rw [hnp]; exact hpb⟩
      · rw [if_neg hnp] at hc2
        by_cases hndn : n = dn
        · rw [if_pos hndn] at hc2
          have hne : c2 ≠ dn := fun he2 => hno dn (he2 ▸ hc2)
          rw [if_neg hne]
          obtain ⟨hlt, hpb⟩ := (hown1 dn hdn1).2 c2 hc2
          exact ⟨hlt, by rw [hndn]; exact hpb⟩
        · rw [if_neg hndn] at hc2
          have hne : c2 ≠ dn := fun he2 => hno n (he2 ▸ hc2)
          rw [if_neg hne]
          exact (hown1 n hn).2 c2 hc2
  · rw [Heap.set_of_le h1 _ (Nat.le_of_not_lt hpl)]
    intro n hn
    rw [Heap.size_set] at hn
    have hch : ∀ m, ((h1.set dn { h1.get dn with parent := some parent }).get m).children =
        (h1.get m).children := by
      intro m
      by_cases hmdn : m = dn
      · subst hmdn; rw [Heap.get_set_self h1 _ hdn1]
      · rw [Heap.get_set_ne h1 _ hmdn]
    constructor
    · rw [hch n]; exact (hown1 n hn).1
    · intro c2 hc2
      rw [hch n] at hc2
      have hne : c2 ≠ dn := fun he2 => hno n (he2 ▸ hc2)
      rw [Heap.size_set, Heap.get_set_ne h1 _ hne]
      exact (hown1 n hn).2 c2 hc2

theorem own_reinsertStep (parent idx : Nat) (h : Heap) (dn : Nat)
    (hown : Own h) (hdn : dn < h.size) : Own (reinsertStep parent idx h dn) :=
  own_reinsert_core parent idx (h.detach dn) dn (own_detach h dn hown)
    (by rw [Heap.size_detach]; exact hdn) (detach_not_mem hown dn)

theorem own_foldl_reinsert (parent idx : Nat) :
    ∀ (l : List Nat) (h : Heap), Own h → (∀ n ∈ l, n < h.size) →
      Own (l.foldl (reinsertStep parent idx) h) := by
  intro l
  induction l with
  | nil => intro h hown _; exact hown
  | cons d l ih =>
    intro h hown hb
    simp only [List.foldl_cons]
    refine ih _ (own_reinsertStep parent idx h d hown (hb d (List.mem_cons_self d l))) ?_
    intro n hn
    rw [size_reinsertStep]
    exact hb n (List.mem_cons_of_mem _ hn)

theorem dragRelease_eq_guard {h : Heap} {dragged : List Nat} {target : Nat} {pos : DropPos}
    (hg : cycleGuardHit h dragged target = true) :
    dragRelease h dragged target pos = h := by
  simp [dragRelease, hg]

theorem dragRelease_eq_inside {h : Heap} {dragged : List Nat} {target : Nat} {pos : DropPos}
    (hg : cycleGuardHit h dragged target = false)
    (hin : (h.get target).kind = .folder ∧ pos = .inside) :
    dragRelease h dragged target pos =
      dragged.foldl (fun h dn => (h.detach dn).append target dn) h := by
  simp [dragRelease, hg, hin]

theorem dragRelease_eq_insert {h : Heap} {dragged : List Nat} {target : Nat} {pos : DropPos}
    {idx : Nat} (hg : cycleGuardHit h dragged target = false)
    (hin : ¬((h.get target).kind = .folder ∧ pos = .inside))
    (hidx : ((h.get ((h.get target).parent.getD h.root)).children.findIdx?
      (· == target)) = some idx) :
    dragRelease h dragged target pos =
      dragged.reverse.foldl
        (reinsertStep ((h.get target).parent.getD h.root)
          (if pos = .after then idx + 1 else idx)) h := by
  simp [dragRelease, hg, hin, hidx, reinsertStep]

theorem dragRelease_eq_fallback {h : Heap} {dragged : List Nat} {target : Nat} {pos : DropPos}
    (hg : cycleGuardHit h dragged target = false)
    (hin : ¬((h.get target).kind = .folder ∧ pos = .inside))
    (hidx : ((h.get ((h.get target).parent.getD h.root)).children.findIdx?
      (· == target)) = none) :
    dragRelease h dragged target pos =
      dragged.foldl
        (fun hh dn => (hh.detach dn).append ((h.get target).parent.getD h.root) dn) h := by
  simp [dragRelease, hg, hin, hidx]

/-- `_on_tree_release` preserves the invariant in every branch. -/
theorem own_dragRelease (h : Heap) (dragged : List Nat) (target : Nat) (pos : DropPos)
    (hown : Own h) (hb : ∀ n ∈ dragged, n < h.size) :
    Own (dragRelease h dragged target pos) := by
  cases hg : cycleGuardHit h dragged target with
  | true => rw [dragRelease_eq_guard hg]; exact hown
  | false =>
    by_cases hin : (h.get target).kind = .folder ∧ pos = .inside
    · rw [dragRelease_eq_inside hg hin]
      exact (own_foldl_attach target dragged h hown hb).1
    · cases hidx : ((h.get ((h.get target).parent.getD h.root)).children.findIdx?
        (· == target)) with
      | some idx =>
        rw [dragRelease_eq_insert hg hin hidx]
        exact own_foldl_reinsert _ _ dragged.reverse h hown
          (fun n hn => hb n (List.mem_reverse.mp hn))
      | none =>
        rw [dragRelease_eq_fallback hg hin hidx]
        exact (own_foldl_attach _ dragged h hown hb).1

/-! ### `_execute_classification_plan` (src/gui/main_window.py:1565-1590) -/

/-- Python dict keyed by folder-name strings: association list with
last-wins overwrite, insertion order preserved. -/
def sdictInsert (m : List (String × Nat)) (k : String) (v : Nat) :
    List (String × Nat) :=
  if m.any (fun e => e.1 == k) then
    m.map (fun e => if e.1 == k then (k, v) else e)
  else m ++ [(k, v)]

def sdictGet? (m : List (String × Nat)) (k : String) : Option Nat :=
  (m.find? (fun e => e.1 == k)).map (fun e => e.2)

/-- The case-insensitive folder lookup built once per call:
`existing_folders_map = \x7bch.title.lower(): ch for ch in
target_folders_parent.children if ch.type == "folder"\x7d`. -/
def buildFolderMap (h : Heap) (base : Nat) : List (String × Nat) :=
  (h.get base).children.foldl
    (fun m ch =>
      if (h.get ch).kind = .folder then sdictInsert m (pyLower (h.get ch).title) ch
      else m) []

/-- One bookmark move of the plan executor:
`if bm.parent and bm in bm.parent.children: bm.parent.children.remove(bm)`
followed by the unconditional `target_folder.append(bm)`. -/
def classifyMove (target : Nat) (h : Heap) (bm : Nat) : Heap :=
  let h1 :=
    match (h.get bm).parent with
    | some p => if bm ∈ (h.get p).children then h.eraseChild p bm else h
    | none => h
  h1.append target bm

/-- The fresh `Node("folder", folder_name)` allocated when no existing
folder matches: a new record at the end of the heap. -/
def allocFolder (h : Heap) (name : String) : Heap :=
  { h with nodes := h.nodes ++ [{ kind := .folder, title := name }] }

/-- One `for folder_name, bookmarks in plan.items()` iteration: resolve
the target folder case-insensitively (creating and registering it when
missing), then move every listed bookmark into it. -/
def execPlanEntry (base : Nat) (st : Heap × List (String × Nat))
    (entry : String × List Nat) : Heap × List (String × Nat) :=
  match sdictGet? st.2 (pyLower entry.1) with
  | some t => (entry.2.foldl (classifyMove t) st.1, st.2)
  | none =>
    let nid := st.1.size
    let h1 := (allocFolder st.1 entry.1).append base nid
    (entry.2.foldl (classifyMove nid) h1, sdictInsert st.2 (pyLower entry.1) nid)

/-- `_execute_classification_plan` over an association-list plan. -/
def execPlan (h : Heap) (plan : List (String × List Nat)) (base : Nat) : Heap :=
  (plan.foldl (execPlanEntry base) (h, buildFolderMap h base)).1

theorem size_allocFolder (h : Heap) (name : String) :
    (allocFolder h name).size = h.size + 1 := by
  simp [allocFolder, Heap.size]

theorem get_allocFolder_lt (h : Heap) (name : String) {n : Nat} (hn : n < h.size) :
    (allocFolder h name).get n = h.get n := by
  simp only [allocFolder, Heap.get, Heap.size] at *
  unfold List.getD
  rw [List.get?_append hn]

/-- Allocating a fresh childless record preserves the invariant. -/
theorem own_allocFolder (h : Heap) (name : String) (hown : Own h) :
    Own (allocFolder h name) := by
  intro n hn
  rw [size_allocFolder] at hn
  by_cases hlt : n < h.size
  · rw [get_allocFolder_lt h name hlt]
    refine ⟨(hown n hlt).1, ?_⟩
    intro c hc
    obtain ⟨hclt, hpar⟩ := (hown n hlt).2 c hc
    rw [size_allocFolder, get_allocFolder_lt h name hclt]
    exact ⟨Nat.lt_succ_of_lt hclt, hpar⟩
  · have hne : n = h.size := Nat.le_antisymm (Nat.lt_succ_iff.mp hn) (Nat.le_of_not_lt hlt)
    have hch : ((allocFolder h name).get n).children = [] := by
      subst hne
      simp only [allocFolder, Heap.get, Heap.size]
      unfold List.getD
      rw [List.get?_append_right (Nat.le_refl _)]
      simp
    rw [hch]
    exact ⟨List.nodup_nil, fun c hc => absurd hc (List.not_mem_nil c)⟩

/-- The fresh id occurs in no children list of the grown heap. -/
theorem allocFolder_fresh_not_mem (h : Heap) (name : String) (hown : Own h) :
    ∀ n, h.size ∉ ((allocFolder h name).get n).children := by
  intro n hmem
  have hn := mem_children_lt _ hmem
  rw [size_allocFolder] at hn
  by_cases hlt : n < h.size
  · rw [get_allocFolder_lt h name hlt] at hmem
    exact Nat.lt_irrefl h.size (((hown n hlt).2 _ hmem).1)
  · have hne : n = h.size := Nat.le_antisymm (Nat.lt_succ_iff.mp hn) (Nat.le_of_not_lt hlt)
    rw [hne] at hmem
    have hch : ((allocFolder h name).get h.size).children = [] := by
      simp only [allocFolder, Heap.get, Heap.size]
      unfold List.getD
      rw [List.get?_append_right (Nat.le_refl _)]
      simp
    rw [hch] at hmem
    exact absurd hmem (List.not_mem_nil _)

theorem size_classifyMove (target : Nat) (h : Heap) (bm : Nat) :
    (classifyMove target h bm).size = h.size := by
  unfold classifyMove
  cases hpar : (h.get bm).parent with
  | none => rw [Heap.size_append]
  | some p =>
    show ((if bm ∈ (h.get p).children then h.eraseChild p bm else h).append
      target bm).size = h.size
    by_cases hmem : bm ∈ (h.get p).children
    · rw [if_pos hmem, Heap.size_append, Heap.size_eraseChild]
    · rw [if_neg hmem, Heap.size_append]

/-- One bookmark move preserves the invariant. -/
theorem own_classifyMove (target : Nat) (h : Heap) (bm : Nat)
    (hown : Own h) (hbm : bm < h.size) : Own (classifyMove target h bm) := by
  unfold classifyMove
  cases hpar : (h.get bm).parent with
  | none =>
    exact own_append h target bm hown hbm (not_mem_of_parent_none hown hpar)
  | some p =>
    show Own ((if bm ∈ (h.get p).children then h.eraseChild p bm else h).append target bm)
    by_cases hmem : bm ∈ (h.get p).children
    · rw [if_pos hmem]
      exact own_append _ target bm (own_eraseChild h p bm hown)
        (by rw [Heap.size_eraseChild]; exact hbm) (not_mem_after_erase hown hpar)
    · rw [if_neg hmem]
      exact own_append h target bm hown hbm (not_mem_of_not_mem_parent hown hpar hmem)

theorem own_foldl_classifyMove (target : Nat) :
    ∀ (bms : List Nat) (h : Heap), Own h → (∀ b ∈ bms, b < h.size) →
      Own (bms.foldl (classifyMove target) h) ∧
      (bms.foldl (classifyMove target) h).size = h.size := by
  intro bms
  induction bms with
  | nil => intro h hown _; exact ⟨hown, rfl⟩
  | cons b bms ih =>
    intro h hown hb
    simp only [List.foldl_cons]
    have h1 := own_classifyMove target h b hown (hb b (List.mem_cons_self b bms))
    have hs := size_classifyMove target h b
    obtain ⟨o2, s2⟩ := ih _ h1 (fun n hn => hs ▸ hb n (List.mem_cons_of_mem _ hn))
    exact ⟨o2, by rw [s2, hs]⟩

/-- Plan execution preserves the invariant (the heap only grows). -/
theorem own_execPlan_fold (base : Nat) (h0 : Heap) :
    ∀ (plan : List (String × List Nat)) (st : Heap × List (String × Nat)),
      Own st.1 → h0.size ≤ st.1.size →
      (∀ e ∈ plan, ∀ b ∈ e.2, b < h0.size) →
      Own (plan.foldl (execPlanEntry base) st).1 ∧
      h0.size ≤ (plan.foldl (execPlanEntry base) st).1.size := by
  intro plan
  induction plan with
  | nil => intro st hown hsz _; exact ⟨hown, hsz⟩
  | cons e plan ih =>
    intro st hown hsz hb
    simp only [List.foldl_cons]
    have hbe : ∀ b ∈ e.2, b < st.1.size :=
      fun b hbm => Nat.lt_of_lt_of_le (hb e (List.mem_cons_self e plan) b hbm) hsz
    cases hfind : sdictGet? st.2 (pyLower e.1) with
    | some t =>
      have hstep : execPlanEntry base st e = (e.2.foldl (classifyMove t) st.1, st.2) := by
        simp [execPlanEntry, hfind]
      rw [hstep]
      obtain ⟨o1, s1⟩ := own_foldl_classifyMove t e.2 st.1 hown hbe
      exact ih _ o1 (by rw [s1]; exact hsz) (fun x hx => hb x (List.mem_cons_of_mem _ hx))
    | none =>
      have hstep : execPlanEntry base st e =
          (e.2.foldl (classifyMove st.1.size) ((allocFolder st.1 e.1).append base st.1.size),
            sdictInsert st.2 (pyLower e.1) st.1.size) := by
        simp [execPlanEntry, hfind]
      rw [hstep]
      have hga : Own ((allocFolder st.1 e.1).append base st.1.size) :=
        own_append _ base st.1.size (own_allocFolder st.1 e.1 hown)
          (by rw [size_allocFolder]; exact Nat.lt_succ_self _)
          (allocFolder_fresh_not_mem st.1 e.1 hown)
      have hgs : ((allocFolder st.1 e.1).append base st.1.size).size = st.1.size + 1 := by
        rw [Heap.size_append, size_allocFolder]
      obtain ⟨o1, s1⟩ := own_foldl_classifyMove st.1.size e.2 _ hga
        (fun b hbm => by rw [hgs]; exact Nat.lt_succ_of_lt (hbe b hbm))
      refine ih _ o1 ?_ (fun x hx => hb x (List.mem_cons_of_mem _ hx))
      rw [s1, hgs]
      exact Nat.le_succ_of_le hsz

theorem own_execPlan (h : Heap) (plan : List (String × List Nat)) (base : Nat)
    (hown : Own h) (hb : ∀ e ∈ plan, ∀ b ∈ e.2, b < h.size) :
    Own (execPlan h plan base) :=
  (own_execPlan_fold base h plan (h, buildFolderMap h base) hown (Nat.le_refl _) hb).1

/-! ### The documented mutation operations as a single step type -/

/-- The eight documented mutation operations of the spec. -/
inductive Op where
  | opMoveToFolder (sel : List Nat) (dest : Nat)
  | opMoveUp (sel : List Nat)
  | opDrag (dragged : List Nat) (target : Nat) (pos : DropPos)
  | opSort (f : Nat) (mode : SortMode)
  | opDedupe (f : Nat)
  | opMerge (t : Nat)
  | opDelete (sel : List Nat)
  | opClassify (plan : List (String × List Nat)) (base : Nat)

def Op.apply : Op → Heap → Heap
  | .opMoveToFolder sel dest, h => cmdMoveToFolder h sel dest
  | .opMoveUp sel, h => cmdMoveUp h sel
  | .opDrag dragged target pos, h => dragRelease h dragged target pos
  | .opSort f mode, h => cmdSort h f mode
  | .opDedupe f, h => (cmdDedupe h f).1
  | .opMerge t, h => (cmdMergeFolders h t).1
  | .opDelete sel, h => cmdDelete h sel
  | .opClassify plan base, h => execPlan h plan base

/-- The operations act on nodes of the current tree: every node a command
is handed is an allocated id (the GUI always passes tree rows). -/
def Op.Valid : Op → Heap → Prop
  | .opMoveToFolder sel _, h => ∀ n ∈ sel, n < h.size
  | .opMoveUp sel, h => ∀ n ∈ sel, n < h.size
  | .opDrag dragged _ _, h => ∀ n ∈ dragged, n < h.size
  | .opSort _ _, _ => True
  | .opDedupe _, _ => True
  | .opMerge _, _ => True
  | .opDelete _, _ => True
  | .opClassify plan _, h => ∀ e ∈ plan, ∀ b ∈ e.2, b < h.size

instance (op : Op) (h : Heap) : Decidable (Op.Valid op h) := by
  cases op <;> (simp only [Op.Valid]; infer_instance)

def applyOps (ops : List Op) (h : Heap) : Heap :=
  ops.foldl (fun hh op => op.apply hh) h

def ValidSeq : List Op → Heap → Prop
  | [], _ => True
  | op :: ops, h => op.Valid h ∧ ValidSeq ops (op.apply h)

instance instDecValidSeq : (ops : List Op) → (h : Heap) → Decidable (ValidSeq ops h)
  | [], _ => isTrue trivial
  | op :: ops, h => @instDecidableAnd _ _ _ (instDecValidSeq ops (op.apply h))

/-- Every single documented operation preserves the ownership invariant. -/
theorem own_apply (op : Op) (h : Heap) (hown : Own h) (hv : op.Valid h) :
    Own (op.apply h) := by
  cases op with
  | opMoveToFolder sel dest => exact own_cmdMoveToFolder h sel dest hown hv
  | opMoveUp sel => exact own_cmdMoveUp h sel hown hv
  | opDrag dragged target pos => exact own_dragRelease h dragged target pos hown hv
  | opSort f mode => exact own_cmdSort h f mode hown
  | opDedupe f => exact own_cmdDedupe h f hown
  | opMerge t => exact own_cmdMergeFolders h t hown
  | opDelete sel => exact own_cmdDelete h sel hown
  | opClassify plan base => exact own_execPlan h plan base hown hv

theorem own_applyOps :
    ∀ (ops : List Op) (h : Heap), Own h → ValidSeq ops h → Own (applyOps ops h) := by
  intro ops
  induction ops with
  | nil => intro h hown _; exact hown
  | cons op ops ih =>
    intro h hown hv
    exact ih (op.apply h) (own_apply op h hown hv.1) hv.2

/-- A node of the current tree: reachable from the root along children
lists. -/
inductive Reach (h : Heap) : Nat → Prop where
  | root : Reach h h.root
  | child {p c : Nat} : Reach h p → c ∈ (h.get p).children → Reach h c

/-- Claim C2 (confirmed): starting from a tree satisfying the ownership
invariant, after any valid sequence of the documented mutation operations
(move to folder, move up, drag-reorder, sort, dedupe, merge duplicate
folders, delete, plan execution) the invariant still holds, and every
non-root node of the resulting tree occurs exactly once in its parent's
children list and in no other node's children list. -/
theorem claim_C2_ownership (h : Heap) (ops : List Op)
    (hown : Own h) (hv : ValidSeq ops h) :
    Own (applyOps ops h) ∧
    ∀ c, Reach (applyOps ops h) c → c ≠ (applyOps ops h).root →
      ∃ p, ((applyOps ops h).get c).parent = some p ∧
        ((applyOps ops h).get p).children.count c = 1 ∧
        ∀ q, q ≠ p → c ∉ ((applyOps ops h).get q).children := by
  have hfin : Own (applyOps ops h) := own_applyOps ops h hown hv
  refine ⟨hfin, ?_⟩
  intro c hreach hnroot
  cases hreach with
  | root => exact absurd rfl hnroot
  | @child p c2 hp hmem =>
    have hplt : p < (applyOps ops h).size := mem_children_lt _ hmem
    obtain ⟨hclt, hpar⟩ := (hfin p hplt).2 c hmem
    refine ⟨p, hpar, ?_, ?_⟩
    · exact List.count_eq_one_of_mem (hfin p hplt).1 hmem
    · exact own_exclusive hfin hplt hmem

/-- A small tree satisfying the invariant, and a sequence exercising every
kind of operation. -/
def exOwnHeap : Heap :=
  { root := 0,
    nodes :=
      [ { kind := .folder, title := "root", children := [1, 2] },
        { kind := .folder, title := "a", parent := some 0, children := [3] },
        { kind := .folder, title := "b", parent := some 0 },
        { kind := .bookmark, title := "x", url := "u", parent := some 1 } ] }

def exOwnOps : List Op :=
  [ Op.opMoveUp [3], Op.opDrag [3] 2 DropPos.inside, Op.opMoveToFolder [3] 1,
    Op.opClassify [("b", [3])] 0, Op.opDedupe 2, Op.opMerge 0, Op.opDelete [1],
    Op.opSort 0 SortMode.title ]

/-- Witness for `claim_C2_ownership` on the concrete tree and operation
sequence above. -/
theorem claim_C2_witness :
    Own exOwnHeap ∧ ValidSeq exOwnOps exOwnHeap ∧
    (Own (applyOps exOwnOps exOwnHeap) ∧
      ∀ c, Reach (applyOps exOwnOps exOwnHeap) c →
        c ≠ (applyOps exOwnOps exOwnHeap).root →
        ∃ p, ((applyOps exOwnOps exOwnHeap).get c).parent = some p ∧
          ((applyOps exOwnOps exOwnHeap).get p).children.count c = 1 ∧
          ∀ q, q ≠ p → c ∉ ((applyOps exOwnOps exOwnHeap).get q).children) :=
  ⟨by decide, by decide, claim_C2_ownership exOwnHeap exOwnOps (by decide) (by decide)⟩

/-! ### Claim C3: the parse/serialize round trip
(src/core/model.py: NetscapeBookmarkParser 36-79, export_netscape_html
82-109)

The parser is Python's `html.parser.HTMLParser` driven by three handlers.
We model a document as its character list, a tokenizer producing the
start-tag/end-tag/data events `HTMLParser` (with `convert_charrefs=True`)
emits on the exporter's output language (tag names and attribute names
lowercased, attribute values and data unescaped), and the handlers as a
fold over events.  The mutable `Node` stack is replayed as a zipper: a
stack of frames holding each open folder's scalars and the children
attached so far; pushing happens at `</h3>` and a frame is folded into its
parent at the matching `</dl>` (in the source the folder object is
attached at `</h3>`-time and mutated in place, which builds the same tree
because every attachment goes to the top of the stack). -/

/-- A parsed bookmark tree (the structural content the claim compares:
kind, title, url, add_date, last_modified, child order). -/
inductive PTree where
  | folder (title add_date last_modified : String) (children : List PTree)
  | bookmark (title url add_date last_modified : String)

mutual
/-- Shape of every tree the parser can produce: titles are stripped, and
folder titles are nonempty (empty ones become "Untitled"). -/
def CanonT : PTree → Bool
  | .folder t _ _ cs => (pyStrip t == t) && (!(t == "")) && CanonL cs
  | .bookmark t _ _ _ => pyStrip t == t

def CanonL : List PTree → Bool
  | [] => true
  | c :: cs => CanonT c && CanonL cs
end

/-- The handler events `HTMLParser` feeds the subclass. -/
inductive HEvent where
  | startTag (tag : String) (attrs : List (String × String))
  | endTag (tag : String)
  | dataEv (text : String)
deriving DecidableEq

/-- `dict(attrs).get(k, "")`: the last binding of `k` wins. -/
def attrGet (attrs : List (String × String)) (k : String) : String :=
  match attrs.reverse.find? (fun e => e.1 == k) with
  | some e => e.2
  | none => ""

/-- What the parser captures text for (`_capture_text_for`). -/
inductive CKind where
  | cfolder
  | clink
deriving DecidableEq

/-- One open folder on the parser stack: its scalars and the children
attached so far, in order. -/
structure Frame where
  ftitle : String
  fad : String
  flm : String
  fchildren : List PTree

/-- The parser state (`root`/`stack`/`_pending_*`/`_capture_text_for`/
`_buffer`); the head of `stack` is the Python `stack[-1]`. -/
structure ParseState where
  stack : List Frame
  pendingFolder : Option (String × String)
  pendingLink : Option (String × String × String)
  capture : Option CKind
  buffer : List String

/-- `stack[-1].append(node)`. -/
def attachTop (st : List Frame) (t : PTree) : List Frame :=
  match st with
  | [] => []
  | f :: rest => { f with fchildren := f.fchildren ++ [t] } :: rest

/-- `handle_starttag` (model.py:45-57). -/
def handleStart (s : ParseState) (tag : String) (attrs : List (String × String)) :
    ParseState :=
  let tagl := pyLower tag
  if tagl = "h3" then
    { s with pendingFolder := some (attrGet attrs "add_date", attrGet attrs "last_modified"),
             capture := some .cfolder, buffer := [] }
  else if tagl = "a" then
    { s with pendingLink := some (attrGet attrs "href",
               attrGet attrs "add_date", attrGet attrs "last_modified"),
             capture := some .clink, buffer := [] }
  else s

/-- `handle_endtag` (model.py:59-76): on `</h3>`/`</a>` the captured text
is joined and stripped; a pending folder gets `text or "Untitled"` and is
pushed, a pending link gets `text` and is attached; `</dl>` pops the stack
when more than the root is open (zipper: folding the finished frame into
its parent). -/
def handleEnd (s : ParseState) (tag : String) : ParseState :=
  let tagl := pyLower tag
  if tagl = "h3" ∨ tagl = "a" then
    let text := pyStrip (String.join s.buffer)
    if s.capture = some CKind.cfolder then
      match s.pendingFolder with
      | some (ad, lm) =>
        { s with stack := ⟨if text = "" then "Untitled" else text, ad, lm, []⟩ :: s.stack,
                 pendingFolder := none, buffer := [], capture := none }
      | none => { s with buffer := [], capture := none }
    else if s.capture = some CKind.clink then
      match s.pendingLink with
      | some (url, ad, lm) =>
        { s with stack := attachTop s.stack (.bookmark text url ad lm),
                 pendingLink := none, buffer := [], capture := none }
      | none => { s with buffer := [], capture := none }
    else { s with buffer := [], capture := none }
  else if tagl = "dl" then
    match s.stack with
    | f :: g :: rest =>
      { s with stack := attachTop (g :: rest) (.folder f.ftitle f.fad f.flm f.fchildren) }
    | _ => s
  else s

/-- `handle_data` (model.py:78-79). -/
def handleData (s : ParseState) (txt : String) : ParseState :=
  if s.capture.isSome then { s with buffer := s.buffer ++ [txt] } else s

def pstep (s : ParseState) (e : HEvent) : ParseState :=
  match e with
  | .startTag t a => handleStart s t a
  | .endTag t => handleEnd s t
  | .dataEv d => handleData s d

/-- `__init__`: the root folder "Bookmarks" alone on the stack. -/
def initState : ParseState :=
  { stack := [⟨"Bookmarks", "", "", []⟩], pendingFolder := none,
    pendingLink := none, capture := none, buffer := [] }

/-- At end of input any folders left open stay attached where they are
(in the source they were attached at `</h3>`-time); the zipper folds the
remaining frames down and returns the root's children. -/
def collapseFold : Frame → List Frame → Frame
  | f, [] => f
  | f, g :: rest =>
    collapseFold { g with fchildren :=
      g.fchildren ++ [PTree.folder f.ftitle f.fad f.flm f.fchildren] } rest

def collapse : List Frame → List PTree
  | [] => []
  | f :: rest => (collapseFold f rest).fchildren

/-- Run the parser over an event stream. -/
def parseEvs (evs : List HEvent) : List PTree :=
  collapse (evs.foldl pstep initState).stack

/-! #### `html.escape(s, quote=True)` and the charref conversion -/

/-- Per-character effect of `html.escape(s, quote=True)`. -/
def escCharL (c : Char) : List Char :=
  if c = '&' then "&amp;".data
  else if c = '<' then "&lt;".data
  else if c = '>' then "&gt;".data
  else if c = '"' then "&quot;".data
  else if c = '\'' then "&#x27;".data
  else [c]

def escL (cs : List Char) : List Char := cs.bind escCharL

/-- The charref conversion `HTMLParser(convert_charrefs=True)` applies to
data and attribute values, on the charrefs the exporter can emit (other
text passes through unchanged, as in `html.unescape`). -/
def unescapeL : List Char → List Char
  | [] => []
  | c :: rest =>
    if c = '&' then
      if rest.take 4 = "amp;".data then '&' :: unescapeL (rest.drop 4)
      else if rest.take 3 = "lt;".data then '<' :: unescapeL (rest.drop 3)
      else if rest.take 3 = "gt;".data then '>' :: unescapeL (rest.drop 3)
      else if rest.take 5 = "quot;".data then '"' :: unescapeL (rest.drop 5)
      else if rest.take 5 = "#x27;".data then '\'' :: unescapeL (rest.drop 5)
      else c :: unescapeL rest
    else c :: unescapeL rest
termination_by cs => cs.length
decreasing_by
  all_goals simp [List.length_drop]
  all_goals omega

/-- Modes of the attribute scanner: reading a name, just past its `=`
(expecting the opening quote), or inside a quoted value. -/
inductive AttrMode where
  | nameMode
  | eqMode (name : List Char)
  | valMode (name : List Char)

/-- Attribute scanning inside a start tag, as a character state machine:
letters accumulate an attribute name, a space ends a valueless attribute,
`="` opens a quoted value running to the closing quote.  Names are
lowercased, values charref-converted. -/
def attrAux : AttrMode → List Char → List Char → List (String × String)
  | .nameMode, nameAcc, [] => if nameAcc = [] then [] else [(pyLower ⟨nameAcc⟩, "")]
  | .nameMode, nameAcc, c :: rest =>
    if c = ' ' then
      if nameAcc = [] then attrAux .nameMode [] rest
      else (pyLower ⟨nameAcc⟩, "") :: attrAux .nameMode [] rest
    else if c = '=' then attrAux (.eqMode nameAcc) [] rest
    else attrAux .nameMode (nameAcc ++ [c]) rest
  | .eqMode name, _, [] => [(pyLower ⟨name⟩, "")]
  | .eqMode name, _, c :: rest =>
    if c = '"' then attrAux (.valMode name) [] rest
    else (pyLower ⟨name⟩, "") :: attrAux .nameMode [c] rest
  | .valMode name, valAcc, [] => [(pyLower ⟨name⟩, ⟨unescapeL valAcc⟩)]
  | .valMode name, valAcc, c :: rest =>
    if c = '"' then (pyLower ⟨name⟩, ⟨unescapeL valAcc⟩) :: attrAux .nameMode [] rest
    else attrAux (.valMode name) (valAcc ++ [c]) rest

def parseAttrs (cs : List Char) : List (String × String) := attrAux .nameMode [] cs

/-- Classify the text between `<` and `>`: markup declarations (`<!`) have
no handler event, `/`-leading content is an end tag, anything else a start
tag whose name runs to the first space. -/
def parseTagContent (cs : List Char) : Option HEvent :=
  match cs with
  | [] => none
  | '!' :: _ => none
  | '/' :: rest => some (.endTag (pyLower ⟨rest⟩))
  | _ =>
    let name := cs.takeWhile (fun c => c ≠ ' ')
    some (.startTag (pyLower ⟨name⟩) (parseAttrs (cs.drop name.length)))

/-- The tokenizer loop as a character state machine: in data mode (first
argument `false`) characters accumulate until a `<` ends the run and emits
one charref-converted data event; in tag mode (first argument `true`)
characters accumulate until the closing `>` emits the tag's event.  A
trailing data run is flushed at end of input; an unterminated tag is
dropped. -/
def tokAux : Bool → List Char → List Char → List HEvent
  | false, acc, [] => if acc = [] then [] else [.dataEv ⟨unescapeL acc⟩]
  | false, acc, c :: rest =>
    if c = '<' then
      if acc = [] then tokAux true [] rest
      else .dataEv ⟨unescapeL acc⟩ :: tokAux true [] rest
    else tokAux false (acc ++ [c]) rest
  | true, _, [] => []
  | true, acc, c :: rest =>
    if c = '>' then
      match parseTagContent acc with
      | some e => e :: tokAux false [] rest
      | none => tokAux false [] rest
    else tokAux true (acc ++ [c]) rest

def tokenize (cs : List Char) : List HEvent := tokAux false [] cs

/-- Parse a raw document: tokenize, fold the handlers, close the zipper. -/
def parseDoc (cs : List Char) : List PTree :=
  collapse ((tokenize cs).foldl pstep initState).stack

/-- The root node the parser returns: always the folder "Bookmarks"
carrying the parsed forest. -/
def parseRoot (cs : List Char) : PTree :=
  .folder "Bookmarks" "" "" (parseDoc cs)

/-! #### `export_netscape_html`, written as its exact chunk sequence -/

/-- `"    " * indent`. -/
def indentL (i : Nat) : List Char := (List.replicate i "    ".data).join

/-- A serialized tag: `<` content `>`. -/
def tagChunk (content : List Char) : List Char := '<' :: content ++ ['>']

mutual
/-- `write_folder` and the bookmark line of `export_netscape_html`,
decomposed into the tag and text chunks the f-strings concatenate
(`{ind}<DT><H3 ADD_DATE="{esc(ad)}" LAST_MODIFIED="{esc(lm)}">{esc(t)}</H3>\n`
and so on, with folder children written at `indent + 1`). -/
def serNode (i : Nat) : PTree → List Char
  | .folder t ad lm cs =>
    indentL i ++ tagChunk "DT".data ++
    tagChunk ("H3 ADD_DATE=\"".data ++ escL ad.data ++
      "\" LAST_MODIFIED=\"".data ++ escL lm.data ++ ['"']) ++
    escL t.data ++ tagChunk "/H3".data ++ "\n".data ++
    indentL i ++ tagChunk "DL".data ++ tagChunk "p".data ++ "\n".data ++
    serForest (i + 1) cs ++
    indentL i ++ tagChunk "/DL".data ++ tagChunk "p".data ++ "\n".data
  | .bookmark t u ad lm =>
    indentL i ++ tagChunk "DT".data ++
    tagChunk ("A HREF=\"".data ++ escL u.data ++ "\" ADD_DATE=\"".data ++
      escL ad.data ++ "\" LAST_MODIFIED=\"".data ++ escL lm.data ++ ['"']) ++
    escL t.data ++ tagChunk "/A".data ++ "\n".data

def serForest (i : Nat) : List PTree → List Char
  | [] => []
  | c :: cs => serNode i c ++ serForest i cs
end

/-- `BOOKMARK_HTML_HEADER` as its chunk sequence. -/
def headerChunks : List Char :=
  tagChunk "!DOCTYPE NETSCAPE-Bookmark-file-1".data ++ "\n".data ++
  tagChunk "META HTTP-EQUIV=\"Content-Type\" CONTENT=\"text/html; charset=UTF-8\"".data ++
  "\n".data ++
  tagChunk "TITLE".data ++ "Bookmarks".data ++ tagChunk "/TITLE".data ++ "\n".data ++
  tagChunk "H1".data ++ "Bookmarks".data ++ tagChunk "/H1".data ++ "\n".data ++
  tagChunk "DL".data ++ tagChunk "p".data ++ "\n".data

/-- `BOOKMARK_HTML_FOOTER`. -/
def footerChunks : List Char :=
  tagChunk "/DL".data ++ tagChunk "p".data ++ "\n".data

/-- `export_netscape_html(root)`: header, the root's children at indent 1
(the top-level loop emits the same lines `write_folder` does), footer. -/
def serializeDoc (cs : List PTree) : List Char :=
  headerChunks ++ serForest 1 cs ++ footerChunks

/-- Serialize from the root node (only its children are read, as in the
source). -/
def serializeRoot : PTree → List Char
  | .folder _ _ _ cs => serializeDoc cs
  | .bookmark _ _ _ _ => serializeDoc []

/-! #### Running the tokenizer and the handlers together -/

/-- Feed the events of `cs`, tokenized from mode `b` with pending
accumulator `acc`, through the handlers starting from state `st`. -/
def runTok (b : Bool) (acc : List Char) (st : ParseState) (cs : List Char) :
    ParseState :=
  (tokAux b acc cs).foldl pstep st

/-- The parser applied to a document from an arbitrary state. -/
def applyTok (st : ParseState) (cs : List Char) : ParseState :=
  runTok false [] st cs

theorem parseDoc_eq_applyTok (cs : List Char) :
    parseDoc cs = collapse (applyTok initState cs).stack := rfl

/-- The handler effect of one optional tag event. -/
def applyOpt (st : ParseState) : Option HEvent → ParseState
  | some e => pstep st e
  | none => st

theorem runTok_data_end (acc : List Char) (st : ParseState) :
    runTok false acc st [] =
      if acc = [] then st else pstep st (.dataEv ⟨unescapeL acc⟩) := by
  unfold runTok tokAux
  by_cases h : acc = []
  · rw [if_pos h, if_pos h]; rfl
  · rw [if_neg h, if_neg h]; rfl

theorem tokAux_data_split :
    ∀ (D : List Char), (∀ x ∈ D, x ≠ '<') → ∀ (acc R : List Char),
      tokAux false acc (D ++ '<' :: R) =
        (if acc ++ D = [] then [] else [.dataEv ⟨unescapeL (acc ++ D)⟩]) ++
          tokAux true [] R := by
  intro D
  induction D with
  | nil =>
    intro _ acc R
    simp only [List.nil_append, List.append_nil]
    rw [show tokAux false acc ('<' :: R) =
      if '<' = '<' then
        (if acc = [] then tokAux true [] R
         else .dataEv ⟨unescapeL acc⟩ :: tokAux true [] R)
      else tokAux false (acc ++ ['<']) R from rfl]
    rw [if_pos rfl]
    by_cases h : acc = []
    · rw [if_pos h, if_pos h, List.nil_append]
    · rw [if_neg h, if_neg h]; rfl
  | cons d D ih =>
    intro hD acc R
    have hd : d ≠ '<' := hD d (List.mem_cons_self d D)
    rw [List.cons_append,
      show tokAux false acc (d :: (D ++ '<' :: R)) =
        if d = '<' then
          (if acc = [] then tokAux true [] (D ++ '<' :: R)
           else .dataEv ⟨unescapeL acc⟩ :: tokAux true [] (D ++ '<' :: R))
        else tokAux false (acc ++ [d]) (D ++ '<' :: R) from rfl,
      if_neg hd, ih (fun x hx => hD x (List.mem_cons_of_mem _ hx)) (acc ++ [d]) R,
      List.append_assoc]
    rfl

theorem tokAux_tag_split :
    ∀ (A : List Char), (∀ x ∈ A, x ≠ '>') → ∀ (acc R : List Char),
      tokAux true acc (A ++ '>' :: R) =
        (parseTagContent (acc ++ A)).toList ++ tokAux false [] R := by
  intro A
  induction A with
  | nil =>
    intro _ acc R
    simp only [List.nil_append, List.append_nil]
    rw [show tokAux true acc ('>' :: R) =
      if '>' = '>' then
        (match parseTagContent acc with
         | some e => e :: tokAux false [] R
         | none => tokAux false [] R)
      else tokAux true (acc ++ ['>']) R from rfl]
    rw [if_pos rfl]
    cases parseTagContent acc with
    | some e => rfl
    | none => rfl
  | cons a A ih =>
    intro hA acc R
    have ha : a ≠ '>' := hA a (List.mem_cons_self a A)
    rw [List.cons_append,
      show tokAux true acc (a :: (A ++ '>' :: R)) =
        if a = '>' then
          (match parseTagContent acc with
           | some e => e :: tokAux false [] (A ++ '>' :: R)
           | none => tokAux false [] (A ++ '>' :: R))
        else tokAux true (acc ++ [a]) (A ++ '>' :: R) from rfl,
      if_neg ha, ih (fun x hx => hA x (List.mem_cons_of_mem _ hx)) (acc ++ [a]) R,
      List.append_assoc]
    rfl

theorem runTok_data_split (D : List Char) (hD : ∀ x ∈ D, x ≠ '<')
    (st : ParseState) (R : List Char) :
    runTok false [] st (D ++ '<' :: R) =
      runTok true [] (if D = [] then st else pstep st (.dataEv ⟨unescapeL D⟩)) R := by
  unfold runTok
  rw [tokAux_data_split D hD [] R, List.nil_append]
  by_cases h : D = []
  · rw [if_pos h, if_pos h]; rfl
  · rw [if_neg h, if_neg h, List.foldl_append]; rfl

theorem runTok_tag_split (A : List Char) (hA : ∀ x ∈ A, x ≠ '>')
    (st : ParseState) (R : List Char) :
    runTok true [] st (A ++ '>' :: R) =
      runTok false [] (applyOpt st (parseTagContent A)) R := by
  unfold runTok
  rw [tokAux_tag_split A hA [] R, List.nil_append, List.foldl_append]
  cases parseTagContent A with
  | some e => rfl
  | none => rfl

/-- The workhorse step: a `<`-free data run followed by a complete tag. -/
theorem runTok_chunk (D A : List Char) (hD : ∀ x ∈ D, x ≠ '<')
    (hA : ∀ x ∈ A, x ≠ '>') (st : ParseState) (R : List Char) :
    runTok false [] st (D ++ tagChunk A ++ R) =
      runTok false []
        (applyOpt (if D = [] then st else pstep st (.dataEv ⟨unescapeL D⟩))
          (parseTagContent A)) R := by
  have he : D ++ tagChunk A ++ R = D ++ '<' :: (A ++ '>' :: R) := by
    simp [tagChunk]
  rw [he, runTok_data_split D hD st (A ++ '>' :: R), runTok_tag_split A hA _ R]

/-- Variant with no leading data. -/
theorem runTok_chunk0 (A : List Char) (hA : ∀ x ∈ A, x ≠ '>')
    (st : ParseState) (R : List Char) :
    runTok false [] st (tagChunk A ++ R) =
      runTok false [] (applyOpt st (parseTagContent A)) R := by
  have := runTok_chunk [] A (fun x hx => absurd hx (List.not_mem_nil x)) hA st R
  simpa using this

theorem tokAux_data_end :
    ∀ (D : List Char), (∀ x ∈ D, x ≠ '<') → ∀ (acc : List Char),
      tokAux false acc D =
        if acc ++ D = [] then [] else [.dataEv ⟨unescapeL (acc ++ D)⟩] := by
  intro D
  induction D with
  | nil =>
    intro _ acc
    rw [List.append_nil]
    by_cases h : acc = []
    · rw [if_pos h, h]; rfl
    · rw [if_neg h,
        show tokAux false acc [] =
          if acc = [] then [] else [.dataEv ⟨unescapeL acc⟩] from rfl, if_neg h]
  | cons d D ih =>
    intro hD acc
    have hd : d ≠ '<' := hD d (List.mem_cons_self d D)
    rw [show tokAux false acc (d :: D) =
        if d = '<' then
          (if acc = [] then tokAux true [] D
           else .dataEv ⟨unescapeL acc⟩ :: tokAux true [] D)
        else tokAux false (acc ++ [d]) D from rfl,
      if_neg hd, ih (fun x hx => hD x (List.mem_cons_of_mem _ hx)) (acc ++ [d]),
      List.append_assoc]
    rw [if_neg (by simp), if_neg (by simp)]
    rfl

/-- A trailing data run at end of input. -/
theorem runTok_data_only (D : List Char) (hD : ∀ x ∈ D, x ≠ '<')
    (st : ParseState) :
    runTok false [] st D =
      if D = [] then st else pstep st (.dataEv ⟨unescapeL D⟩) := by
  rw [runTok, tokAux_data_end D hD [], List.nil_append]
  by_cases h : D = []
  · rw [if_pos h, if_pos h]; rfl
  · rw [if_neg h, if_neg h]; rfl

/-! #### `html.unescape` inverts `html.escape` -/

theorem unescapeL_nil : unescapeL [] = [] := by
  simp [unescapeL]

/-- The step of `unescapeL` on a head that opens no charref. -/
theorem unescapeL_cons_plain (c : Char) (t : List Char) (h1 : c ≠ '&') :
    unescapeL (c :: t) = c :: unescapeL t := by
  rw [unescapeL, if_neg h1]

theorem unescapeL_escChar (c : Char) (t : List Char) :
    unescapeL (escCharL c ++ t) = c :: unescapeL t := by
  by_cases h1 : c = '&'
  · subst h1
    rw [show escCharL '&' ++ t = '&' :: 'a' :: 'm' :: 'p' :: ';' :: t from rfl]
    rw [unescapeL, if_pos rfl,
      if_pos (show List.take 4 ('a' :: 'm' :: 'p' :: ';' :: t) = "amp;".data from rfl)]
    rfl
  · by_cases h2 : c = '<'
    · subst h2
      rw [show escCharL '<' ++ t = '&' :: 'l' :: 't' :: ';' :: t from rfl]
      rw [unescapeL, if_pos rfl]
      rw [if_neg (by
        rw [show List.take 4 ('l' :: 't' :: ';' :: t) =
          'l' :: 't' :: ';' :: List.take 1 t from rfl]
        intro hcon
        rw [show "amp;".data = ['a', 'm', 'p', ';'] from rfl] at hcon
        injection hcon with hh _
        exact absurd hh (by decide))]
      rw [if_pos (show List.take 3 ('l' :: 't' :: ';' :: t) = "lt;".data from rfl)]
      rfl
    · by_cases h3 : c = '>'
      · subst h3
        rw [show escCharL '>' ++ t = '&' :: 'g' :: 't' :: ';' :: t from rfl]
        rw [unescapeL, if_pos rfl]
        rw [if_neg (by
          rw [show List.take 4 ('g' :: 't' :: ';' :: t) =
            'g' :: 't' :: ';' :: List.take 1 t from rfl]
          intro hcon
          rw [show "amp;".data = ['a', 'm', 'p', ';'] from rfl] at hcon
          injection hcon with hh _
          exact absurd hh (by decide))]
        rw [if_neg (by
          rw [show List.take 3 ('g' :: 't' :: ';' :: t) = ['g', 't', ';'] from rfl]
          decide)]
        rw [if_pos (show List.take 3 ('g' :: 't' :: ';' :: t) = "gt;".data from rfl)]
        rfl
      · by_cases h4 : c = '"'
        · subst h4
          rw [show escCharL '"' ++ t = '&' :: 'q' :: 'u' :: 'o' :: 't' :: ';' :: t from rfl]
          rw [unescapeL, if_pos rfl]
          rw [if_neg (by
            rw [show List.take 4 ('q' :: 'u' :: 'o' :: 't' :: ';' :: t) =
              ['q', 'u', 'o', 't'] from rfl]
            decide)]
          rw [if_neg (by
            rw [show List.take 3 ('q' :: 'u' :: 'o' :: 't' :: ';' :: t) =
              ['q', 'u', 'o'] from rfl]
            decide)]
          rw [if_neg (by
            rw [show List.take 3 ('q' :: 'u' :: 'o' :: 't' :: ';' :: t) =
              ['q', 'u', 'o'] from rfl]
            decide)]
          rw [if_pos (show List.take 5 ('q' :: 'u' :: 'o' :: 't' :: ';' :: t) =
            "quot;".data from rfl)]
          rfl
        · by_cases h5 : c = '\''
          · subst h5
            rw [show escCharL '\'' ++ t =
              '&' :: '#' :: 'x' :: '2' :: '7' :: ';' :: t from rfl]
            rw [unescapeL, if_pos rfl]
            rw [if_neg (by
              rw [show List.take 4 ('#' :: 'x' :: '2' :: '7' :: ';' :: t) =
                ['#', 'x', '2', '7'] from rfl]
              decide)]
            rw [if_neg (by
              rw [show List.take 3 ('#' :: 'x' :: '2' :: '7' :: ';' :: t) =
                ['#', 'x', '2'] from rfl]
              decide)]
            rw [if_neg (by
              rw [show List.take 3 ('#' :: 'x' :: '2' :: '7' :: ';' :: t) =
                ['#', 'x', '2'] from rfl]
              decide)]
            rw [if_neg (by
              rw [show List.take 5 ('#' :: 'x' :: '2' :: '7' :: ';' :: t) =
                ['#', 'x', '2', '7', ';'] from rfl]
              decide)]
            rw [if_pos (show List.take 5 ('#' :: 'x' :: '2' :: '7' :: ';' :: t) =
              "#x27;".data from rfl)]
            rfl
          · rw [show escCharL c = [c] by simp [escCharL, h1, h2, h3, h4, h5]]
            rw [List.cons_append, List.nil_append]
            exact unescapeL_cons_plain c t h1

theorem unescapeL_escL (s t : List Char) :
    unescapeL (escL s ++ t) = s ++ unescapeL t := by
  induction s with
  | nil => simp [escL]
  | cons c s ih =>
    rw [show escL (c :: s) = escCharL c ++ escL s by simp [escL],
      List.append_assoc, unescapeL_escChar, ih, List.cons_append]

theorem unescapeL_escL_nil (s : List Char) : unescapeL (escL s) = s := by
  have := unescapeL_escL s []
  simpa [unescapeL_nil] using this

/-- Escaped text contains none of the tokenizer's delimiter characters. -/
theorem escCharL_safe (c : Char) :
    ∀ x ∈ escCharL c, x ≠ '<' ∧ x ≠ '>' ∧ x ≠ '"' := by
  intro x hx
  by_cases h1 : c = '&'
  · subst h1; rw [show escCharL '&' = ['&', 'a', 'm', 'p', ';'] from rfl] at hx
    simp at hx
    rcases hx with rfl | rfl | rfl | rfl | rfl <;> refine ⟨by decide, by decide, by decide⟩
  · by_cases h2 : c = '<'
    · subst h2; rw [show escCharL '<' = ['&', 'l', 't', ';'] from rfl] at hx
      simp at hx
      rcases hx with rfl | rfl | rfl | rfl <;> refine ⟨by decide, by decide, by decide⟩
    · by_cases h3 : c = '>'
      · subst h3; rw [show escCharL '>' = ['&', 'g', 't', ';'] from rfl] at hx
        simp at hx
        rcases hx with rfl | rfl | rfl | rfl <;> refine ⟨by decide, by decide, by decide⟩
      · by_cases h4 : c = '"'
        · subst h4
          rw [show escCharL '"' = ['&', 'q', 'u', 'o', 't', ';'] from rfl] at hx
          simp at hx
          rcases hx with rfl | rfl | rfl | rfl | rfl | rfl <;>
            refine ⟨by decide, by decide, by decide⟩
        · by_cases h5 : c = '\''
          · subst h5
            rw [show escCharL '\'' = ['&', '#', 'x', '2', '7', ';'] from rfl] at hx
            simp at hx
            rcases hx with rfl | rfl | rfl | rfl | rfl | rfl <;>
              refine ⟨by decide, by decide, by decide⟩
          · rw [show escCharL c = [c] by simp [escCharL, h1, h2, h3, h4, h5]] at hx
            rw [List.mem_singleton] at hx
            subst hx
            exact ⟨h2, h3, h4⟩

theorem escL_safe (s : List Char) :
    ∀ x ∈ escL s, x ≠ '<' ∧ x ≠ '>' ∧ x ≠ '"' := by
  intro x hx
  rw [escL, List.mem_bind] at hx
  obtain ⟨c, _, hc⟩ := hx
  exact escCharL_safe c x hc

theorem escCharL_ne_nil (c : Char) : escCharL c ≠ [] := by
  by_cases h1 : c = '&'
  · subst h1; decide
  · by_cases h2 : c = '<'
    · subst h2; decide
    · by_cases h3 : c = '>'
      · subst h3; decide
      · by_cases h4 : c = '"'
        · subst h4; decide
        · by_cases h5 : c = '\''
          · subst h5; decide
          · rw [show escCharL c = [c] by simp [escCharL, h1, h2, h3, h4, h5]]
            simp

theorem escL_eq_nil_iff (s : List Char) : escL s = [] ↔ s = [] := by
  cases s with
  | nil => simp [escL]
  | cons c t =>
    simp only [escL, List.cons_bind]
    constructor
    · intro h
      exact absurd (List.append_eq_nil.mp h).1 (escCharL_ne_nil c)
    · intro h
      exact absurd h (by simp)

/-! #### Computing the events of the exporter's tags -/

theorem unescapeL_plain :
    ∀ (v : List Char), (∀ x ∈ v, x ≠ '&') → unescapeL v = v := by
  intro v
  induction v with
  | nil => intro _; exact unescapeL_nil
  | cons c t ih =>
    intro h
    rw [unescapeL_cons_plain c t (h c (List.mem_cons_self c t)),
      ih (fun x hx => h x (List.mem_cons_of_mem _ hx))]

theorem attrAux_val :
    ∀ (v : List Char), (∀ x ∈ v, x ≠ '"') → ∀ (name acc R : List Char),
      attrAux (.valMode name) acc (v ++ '"' :: R) =
        (pyLower ⟨name⟩, ⟨unescapeL (acc ++ v)⟩) :: attrAux .nameMode [] R := by
  intro v
  induction v with
  | nil =>
    intro _ name acc R
    simp only [List.nil_append, List.append_nil]
    rfl
  | cons x v ih =>
    intro hv name acc R
    have hx : x ≠ '"' := hv x (List.mem_cons_self x v)
    rw [List.cons_append,
      show attrAux (.valMode name) acc (x :: (v ++ '"' :: R)) =
        if x = '"' then
          (pyLower ⟨name⟩, ⟨unescapeL acc⟩) :: attrAux .nameMode [] (v ++ '"' :: R)
        else attrAux (.valMode name) (acc ++ [x]) (v ++ '"' :: R) from rfl,
      if_neg hx, ih (fun y hy => hv y (List.mem_cons_of_mem _ hy)) name (acc ++ [x]) R,
      List.append_assoc, List.singleton_append]

theorem attrAux_name :
    ∀ (nm : List Char), (∀ x ∈ nm, x ≠ ' ' ∧ x ≠ '=') → ∀ (acc R : List Char),
      attrAux .nameMode acc (nm ++ '=' :: R) = attrAux (.eqMode (acc ++ nm)) [] R := by
  intro nm
  induction nm with
  | nil =>
    intro _ acc R
    simp only [List.nil_append, List.append_nil]
    rfl
  | cons x nm ih =>
    intro hnm acc R
    obtain ⟨hsp, heq⟩ := hnm x (List.mem_cons_self x nm)
    rw [List.cons_append,
      show attrAux .nameMode acc (x :: (nm ++ '=' :: R)) =
        if x = ' ' then
          (if acc = [] then attrAux .nameMode [] (nm ++ '=' :: R)
           else (pyLower ⟨acc⟩, "") :: attrAux .nameMode [] (nm ++ '=' :: R))
        else if x = '=' then attrAux (.eqMode acc) [] (nm ++ '=' :: R)
        else attrAux .nameMode (acc ++ [x]) (nm ++ '=' :: R) from rfl,
      if_neg hsp, if_neg heq,
      ih (fun y hy => hnm y (List.mem_cons_of_mem _ hy)) (acc ++ [x]) R,
      List.append_assoc, List.singleton_append]

/-- One `NAME="VALUE"` pair with a leading space. -/
theorem attrAux_pair (nm v R : List Char)
    (hnm : ∀ x ∈ nm, x ≠ ' ' ∧ x ≠ '=') (hv : ∀ x ∈ v, x ≠ '"') :
    attrAux .nameMode [] (' ' :: (nm ++ '=' :: '"' :: (v ++ '"' :: R))) =
      (pyLower ⟨nm⟩, ⟨unescapeL v⟩) :: attrAux .nameMode [] R := by
  rw [show attrAux .nameMode [] (' ' :: (nm ++ '=' :: '"' :: (v ++ '"' :: R))) =
    attrAux .nameMode [] (nm ++ '=' :: '"' :: (v ++ '"' :: R)) from rfl]
  rw [attrAux_name nm hnm [] ('"' :: (v ++ '"' :: R)), List.nil_append]
  rw [show attrAux (.eqMode nm) [] ('"' :: (v ++ '"' :: R)) =
    attrAux (.valMode nm) [] (v ++ '"' :: R) from rfl]
  rw [attrAux_val v hv nm [] R, List.nil_append]

theorem parseTag_start_h3 (X : List Char) :
    parseTagContent ('H' :: '3' :: ' ' :: X) =
      some (.startTag "h3" (parseAttrs (' ' :: X))) := rfl

theorem parseTag_start_a (X : List Char) :
    parseTagContent ('A' :: ' ' :: X) =
      some (.startTag "a" (parseAttrs (' ' :: X))) := rfl

/-- The full `<H3 ADD_DATE="…" LAST_MODIFIED="…">` tag content. -/
theorem parseTag_h3 (v1 v2 : List Char)
    (h1 : ∀ x ∈ v1, x ≠ '"') (h2 : ∀ x ∈ v2, x ≠ '"') :
    parseTagContent ("H3 ADD_DATE=\"".data ++ (v1 ++
        ("\" LAST_MODIFIED=\"".data ++ (v2 ++ ['"'])))) =
      some (.startTag "h3"
        [("add_date", ⟨unescapeL v1⟩), ("last_modified", ⟨unescapeL v2⟩)]) := by
  rw [show "H3 ADD_DATE=\"".data ++ (v1 ++ ("\" LAST_MODIFIED=\"".data ++ (v2 ++ ['"']))) =
    'H' :: '3' :: ' ' :: ("ADD_DATE".data ++ '=' :: '"' ::
      (v1 ++ '"' :: (' ' :: ("LAST_MODIFIED".data ++ '=' :: '"' :: (v2 ++ '"' :: [])))))
    from rfl]
  rw [parseTag_start_h3]
  rw [show parseAttrs (' ' :: ("ADD_DATE".data ++ '=' :: '"' ::
      (v1 ++ '"' :: (' ' :: ("LAST_MODIFIED".data ++ '=' :: '"' :: (v2 ++ '"' :: [])))))) =
    attrAux .nameMode [] (' ' :: ("ADD_DATE".data ++ '=' :: '"' ::
      (v1 ++ '"' :: (' ' :: ("LAST_MODIFIED".data ++ '=' :: '"' :: (v2 ++ '"' :: []))))))
    from rfl]
  rw [attrAux_pair "ADD_DATE".data v1 _ (by decide) h1]
  rw [attrAux_pair "LAST_MODIFIED".data v2 [] (by decide) h2]
  rfl

/-- The full `<A HREF="…" ADD_DATE="…" LAST_MODIFIED="…">` tag content. -/
theorem parseTag_a (vu v1 v2 : List Char)
    (hu : ∀ x ∈ vu, x ≠ '"') (h1 : ∀ x ∈ v1, x ≠ '"') (h2 : ∀ x ∈ v2, x ≠ '"') :
    parseTagContent ("A HREF=\"".data ++ (vu ++ ("\" ADD_DATE=\"".data ++
        (v1 ++ ("\" LAST_MODIFIED=\"".data ++ (v2 ++ ['"'])))))) =
      some (.startTag "a"
        [("href", ⟨unescapeL vu⟩), ("add_date", ⟨unescapeL v1⟩),
          ("last_modified", ⟨unescapeL v2⟩)]) := by
  rw [show "A HREF=\"".data ++ (vu ++ ("\" ADD_DATE=\"".data ++
      (v1 ++ ("\" LAST_MODIFIED=\"".data ++ (v2 ++ ['"']))))) =
    'A' :: ' ' :: ("HREF".data ++ '=' :: '"' ::
      (vu ++ '"' :: (' ' :: ("ADD_DATE".data ++ '=' :: '"' ::
        (v1 ++ '"' :: (' ' :: ("LAST_MODIFIED".data ++ '=' :: '"' ::
          (v2 ++ '"' :: []))))))))
    from rfl]
  rw [parseTag_start_a]
  rw [show parseAttrs (' ' :: ("HREF".data ++ '=' :: '"' ::
      (vu ++ '"' :: (' ' :: ("ADD_DATE".data ++ '=' :: '"' ::
        (v1 ++ '"' :: (' ' :: ("LAST_MODIFIED".data ++ '=' :: '"' ::
          (v2 ++ '"' :: []))))))))) =
    attrAux .nameMode [] (' ' :: ("HREF".data ++ '=' :: '"' ::
      (vu ++ '"' :: (' ' :: ("ADD_DATE".data ++ '=' :: '"' ::
        (v1 ++ '"' :: (' ' :: ("LAST_MODIFIED".data ++ '=' :: '"' ::
          (v2 ++ '"' :: [])))))))))
    from rfl]
  rw [attrAux_pair "HREF".data vu _ (by decide) hu]
  rw [attrAux_pair "ADD_DATE".data v1 _ (by decide) h1]
  rw [attrAux_pair "LAST_MODIFIED".data v2 [] (by decide) h2]
  rfl

/-! #### Handler effects, per event -/

theorem pstep_data_none {s : ParseState} (h : s.capture = none) (d : String) :
    pstep s (.dataEv d) = s := by
  simp [pstep, handleData, h]

theorem pstep_data_some {s : ParseState} {k : CKind} (h : s.capture = some k)
    (d : String) :
    pstep s (.dataEv d) = { s with buffer := s.buffer ++ [d] } := by
  simp [pstep, handleData, h]

theorem pstep_start_other {s : ParseState} {tg : String}
    (ats : List (String × String)) (hh : pyLower tg ≠ "h3") (ha : pyLower tg ≠ "a") :
    pstep s (.startTag tg ats) = s := by
  simp [pstep, handleStart, hh, ha]

theorem pstep_start_h3 (s : ParseState) (a b : String) :
    pstep s (.startTag "h3" [("add_date", a), ("last_modified", b)]) =
      { s with pendingFolder := some (a, b), capture := some .cfolder,
               buffer := [] } := rfl

theorem pstep_start_a (s : ParseState) (u a b : String) :
    pstep s (.startTag "a" [("href", u), ("add_date", a), ("last_modified", b)]) =
      { s with pendingLink := some (u, a, b), capture := some .clink,
               buffer := [] } := rfl

theorem pstep_end_other {s : ParseState} {tg : String}
    (hh : pyLower tg ≠ "h3") (ha : pyLower tg ≠ "a") (hd : pyLower tg ≠ "dl") :
    pstep s (.endTag tg) = s := by
  simp [pstep, handleEnd, hh, ha, hd]

theorem pstep_end_h3_folder {s : ParseState} {ad lm : String}
    (hc : s.capture = some .cfolder) (hp : s.pendingFolder = some (ad, lm)) :
    pstep s (.endTag "h3") =
      { s with stack := ⟨(if pyStrip (String.join s.buffer) = "" then "Untitled"
                          else pyStrip (String.join s.buffer)), ad, lm, []⟩ :: s.stack,
               pendingFolder := none, buffer := [], capture := none } := by
  simp [pstep, handleEnd, hc, hp, show pyLower "h3" = "h3" from rfl]

theorem pstep_end_a_link {s : ParseState} {u ad lm : String}
    (hc : s.capture = some .clink) (hp : s.pendingLink = some (u, ad, lm)) :
    pstep s (.endTag "a") =
      { s with stack := attachTop s.stack
                 (.bookmark (pyStrip (String.join s.buffer)) u ad lm),
               pendingLink := none, buffer := [], capture := none } := by
  simp [pstep, handleEnd, hc, hp, show pyLower "a" = "a" from rfl,
    show ¬(pyLower "a" = "h3") from by decide,
    show ¬(s.capture = some CKind.cfolder) from by rw [hc]; decide]

theorem pstep_end_dl {s : ParseState} {f g : Frame} {rest : List Frame}
    (hs : s.stack = f :: g :: rest) :
    pstep s (.endTag "dl") =
      { s with stack := attachTop (g :: rest)
                 (.folder f.ftitle f.fad f.flm f.fchildren) } := by
  simp [pstep, handleEnd, hs, show pyLower "dl" = "dl" from rfl,
    show ¬(pyLower "dl" = "h3") from by decide,
    show ¬(pyLower "dl" = "a") from by decide]

theorem pstep_end_dl_root {s : ParseState} {f : Frame} (hs : s.stack = [f]) :
    pstep s (.endTag "dl") = s := by
  simp [pstep, handleEnd, hs, show pyLower "dl" = "dl" from rfl,
    show ¬(pyLower "dl" = "h3") from by decide,
    show ¬(pyLower "dl" = "a") from by decide]

/-! #### `str.strip` is idempotent, and the parser only builds canonical
trees -/

theorem dropWhile_head_false :
    ∀ (l : List Char) (c : Char),
      (l.dropWhile pyIsSpace).head? = some c → pyIsSpace c = false := by
  intro l
  induction l with
  | nil => intro c hc; simp [List.dropWhile] at hc
  | cons x t ih =>
    intro c hc
    by_cases hx : pyIsSpace x
    · rw [List.dropWhile_cons_of_pos hx] at hc
      exact ih c hc
    · rw [List.dropWhile_cons_of_neg hx] at hc
      rw [List.head?_cons] at hc
      rw [← Option.some.inj hc]
      exact Bool.eq_false_iff.mpr hx

theorem dropWhile_of_head_false {l : List Char}
    (h : ∀ c, l.head? = some c → pyIsSpace c = false) :
    l.dropWhile pyIsSpace = l := by
  cases l with
  | nil => rfl
  | cons x t =>
    have := h x (by rw [List.head?_cons])
    exact List.dropWhile_cons_of_neg (by rw [this]; exact Bool.false_ne_true)

/-- Both ends of a stripped string resist further stripping. -/
theorem pyStrip_ends (s : String) :
    (∀ c, (pyStrip s).data.head? = some c → pyIsSpace c = false) ∧
    (∀ c, (pyStrip s).data.getLast? = some c → pyIsSpace c = false) := by
  rw [show (pyStrip s).data =
    ((s.data.dropWhile pyIsSpace).reverse.dropWhile pyIsSpace).reverse from rfl]
  constructor
  · intro c hc
    rw [List.head?_reverse] at hc
    set l1 := s.data.dropWhile pyIsSpace with hl1
    set l2 := l1.reverse.dropWhile pyIsSpace with hl2
    have hsplit : l1.reverse.takeWhile pyIsSpace ++ l2 = l1.reverse := by
      rw [hl2]
      exact List.takeWhile_append_dropWhile pyIsSpace l1.reverse
    have hne : l2 ≠ [] := by
      intro hnil
      rw [hnil] at hc
      simp at hc
    have hlast : l2.getLast? = l1.reverse.getLast? := by
      conv_rhs => rw [← hsplit]
      exact (List.getLast?_append_of_ne_nil _ hne).symm
    rw [hlast, List.getLast?_reverse] at hc
    exact dropWhile_head_false s.data c hc
  · intro c hc
    rw [List.getLast?_reverse] at hc
    exact dropWhile_head_false _ c hc

theorem pyStrip_of_ends {s : String}
    (hh : ∀ c, s.data.head? = some c → pyIsSpace c = false)
    (hl : ∀ c, s.data.getLast? = some c → pyIsSpace c = false) :
    pyStrip s = s := by
  have h1 : s.data.dropWhile pyIsSpace = s.data := dropWhile_of_head_false hh
  have h2 : s.data.reverse.dropWhile pyIsSpace = s.data.reverse :=
    dropWhile_of_head_false (by
      intro c hc
      rw [List.head?_reverse] at hc
      exact hl c hc)
  rw [show pyStrip s =
    ⟨((s.data.dropWhile pyIsSpace).reverse.dropWhile pyIsSpace).reverse⟩ from rfl,
    h1, h2, List.reverse_reverse]

theorem pyStrip_idem (s : String) : pyStrip (pyStrip s) = pyStrip s :=
  pyStrip_of_ends (pyStrip_ends s).1 (pyStrip_ends s).2

theorem join_single (s : String) : String.join [s] = s := by
  show "" ++ s = s
  cases s
  rfl

/-! #### The parser state invariant: everything built so far is canonical -/

theorem canonL_append (l1 l2 : List PTree) :
    CanonL (l1 ++ l2) = (CanonL l1 && CanonL l2) := by
  induction l1 with
  | nil => rw [List.nil_append]; rfl
  | cons c cs ih =>
    rw [List.cons_append,
      show CanonL (c :: (cs ++ l2)) = (CanonT c && CanonL (cs ++ l2)) from rfl,
      ih, show CanonL (c :: cs) = (CanonT c && CanonL cs) from rfl, Bool.and_assoc]

/-- All children lists on the stack are canonical, and every frame except
the bottom (the root, whose scalars are never read) carries a stripped
nonempty title. -/
def StInv (st : ParseState) : Prop :=
  (∀ fr ∈ st.stack, CanonL fr.fchildren = true) ∧
  (∀ fr ∈ st.stack.dropLast, pyStrip fr.ftitle = fr.ftitle ∧ fr.ftitle ≠ "")

theorem stinv_init : StInv initState := by
  constructor
  · intro fr hfr
    rw [show initState.stack = [⟨"Bookmarks", "", "", []⟩] from rfl] at hfr
    rw [List.mem_singleton] at hfr
    subst hfr
    rfl
  · intro fr hfr
    rw [show initState.stack.dropLast = [] from rfl] at hfr
    exact absurd hfr (List.not_mem_nil fr)

theorem stinv_attachTop {st : List Frame} {t : PTree}
    (h1 : ∀ fr ∈ st, CanonL fr.fchildren = true) (ht : CanonT t = true) :
    ∀ fr ∈ attachTop st t, CanonL fr.fchildren = true := by
  cases st with
  | nil => intro fr hfr; exact absurd hfr (List.not_mem_nil fr)
  | cons f rest =>
    intro fr hfr
    rw [show attachTop (f :: rest) t =
      { f with fchildren := f.fchildren ++ [t] } :: rest from rfl] at hfr
    rcases List.mem_cons.mp hfr with he | hm
    · subst he
      show CanonL (f.fchildren ++ [t]) = true
      rw [canonL_append, h1 f (List.mem_cons_self f rest),
        show CanonL [t] = (CanonT t && CanonL []) from rfl, ht]
      rfl
    · exact h1 fr (List.mem_cons_of_mem _ hm)

theorem attachTop_dropLast {st : List Frame} {t : PTree}
    (h2 : ∀ fr ∈ st.dropLast, pyStrip fr.ftitle = fr.ftitle ∧ fr.ftitle ≠ "") :
    ∀ fr ∈ (attachTop st t).dropLast,
      pyStrip fr.ftitle = fr.ftitle ∧ fr.ftitle ≠ "" := by
  cases st with
  | nil => intro fr hfr; exact absurd hfr (List.not_mem_nil fr)
  | cons f rest =>
    cases rest with
    | nil =>
      intro fr hfr
      exact absurd hfr (by simp [attachTop])
    | cons g rest2 =>
      intro fr hfr
      rw [show attachTop (f :: g :: rest2) t =
        { f with fchildren := f.fchildren ++ [t] } :: g :: rest2 from rfl] at hfr
      rw [List.dropLast_cons_of_ne_nil (by simp)] at hfr
      rcases List.mem_cons.mp hfr with he | hm
      · subst he
        have := h2 f (by rw [List.dropLast_cons_of_ne_nil (by simp)]
                         exact List.mem_cons_self _ _)
        exact this
      · exact h2 fr (by rw [List.dropLast_cons_of_ne_nil (by simp)]
                        exact List.mem_cons_of_mem _ hm)

/-- Every handler step preserves the invariant. -/
theorem stinv_pstep (s : ParseState) (e : HEvent) (hinv : StInv s) :
    StInv (pstep s e) := by
  obtain ⟨h1, h2⟩ := hinv
  cases e with
  | dataEv d =>
    have hst : (pstep s (.dataEv d)).stack = s.stack := by
      show (handleData s d).stack = s.stack
      simp only [handleData]
      split <;> rfl
    exact ⟨by rw [hst]; exact h1, by rw [hst]; exact h2⟩
  | startTag tg ats =>
    have hst : (pstep s (.startTag tg ats)).stack = s.stack := by
      show (handleStart s tg ats).stack = s.stack
      simp only [handleStart]
      split_ifs <;> rfl
    exact ⟨by rw [hst]; exact h1, by rw [hst]; exact h2⟩
  | endTag tg =>
    show StInv (handleEnd s tg)
    simp only [handleEnd]
    by_cases hta : pyLower tg = "h3" ∨ pyLower tg = "a"
    · rw [if_pos hta]
      by_cases hcf : s.capture = some CKind.cfolder
      · rw [if_pos hcf]
        cases hpf : s.pendingFolder with
        | none => exact ⟨h1, h2⟩
        | some pr =>
          obtain ⟨ad, lm⟩ := pr
          have hTgood : pyStrip (if pyStrip (String.join s.buffer) = "" then "Untitled"
                else pyStrip (String.join s.buffer)) =
              (if pyStrip (String.join s.buffer) = "" then "Untitled"
                else pyStrip (String.join s.buffer)) ∧
              (if pyStrip (String.join s.buffer) = "" then "Untitled"
                else pyStrip (String.join s.buffer)) ≠ "" := by
            by_cases hemp : pyStrip (String.join s.buffer) = ""
            · rw [if_pos hemp]
              exact ⟨by decide, by decide⟩
            · rw [if_neg hemp]
              exact ⟨pyStrip_idem _, hemp⟩
          constructor
          · intro fr hfr
            rcases List.mem_cons.mp hfr with he | hm
            · subst he; rfl
            · exact h1 fr hm
          · intro fr hfr
            cases hstk : s.stack with
            | nil =>
              rw [hstk] at hfr
              exact absurd hfr (by simp)
            | cons f0 rest0 =>
              rw [hstk, List.dropLast_cons_of_ne_nil (by simp)] at hfr
              rcases List.mem_cons.mp hfr with he | hm
              · subst he
                exact hTgood
              · exact h2 fr (by rw [hstk]; exact hm)
      · rw [if_neg hcf]
        by_cases hcl : s.capture = some CKind.clink
        · rw [if_pos hcl]
          cases hpl : s.pendingLink with
          | none => exact ⟨h1, h2⟩
          | some pr =>
            obtain ⟨u, ad, lm⟩ := pr
            have hbk : CanonT (.bookmark (pyStrip (String.join s.buffer)) u ad lm) = true := by
              show (pyStrip (pyStrip (String.join s.buffer)) ==
                pyStrip (String.join s.buffer)) = true
              rw [pyStrip_idem]
              exact beq_self_eq_true _
            constructor
            · intro fr hfr
              exact stinv_attachTop h1 hbk fr hfr
            · intro fr hfr
              exact attachTop_dropLast h2 fr hfr
        · rw [if_neg hcl]
          exact ⟨h1, h2⟩
    · rw [if_neg hta]
      by_cases htd : pyLower tg = "dl"
      · rw [if_pos htd]
        cases hstk : s.stack with
        | nil => exact ⟨h1, h2⟩
        | cons f rest =>
          cases rest with
          | nil => exact ⟨h1, h2⟩
          | cons g rest2 =>
            have hf1 : CanonL f.fchildren = true :=
              h1 f (by rw [hstk]; exact List.mem_cons_self _ _)
            have hft : pyStrip f.ftitle = f.ftitle ∧ f.ftitle ≠ "" := by
              refine h2 f ?_
              rw [hstk, List.dropLast_cons_of_ne_nil (by simp)]
              exact List.mem_cons_self _ _
            have hfo : CanonT (.folder f.ftitle f.fad f.flm f.fchildren) = true := by
              show ((pyStrip f.ftitle == f.ftitle) && (!(f.ftitle == "")) &&
                CanonL f.fchildren) = true
              rw [hf1, hft.1]
              simp [hft.2]
            have hsub : ∀ fr ∈ g :: rest2, CanonL fr.fchildren = true := by
              intro fr hfr
              exact h1 fr (by rw [hstk]; exact List.mem_cons_of_mem _ hfr)
            constructor
            · intro fr hfr
              exact stinv_attachTop hsub hfo fr hfr
            · intro fr hfr
              have hfr2 : fr ∈ (attachTop (g :: rest2)
                  (PTree.folder f.ftitle f.fad f.flm f.fchildren)).dropLast := hfr
              refine attachTop_dropLast ?_ fr hfr2
              intro fr3 hfr3
              refine h2 fr3 ?_
              rw [hstk, List.dropLast_cons_of_ne_nil (by simp)]
              exact List.mem_cons_of_mem _ hfr3
      · rw [if_neg htd]
        exact ⟨h1, h2⟩

theorem stinv_foldl :
    ∀ (evs : List HEvent) (st : ParseState), StInv st →
      StInv (evs.foldl pstep st) := by
  intro evs
  induction evs with
  | nil => intro st h; exact h
  | cons e evs ih =>
    intro st h
    exact ih _ (stinv_pstep st e h)

theorem collapseFold_canon :
    ∀ (rest : List Frame) (f : Frame), CanonL f.fchildren = true →
      (∀ fr ∈ rest, CanonL fr.fchildren = true) →
      (rest ≠ [] → pyStrip f.ftitle = f.ftitle ∧ f.ftitle ≠ "") →
      (∀ fr ∈ rest.dropLast, pyStrip fr.ftitle = fr.ftitle ∧ fr.ftitle ≠ "") →
      CanonL (collapseFold f rest).fchildren = true := by
  intro rest
  induction rest with
  | nil => intro f hf _ _ _; exact hf
  | cons g rest2 ih =>
    intro f hf hrest htitle hdrop
    have hftgood := htitle (by simp)
    have hfo : CanonT (.folder f.ftitle f.fad f.flm f.fchildren) = true := by
      show ((pyStrip f.ftitle == f.ftitle) && (!(f.ftitle == "")) &&
        CanonL f.fchildren) = true
      rw [hf, hftgood.1]
      simp [hftgood.2]
    show CanonL (collapseFold { g with fchildren := g.fchildren ++
      [PTree.folder f.ftitle f.fad f.flm f.fchildren] } rest2).fchildren = true
    refine ih _ ?_ ?_ ?_ ?_
    · show CanonL (g.fchildren ++ [PTree.folder f.ftitle f.fad f.flm f.fchildren]) = true
      rw [canonL_append, hrest g (List.mem_cons_self g rest2),
        show CanonL [PTree.folder f.ftitle f.fad f.flm f.fchildren] =
          (CanonT (PTree.folder f.ftitle f.fad f.flm f.fchildren) && CanonL []) from rfl,
        hfo]
      rfl
    · intro fr hfr
      exact hrest fr (List.mem_cons_of_mem _ hfr)
    · intro hne
      show pyStrip g.ftitle = g.ftitle ∧ g.ftitle ≠ ""
      refine hdrop g ?_
      cases rest2 with
      | nil => exact absurd rfl hne
      | cons a b =>
        rw [List.dropLast_cons_of_ne_nil (by simp)]
        exact List.mem_cons_self _ _
    · intro fr hfr
      cases rest2 with
      | nil => exact absurd hfr (by simp at hfr ⊢)
      | cons a b =>
        refine hdrop fr ?_
        rw [List.dropLast_cons_of_ne_nil (by simp)]
        exact List.mem_cons_of_mem _ hfr

/-- Whatever the document, the parser only produces canonical trees. -/
theorem parseDoc_canon (x : List Char) : CanonL (parseDoc x) = true := by
  have hinv : StInv ((tokenize x).foldl pstep initState) :=
    stinv_foldl (tokenize x) initState stinv_init
  obtain ⟨h1, h2⟩ := hinv
  show CanonL (collapse ((tokenize x).foldl pstep initState).stack) = true
  cases hstk : ((tokenize x).foldl pstep initState).stack with
  | nil => rfl
  | cons f rest =>
    show CanonL (collapseFold f rest).fchildren = true
    refine collapseFold_canon rest f (h1 f (by rw [hstk]; exact List.mem_cons_self _ _))
      (fun fr hfr => h1 fr (by rw [hstk]; exact List.mem_cons_of_mem _ hfr)) ?_ ?_
    · intro hne
      refine h2 f ?_
      rw [hstk]
      cases rest with
      | nil => exact absurd rfl hne
      | cons a b =>
        rw [List.dropLast_cons_of_ne_nil (by simp)]
        exact List.mem_cons_self _ _
    · intro fr hfr
      refine h2 fr ?_
      rw [hstk]
      cases rest with
      | nil => exact absurd hfr (by simp at hfr ⊢)
      | cons a b =>
        rw [List.dropLast_cons_of_ne_nil (by simp)]
        exact List.mem_cons_of_mem _ hfr

/-! #### Stepping through the exporter's output -/

/-- Opening a tag from a clean position. -/
theorem runTok_open (st : ParseState) (R : List Char) :
    runTok false [] st ('<' :: R) = runTok true [] st R := by
  have := runTok_data_split [] (fun x hx => absurd hx (List.not_mem_nil x)) st R
  simpa using this

/-- A data run before a tag is dropped whenever nothing is being
captured. -/
theorem runTok_skip_data {st : ParseState} (hcap : st.capture = none)
    (D : List Char) (hD : ∀ x ∈ D, x ≠ '<') (Y : List Char) :
    runTok false [] st (D ++ '<' :: Y) = runTok true [] st Y := by
  rw [runTok_data_split D hD st Y]
  by_cases h : D = []
  · rw [if_pos h]
  · rw [if_neg h, pstep_data_none hcap]

theorem indentL_space (i : Nat) : ∀ x ∈ indentL i, x = ' ' := by
  induction i with
  | zero => intro x hx; exact absurd hx (by simp [indentL])
  | succ j ih =>
    intro x hx
    rw [show indentL (j + 1) = "    ".data ++ indentL j by
      simp [indentL, List.replicate_succ]] at hx
    rcases List.mem_append.mp hx with hm | hm
    · exact (show ∀ y ∈ "    ".data, y = ' ' by decide) x hm
    · exact ih x hm

theorem indentL_no_lt (i : Nat) : ∀ x ∈ indentL i, x ≠ '<' := by
  intro x hx
  rw [indentL_space i x hx]
  decide

theorem attachAll_cons :
    ∀ (cs : List PTree) (f : Frame) (stk : List Frame),
      cs.foldl attachTop (f :: stk) =
        { f with fchildren := f.fchildren ++ cs } :: stk := by
  intro cs
  induction cs with
  | nil =>
    intro f stk
    show f :: stk = { f with fchildren := f.fchildren ++ [] } :: stk
    rw [List.append_nil]
  | cons c cs ih =>
    intro f stk
    rw [List.foldl_cons,
      show attachTop (f :: stk) c = { f with fchildren := f.fchildren ++ [c] } :: stk
        from rfl,
      ih, List.append_assoc, List.singleton_append]

theorem ptc_dt : parseTagContent "DT".data = some (.startTag "dt" []) := by decide

theorem ptc_dl : parseTagContent "DL".data = some (.startTag "dl" []) := by decide

theorem ptc_p : parseTagContent "p".data = some (.startTag "p" []) := by decide

theorem ptc_end_h3 : parseTagContent "/H3".data = some (.endTag "h3") := by decide

theorem ptc_end_a : parseTagContent "/A".data = some (.endTag "a") := by decide

theorem ptc_end_dl : parseTagContent "/DL".data = some (.endTag "dl") := by decide

theorem h3content_safe (v1 v2 : List Char)
    (h1 : ∀ x ∈ v1, x ≠ '>') (h2 : ∀ x ∈ v2, x ≠ '>') :
    ∀ x ∈ "H3 ADD_DATE=\"".data ++ v1 ++
      ("\" LAST_MODIFIED=\"".data ++ (v2 ++ ['"'])), x ≠ '>' := by
  intro x hx
  rcases List.mem_append.mp hx with hm | hm
  · rcases List.mem_append.mp hm with hm2 | hm2
    · exact (show ∀ y ∈ "H3 ADD_DATE=\"".data, y ≠ '>' by decide) x hm2
    · exact h1 x hm2
  · rcases List.mem_append.mp hm with hm2 | hm2
    · exact (show ∀ y ∈ "\" LAST_MODIFIED=\"".data, y ≠ '>' by decide) x hm2
    · rcases List.mem_append.mp hm2 with hm3 | hm3
      · exact h2 x hm3
      · rw [List.mem_singleton] at hm3; subst hm3; decide

theorem acontent_safe (vu v1 v2 : List Char) (hu : ∀ x ∈ vu, x ≠ '>')
    (h1 : ∀ x ∈ v1, x ≠ '>') (h2 : ∀ x ∈ v2, x ≠ '>') :
    ∀ x ∈ "A HREF=\"".data ++ vu ++ ("\" ADD_DATE=\"".data ++
      (v1 ++ ("\" LAST_MODIFIED=\"".data ++ (v2 ++ ['"'])))), x ≠ '>' := by
  intro x hx
  rcases List.mem_append.mp hx with hm | hm
  · rcases List.mem_append.mp hm with hm2 | hm2
    · exact (show ∀ y ∈ "A HREF=\"".data, y ≠ '>' by decide) x hm2
    · exact hu x hm2
  · rcases List.mem_append.mp hm with hm2 | hm2
    · exact (show ∀ y ∈ "\" ADD_DATE=\"".data, y ≠ '>' by decide) x hm2
    · rcases List.mem_append.mp hm2 with hm3 | hm3
      · exact h1 x hm3
      · rcases List.mem_append.mp hm3 with hm4 | hm4
        · exact (show ∀ y ∈ "\" LAST_MODIFIED=\"".data, y ≠ '>' by decide) x hm4
        · rcases List.mem_append.mp hm4 with hm5 | hm5
          · exact h2 x hm5
          · rw [List.mem_singleton] at hm5; subst hm5; decide

/-! #### The exporter output in continuation form (right-nested
concatenation, for stepping through the tokenizer) -/

/-- A tag followed by a continuation. -/
def tagK (content k : List Char) : List Char := '<' :: (content ++ ('>' :: k))

theorem tagK_eq (content k : List Char) : tagK content k = tagChunk content ++ k := by
  simp [tagK, tagChunk]

mutual
def serNodeK (i : Nat) : PTree → List Char → List Char
  | .folder t ad lm cs, k =>
    indentL i ++ tagK "DT".data (tagK
      ("H3 ADD_DATE=\"".data ++ (escL ad.data ++
        ("\" LAST_MODIFIED=\"".data ++ (escL lm.data ++ ['"']))))
      (escL t.data ++ tagK "/H3".data ('\n' ::
        (indentL i ++ tagK "DL".data (tagK "p".data ('\n' ::
          serForestK (i + 1) cs
            (indentL i ++ tagK "/DL".data (tagK "p".data ('\n' :: k)))))))))
  | .bookmark t u ad lm, k =>
    indentL i ++ tagK "DT".data (tagK
      ("A HREF=\"".data ++ (escL u.data ++ ("\" ADD_DATE=\"".data ++
        (escL ad.data ++ ("\" LAST_MODIFIED=\"".data ++ (escL lm.data ++ ['"']))))))
      (escL t.data ++ tagK "/A".data ('\n' :: k)))

def serForestK (i : Nat) : List PTree → List Char → List Char
  | [], k => k
  | c :: cs, k => serNodeK i c (serForestK i cs k)
end

mutual
theorem serNodeK_spec (i : Nat) (n : PTree) (k : List Char) :
    serNodeK i n k = serNode i n ++ k := by
  cases n with
  | folder t ad lm cs =>
    rw [show serNodeK i (.folder t ad lm cs) k =
      indentL i ++ tagK "DT".data (tagK
        ("H3 ADD_DATE=\"".data ++ (escL ad.data ++
          ("\" LAST_MODIFIED=\"".data ++ (escL lm.data ++ ['"']))))
        (escL t.data ++ tagK "/H3".data ('\n' ::
          (indentL i ++ tagK "DL".data (tagK "p".data ('\n' ::
            serForestK (i + 1) cs
              (indentL i ++ tagK "/DL".data (tagK "p".data ('\n' :: k)))))))))
      from rfl]
    rw [serForestK_spec (i + 1) cs
      (indentL i ++ tagK "/DL".data (tagK "p".data ('\n' :: k)))]
    simp [serNode, tagK, tagChunk, List.append_assoc]
  | bookmark t u ad lm =>
    rw [show serNodeK i (.bookmark t u ad lm) k =
      indentL i ++ tagK "DT".data (tagK
        ("A HREF=\"".data ++ (escL u.data ++ ("\" ADD_DATE=\"".data ++
          (escL ad.data ++ ("\" LAST_MODIFIED=\"".data ++ (escL lm.data ++ ['"']))))))
        (escL t.data ++ tagK "/A".data ('\n' :: k))) from rfl]
    simp [serNode, tagK, tagChunk, List.append_assoc]

theorem serForestK_spec (i : Nat) (cs : List PTree) (k : List Char) :
    serForestK i cs k = serForest i cs ++ k := by
  cases cs with
  | nil => rw [show serForestK i [] k = k from rfl]; simp [serForest]
  | cons c cs2 =>
    rw [show serForestK i (c :: cs2) k = serNodeK i c (serForestK i cs2 k) from rfl,
      serNodeK_spec i c (serForestK i cs2 k), serForestK_spec i cs2 k]
    simp [serForest, List.append_assoc]
end

/-- Step through one complete tag with a (possibly empty) data prefix. -/
theorem runTok_chunkK (st : ParseState) (D A k : List Char)
    (hD : ∀ x ∈ D, x ≠ '<') (hA : ∀ x ∈ A, x ≠ '>') :
    runTok false [] st (D ++ tagK A k) =
      runTok false []
        (applyOpt (if D = [] then st else pstep st (.dataEv ⟨unescapeL D⟩))
          (parseTagContent A)) k := by
  rw [show tagK A k = '<' :: (A ++ ('>' :: k)) from rfl,
    runTok_data_split D hD st (A ++ '>' :: k), runTok_tag_split A hA _ k]

/-- Same, when nothing is captured: the data prefix is simply dropped. -/
theorem runTok_skipK {st : ParseState} (hcap : st.capture = none)
    (D A k : List Char) (hD : ∀ x ∈ D, x ≠ '<') (hA : ∀ x ∈ A, x ≠ '>') :
    runTok false [] st (D ++ tagK A k) =
      runTok false [] (applyOpt st (parseTagContent A)) k := by
  rw [runTok_chunkK st D A k hD hA]
  by_cases h : D = []
  · rw [if_pos h]
  · rw [if_neg h, pstep_data_none hcap]

/-- Same, with no data prefix at all. -/
theorem runTok_tagK (st : ParseState) (A k : List Char) (hA : ∀ x ∈ A, x ≠ '>') :
    runTok false [] st (tagK A k) =
      runTok false [] (applyOpt st (parseTagContent A)) k := by
  have := runTok_chunkK st [] A k (fun x hx => absurd hx (List.not_mem_nil x)) hA
  simpa using this

theorem canonT_folder {t ad lm : String} {cs : List PTree}
    (h : CanonT (.folder t ad lm cs) = true) :
    pyStrip t = t ∧ t ≠ "" ∧ CanonL cs = true := by
  rw [show CanonT (.folder t ad lm cs) =
    ((pyStrip t == t) && (!(t == "")) && CanonL cs) from rfl] at h
  rw [Bool.and_eq_true, Bool.and_eq_true] at h
  obtain ⟨⟨h1, h2⟩, h3⟩ := h
  refine ⟨eq_of_beq h1, ?_, h3⟩
  intro he
  rw [he] at h2
  simp at h2

theorem canonT_bookmark {t u ad lm : String}
    (h : CanonT (.bookmark t u ad lm) = true) : pyStrip t = t :=
  eq_of_beq h

theorem canonL_cons {c : PTree} {cs : List PTree}
    (h : CanonL (c :: cs) = true) : CanonT c = true ∧ CanonL cs = true := by
  rw [show CanonL (c :: cs) = (CanonT c && CanonL cs) from rfl,
    Bool.and_eq_true] at h
  exact h

theorem nl_indent_no_lt (i : Nat) : ∀ x ∈ '\n' :: indentL i, x ≠ '<' := by
  intro x hx
  rcases List.mem_cons.mp hx with h | h
  · subst h; decide
  · exact indentL_no_lt i x h

/-! #### Replaying the exporter's output through the parser -/

mutual
/-- Consuming one serialized node (preceded by any already-pending
clean data run) attaches exactly that node to the top of the stack. -/
theorem replayNodeK (n : PTree) (i : Nat) :
    ∀ (stk : List Frame) (D k : List Char), CanonT n = true → stk ≠ [] →
      (∀ x ∈ D, x ≠ '<') →
      runTok false [] ⟨stk, none, none, none, []⟩ (D ++ serNodeK i n k) =
        runTok false [] ⟨attachTop stk n, none, none, none, []⟩ ('\n' :: k) := by
  cases n with
  | folder t ad lm cs =>
    intro stk D k hc hne hD
    obtain ⟨hstrip, hnz, hcs⟩ := canonT_folder hc
    rw [show serNodeK i (.folder t ad lm cs) k =
      indentL i ++ tagK "DT".data (tagK
        ("H3 ADD_DATE=\"".data ++ (escL ad.data ++
          ("\" LAST_MODIFIED=\"".data ++ (escL lm.data ++ ['"']))))
        (escL t.data ++ tagK "/H3".data ('\n' ::
          (indentL i ++ tagK "DL".data (tagK "p".data ('\n' ::
            serForestK (i + 1) cs
              (indentL i ++ tagK "/DL".data (tagK "p".data ('\n' :: k)))))))))
      from rfl]
    rw [← List.append_assoc]
    rw [runTok_skipK rfl (D ++ indentL i) "DT".data _
      (fun x hx => by
        rcases List.mem_append.mp hx with hm | hm
        · exact hD x hm
        · exact indentL_no_lt i x hm)
      (by decide)]
    rw [ptc_dt]
    rw [runTok_tagK _
      ("H3 ADD_DATE=\"".data ++ (escL ad.data ++
        ("\" LAST_MODIFIED=\"".data ++ (escL lm.data ++ ['"'])))) _
      (h3content_safe (escL ad.data) (escL lm.data)
        (fun x hx => (escL_safe _ x hx).2.1) (fun x hx => (escL_safe _ x hx).2.1))]
    rw [parseTag_h3 (escL ad.data) (escL lm.data)
      (fun x hx => (escL_safe _ x hx).2.2) (fun x hx => (escL_safe _ x hx).2.2)]
    have had : (⟨unescapeL (escL ad.data)⟩ : String) = ad := by
      rw [unescapeL_escL_nil]
    have hlm : (⟨unescapeL (escL lm.data)⟩ : String) = lm := by
      rw [unescapeL_escL_nil]
    rw [had, hlm]
    rw [runTok_chunkK _ (escL t.data) "/H3".data _
      (fun x hx => (escL_safe _ x hx).1) (by decide)]
    rw [ptc_end_h3]
    by_cases ht0 : escL t.data = []
    · exfalso
      have hdata : t.data = [] := (escL_eq_nil_iff t.data).mp ht0
      refine hnz ?_
      cases t
      simp at hdata
      subst hdata
      rfl
    · rw [if_neg ht0]
      have hdt : (⟨unescapeL (escL t.data)⟩ : String) = t := by
        rw [unescapeL_escL_nil]
      rw [hdt]
      trans (runTok false []
        (⟨⟨if pyStrip (String.join [t]) = "" then "Untitled"
             else pyStrip (String.join [t]), ad, lm, []⟩ :: stk,
          none, none, none, []⟩ : ParseState)
        ('\n' :: (indentL i ++ tagK "DL".data (tagK "p".data ('\n' ::
          serForestK (i + 1) cs
            (indentL i ++ tagK "/DL".data (tagK "p".data ('\n' :: k))))))))
      · rfl
      rw [join_single, hstrip, if_neg hnz]
      rw [show ('\n' :: (indentL i ++ tagK "DL".data (tagK "p".data ('\n' ::
          serForestK (i + 1) cs
            (indentL i ++ tagK "/DL".data (tagK "p".data ('\n' :: k))))))) =
        ('\n' :: indentL i) ++ tagK "DL".data (tagK "p".data ('\n' ::
          serForestK (i + 1) cs
            (indentL i ++ tagK "/DL".data (tagK "p".data ('\n' :: k))))) from rfl]
      rw [runTok_skipK rfl ('\n' :: indentL i) "DL".data _ (nl_indent_no_lt i)
        (by decide)]
      rw [ptc_dl]
      rw [runTok_tagK _ "p".data _ (by decide)]
      rw [ptc_p]
      trans (runTok false []
        (⟨⟨t, ad, lm, []⟩ :: stk, none, none, none, []⟩ : ParseState)
        ('\n' :: serForestK (i + 1) cs
          (indentL i ++ tagK "/DL".data (tagK "p".data ('\n' :: k)))))
      · rfl
      rw [replayForestK cs (i + 1) (⟨t, ad, lm, []⟩ :: stk)
        (indentL i ++ tagK "/DL".data (tagK "p".data ('\n' :: k))) hcs (by simp)]
      rw [attachAll_cons]
      rw [show ('\n' :: (indentL i ++ tagK "/DL".data (tagK "p".data ('\n' :: k)))) =
        ('\n' :: indentL i) ++ tagK "/DL".data (tagK "p".data ('\n' :: k)) from rfl]
      rw [runTok_skipK rfl ('\n' :: indentL i) "/DL".data _ (nl_indent_no_lt i)
        (by decide)]
      rw [ptc_end_dl]
      cases stk with
      | nil => exact absurd rfl hne
      | cons g rest =>
        rw [runTok_tagK _ "p".data _ (by decide)]
        rw [ptc_p]
        rfl
  | bookmark t u ad lm =>
    intro stk D k hc hne hD
    have hstrip := canonT_bookmark hc
    rw [show serNodeK i (.bookmark t u ad lm) k =
      indentL i ++ tagK "DT".data (tagK
        ("A HREF=\"".data ++ (escL u.data ++ ("\" ADD_DATE=\"".data ++
          (escL ad.data ++ ("\" LAST_MODIFIED=\"".data ++ (escL lm.data ++ ['"']))))))
        (escL t.data ++ tagK "/A".data ('\n' :: k))) from rfl]
    rw [← List.append_assoc]
    rw [runTok_skipK rfl (D ++ indentL i) "DT".data _
      (fun x hx => by
        rcases List.mem_append.mp hx with hm | hm
        · exact hD x hm
        · exact indentL_no_lt i x hm)
      (by decide)]
    rw [ptc_dt]
    rw [runTok_tagK _
      ("A HREF=\"".data ++ (escL u.data ++ ("\" ADD_DATE=\"".data ++
        (escL ad.data ++ ("\" LAST_MODIFIED=\"".data ++ (escL lm.data ++ ['"'])))))) _
      (acontent_safe (escL u.data) (escL ad.data) (escL lm.data)
        (fun x hx => (escL_safe _ x hx).2.1) (fun x hx => (escL_safe _ x hx).2.1)
        (fun x hx => (escL_safe _ x hx).2.1))]
    rw [parseTag_a (escL u.data) (escL ad.data) (escL lm.data)
      (fun x hx => (escL_safe _ x hx).2.2) (fun x hx => (escL_safe _ x hx).2.2)
      (fun x hx => (escL_safe _ x hx).2.2)]
    have hu2 : (⟨unescapeL (escL u.data)⟩ : String) = u := by
      rw [unescapeL_escL_nil]
    have had : (⟨unescapeL (escL ad.data)⟩ : String) = ad := by
      rw [unescapeL_escL_nil]
    have hlm : (⟨unescapeL (escL lm.data)⟩ : String) = lm := by
      rw [unescapeL_escL_nil]
    rw [hu2, had, hlm]
    rw [runTok_chunkK _ (escL t.data) "/A".data _
      (fun x hx => (escL_safe _ x hx).1) (by decide)]
    rw [ptc_end_a]
    by_cases ht0 : escL t.data = []
    · rw [if_pos ht0]
      have hdata : t.data = [] := (escL_eq_nil_iff t.data).mp ht0
      have ht : t = "" := by
        cases t
        simp at hdata
        subst hdata
        rfl
      trans (runTok false []
        (⟨attachTop stk (.bookmark (pyStrip (String.join [])) u ad lm),
          none, none, none, []⟩ : ParseState) ('\n' :: k))
      · rfl
      rw [show pyStrip (String.join []) = t by rw [ht]; rfl]
    · rw [if_neg ht0]
      have hdt : (⟨unescapeL (escL t.data)⟩ : String) = t := by
        rw [unescapeL_escL_nil]
      rw [hdt]
      trans (runTok false []
        (⟨attachTop stk (.bookmark (pyStrip (String.join [t])) u ad lm),
          none, none, none, []⟩ : ParseState) ('\n' :: k))
      · rfl
      rw [join_single, hstrip]
termination_by sizeOf n

/-- Consuming a serialized forest (opened by the pending newline of the
preceding line) attaches its trees, in order, to the top of the stack. -/
theorem replayForestK (cs : List PTree) (i : Nat) :
    ∀ (stk : List Frame) (k : List Char), CanonL cs = true → stk ≠ [] →
      runTok false [] ⟨stk, none, none, none, []⟩ ('\n' :: serForestK i cs k) =
        runTok false [] ⟨cs.foldl attachTop stk, none, none, none, []⟩ ('\n' :: k) := by
  cases cs with
  | nil => intro stk k _ _; rfl
  | cons c cs2 =>
    intro stk k hc hne
    obtain ⟨hc1, hc2⟩ := canonL_cons hc
    rw [show serForestK i (c :: cs2) k = serNodeK i c (serForestK i cs2 k) from rfl]
    rw [show ('\n' :: serNodeK i c (serForestK i cs2 k)) =
      ['\n'] ++ serNodeK i c (serForestK i cs2 k) from rfl]
    rw [replayNodeK c i stk ['\n'] (serForestK i cs2 k) hc1 hne
      (by intro x hx; rw [List.mem_singleton] at hx; subst hx; decide)]
    rw [replayForestK cs2 i (attachTop stk c) k hc2 (by
      cases stk with
      | nil => exact absurd rfl hne
      | cons f rest => simp [attachTop])]
    rw [List.foldl_cons]
termination_by sizeOf cs
end

/-- The header is parsed without any effect on the handler state: its only
markup-declaration, meta, title, h1 and opening dl/p events are ignored,
and its trailing newline opens the first data run of the body. -/
theorem header_run (X : List Char) :
    runTok false [] initState (headerChunks ++ X) =
      runTok false []
        (⟨[⟨"Bookmarks", "", "", []⟩], none, none, none, []⟩ : ParseState)
        ('\n' :: X) := rfl

/-- Exporting a canonical forest and reparsing recovers it exactly. -/
theorem parseDoc_serializeDoc (cs : List PTree) (hc : CanonL cs = true) :
    parseDoc (serializeDoc cs) = cs := by
  have h2 : serializeDoc cs = headerChunks ++ serForestK 1 cs footerChunks := by
    simp only [serializeDoc, serForestK_spec, List.append_assoc]
  show collapse (runTok false [] initState (serializeDoc cs)).stack = cs
  rw [h2, header_run (serForestK 1 cs footerChunks),
    replayForestK cs 1 [⟨"Bookmarks", "", "", []⟩] footerChunks hc (by simp),
    attachAll_cons]
  rfl

/-- C3: for every document `x`, `parse(serialize(parse(x)))` is
structurally equal to `parse(x)`: the round trip through
`export_netscape_html` and `NetscapeBookmarkParser` preserves node kinds,
titles, urls, add_date/last_modified fields and child ordering exactly
(the trees are equal as values, though the raw bytes need not be). -/
theorem claim_C3_roundtrip :
    ∀ x : List Char, parseRoot (serializeRoot (parseRoot x)) = parseRoot x := by
  intro x
  show parseRoot (serializeDoc (parseDoc x)) = parseRoot x
  show PTree.folder "Bookmarks" "" "" (parseDoc (serializeDoc (parseDoc x))) =
    PTree.folder "Bookmarks" "" "" (parseDoc x)
  rw [parseDoc_serializeDoc (parseDoc x) (parseDoc_canon x)]

end NeoBMM
